import Mathlib

/-!
Verification of the local-socket transport layer of actually-doom.nvim
(src/doom/src/doomgeneric_actually.c): the circular receive/key buffers,
the send-buffer encoders, the resumable inbound-message decoder and the
input-poll path.

Machine integers are modelled as `Nat` with explicit `% 256` / `% 65536`
where the C performs narrowing conversions.  The C `char` (signed on the
target platforms) holds one byte; a `char → uint8_t` conversion is
`% 256`, and the `char → uint16_t` conversion inside `Ring_Read16`
sign-extends, which `read16val` models bit-exactly.
-/

set_option linter.unusedVariables false

/-- RINGBUF_SIZE from the C source (kept a power of two there). -/
def RINGBUF_SIZE : Nat := 512

/-- RINGBUF_CAP: max length is one less than the size, as `start_i == end_i`
means empty, not full. -/
def RINGBUF_CAP : Nat := RINGBUF_SIZE - 1

/-- ringbuf_t: fixed-capacity circular byte buffer (`char data[RINGBUF_SIZE]`
with read index `start_i` and write index `end_i`).  `data` is modelled as a
list of byte values; well-formed states (`RingWF`) have
`data.length = RINGBUF_SIZE`. -/
structure ringbuf_t where
  data : List Nat
  start_i : Nat
  end_i : Nat
deriving DecidableEq, Repr

/-- Ring_IsEmpty: `start_i == end_i`. -/
def Ring_IsEmpty (r : ringbuf_t) : Bool :=
  r.start_i == r.end_i

/-- Ring_IsFull: `(end_i + 1) % RINGBUF_SIZE == start_i`. -/
def Ring_IsFull (r : ringbuf_t) : Bool :=
  (r.end_i + 1) % RINGBUF_SIZE == r.start_i

/-- Ring_GetLen: number of buffered bytes. -/
def Ring_GetLen (r : ringbuf_t) : Nat :=
  if r.start_i ≤ r.end_i then r.end_i - r.start_i
  else RINGBUF_SIZE - r.start_i + r.end_i

/-- Ring_Read8: fails on an empty buffer, otherwise pops the byte at
`start_i` (the `char → uint8_t` conversion is the `% 256`). -/
def Ring_Read8 (r : ringbuf_t) : Option (Nat × ringbuf_t) :=
  if Ring_IsEmpty r then none
  else some (r.data.getD r.start_i 0 % 256,
             { r with start_i := (r.start_i + 1) % RINGBUF_SIZE })

/-- read16val: the value `Ring_Read16` assembles from the two bytes at the
front of the buffer.  The C code reads signed `char`s:
`*v = data[i]` sign-extends a byte ≥ 128 into the upper half of the
`uint16_t`, and the subsequent `*v |= data[i+1] << 8` ORs the (truncated)
high byte on top. -/
def read16val (b0 b1 : Nat) : Nat :=
  (if b0 % 256 < 128 then b0 % 256 else 65280 + b0 % 256) ||| (b1 % 256 * 256)

/-- Ring_Read16: fails (without consuming) when fewer than 2 bytes are
buffered; otherwise pops two bytes, advancing `start_i` twice mod
`RINGBUF_SIZE` as the C does. -/
def Ring_Read16 (r : ringbuf_t) : Option (Nat × ringbuf_t) :=
  if Ring_GetLen r < 2 then none
  else
    let b0 := r.data.getD r.start_i 0
    let s1 := (r.start_i + 1) % RINGBUF_SIZE
    let b1 := r.data.getD s1 0
    some (read16val b0 b1, { r with start_i := (s1 + 1) % RINGBUF_SIZE })

/-- Ring_ReadBytes: all-or-nothing read of `len` bytes.  Mirrors the C's two
`memcpy`s: a first contiguous copy of `first_copy_len` bytes and, when the
data wraps, a second copy from the front of the backing array (after which
the C adds `len` to `start_i` without taking the modulus). -/
def Ring_ReadBytes (r : ringbuf_t) (len : Nat) : Option (List Nat × ringbuf_t) :=
  if len = 0 then some ([], r)
  else if Ring_GetLen r < len then none
  else
    let first_raw := if r.start_i ≤ r.end_i then r.end_i - r.start_i
                     else RINGBUF_SIZE - r.start_i
    let first := min first_raw len
    let part1 := ((r.data.drop r.start_i).take first).map (· % 256)
    let s1 := (r.start_i + first) % RINGBUF_SIZE
    let rest := len - first
    if rest = 0 then some (part1, { r with start_i := s1 })
    else some (part1 ++ ((r.data.drop s1).take rest).map (· % 256),
               { r with start_i := s1 + rest })

/-- Ring_Write8: fails on a full buffer, otherwise stores the byte at
`end_i` (the argument is a `uint8_t`, hence `% 256`). -/
def Ring_Write8 (r : ringbuf_t) (v : Nat) : Option ringbuf_t :=
  if Ring_IsFull r then none
  else some { r with data := r.data.set r.end_i (v % 256),
                     end_i := (r.end_i + 1) % RINGBUF_SIZE }

/-- RingWF: well-formed ring states — the backing array has the fixed size,
both indices are in range and every stored cell is a byte value. -/
def RingWF (r : ringbuf_t) : Prop :=
  r.data.length = RINGBUF_SIZE ∧ r.start_i < RINGBUF_SIZE ∧
    r.end_i < RINGBUF_SIZE ∧ ∀ b ∈ r.data, b < 256

instance (r : ringbuf_t) : Decidable (RingWF r) := by
  unfold RingWF; infer_instance

/-- ringToList: the abstract queue of buffered bytes, oldest first. -/
def ringToList (r : ringbuf_t) : List Nat :=
  (List.range (Ring_GetLen r)).map
    (fun i => r.data.getD ((r.start_i + i) % RINGBUF_SIZE) 0)

theorem ringToList_length (r : ringbuf_t) :
    (ringToList r).length = Ring_GetLen r := by
  simp [ringToList]

theorem Ring_GetLen_lt_size (r : ringbuf_t) (h : RingWF r) :
    Ring_GetLen r < RINGBUF_SIZE := by
  obtain ⟨hd, hs, he, hb⟩ := h
  simp only [Ring_GetLen, RINGBUF_SIZE] at *
  split <;> omega

theorem Ring_IsEmpty_iff (r : ringbuf_t) (h : RingWF r) :
    Ring_IsEmpty r = true ↔ Ring_GetLen r = 0 := by
  obtain ⟨hd, hs, he, hb⟩ := h
  simp only [Ring_IsEmpty, Ring_GetLen, RINGBUF_SIZE, beq_iff_eq] at *
  split <;> omega

theorem Ring_IsFull_iff (r : ringbuf_t) (h : RingWF r) :
    Ring_IsFull r = true ↔ Ring_GetLen r = RINGBUF_CAP := by
  obtain ⟨hd, hs, he, hb⟩ := h
  simp only [Ring_IsFull, Ring_GetLen, RINGBUF_CAP, RINGBUF_SIZE, beq_iff_eq] at *
  rcases Nat.lt_or_ge (r.end_i + 1) 512 with h1 | h1
  · rw [Nat.mod_eq_of_lt h1]
    split <;> omega
  · have he2 : r.end_i = 511 := by omega
    rw [he2]
    norm_num
    split <;> omega

/-! ### Queue abstraction lemmas for the ring operations -/

theorem list_getD_set_ne (l : List Nat) (e j w : Nat) (hne : j ≠ e) :
    (l.set e w).getD j 0 = l.getD j 0 := by
  by_cases hj : j < l.length
  · rw [List.getD_eq_getElem _ _ (by simpa using hj),
      List.getD_eq_getElem _ _ hj]
    exact List.getElem_set_of_ne (by omega) _ _
  · rw [List.getD_eq_default _ _ (by simpa using Nat.le_of_not_lt hj),
      List.getD_eq_default _ _ (Nat.le_of_not_lt hj)]

theorem list_getD_set_self (l : List Nat) (e w : Nat) (he : e < l.length) :
    (l.set e w).getD e 0 = w := by
  rw [List.getD_eq_getElem _ _ (by simpa using he)]
  exact List.getElem_set_self _

theorem ringToList_getD (r : ringbuf_t) (i : Nat) (hi : i < Ring_GetLen r) :
    (ringToList r).getD i 0 = r.data.getD ((r.start_i + i) % RINGBUF_SIZE) 0 := by
  rw [ringToList, List.getD_eq_getElem _ _ (by simpa using hi)]
  simp

theorem ringToList_getElem (r : ringbuf_t) (i : Nat)
    (hi : i < (ringToList r).length) :
    (ringToList r)[i] = r.data.getD ((r.start_i + i) % RINGBUF_SIZE) 0 := by
  simp [ringToList]

theorem Ring_GetLen_eq (r : ringbuf_t) (h : RingWF r) :
    Ring_GetLen r = (r.end_i + RINGBUF_SIZE - r.start_i) % RINGBUF_SIZE := by
  obtain ⟨hd, hs, he, hb⟩ := h
  simp only [Ring_GetLen, RINGBUF_SIZE] at *
  split <;> omega

theorem RingWF_set_start (r : ringbuf_t) (h : RingWF r) (n : Nat) :
    RingWF { r with start_i := (r.start_i + n) % RINGBUF_SIZE } :=
  ⟨h.1, Nat.mod_lt _ (by norm_num [RINGBUF_SIZE]), h.2.2.1, h.2.2.2⟩

theorem ring_advance_getLen (r : ringbuf_t) (h : RingWF r) (n : Nat)
    (hn : n ≤ Ring_GetLen r) :
    Ring_GetLen { r with start_i := (r.start_i + n) % RINGBUF_SIZE } =
      Ring_GetLen r - n := by
  rw [Ring_GetLen_eq _ h] at hn ⊢
  rw [Ring_GetLen_eq _ (RingWF_set_start r h n)]
  obtain ⟨hd, hs, he, hb⟩ := h
  simp only [RINGBUF_SIZE] at *
  omega

theorem ringToList_advance (r : ringbuf_t) (h : RingWF r) (n : Nat)
    (hn : n ≤ Ring_GetLen r) :
    ringToList { r with start_i := (r.start_i + n) % RINGBUF_SIZE } =
      (ringToList r).drop n := by
  apply List.ext_getElem
  · simp [ringToList_length, ring_advance_getLen r h n hn]
  · intro i h1 h2
    rw [ringToList_getElem, List.getElem_drop, ringToList_getElem]
    show r.data.getD (((r.start_i + n) % RINGBUF_SIZE + i) % RINGBUF_SIZE) 0 =
      r.data.getD ((r.start_i + (n + i)) % RINGBUF_SIZE) 0
    rw [Nat.mod_add_mod, Nat.add_assoc]

theorem ring_data_getD_mod (r : ringbuf_t) (h : RingWF r) (i : Nat) :
    r.data.getD i 0 % 256 = r.data.getD i 0 := by
  by_cases hi : i < r.data.length
  · apply Nat.mod_eq_of_lt
    rw [List.getD_eq_getElem _ _ hi]
    exact h.2.2.2 _ (List.getElem_mem hi)
  · rw [List.getD_eq_default _ _ (Nat.le_of_not_lt hi)]

theorem ring_index_ne (r : ringbuf_t) (h : RingWF r) (i : Nat)
    (hi : i < Ring_GetLen r) : (r.start_i + i) % RINGBUF_SIZE ≠ r.end_i := by
  rw [Ring_GetLen_eq _ h] at hi
  obtain ⟨hd, hs, he, hb⟩ := h
  simp only [RINGBUF_SIZE] at *
  omega

theorem ring_index_end (r : ringbuf_t) (h : RingWF r) :
    (r.start_i + Ring_GetLen r) % RINGBUF_SIZE = r.end_i := by
  rw [Ring_GetLen_eq _ h]
  obtain ⟨hd, hs, he, hb⟩ := h
  simp only [RINGBUF_SIZE] at *
  omega

/-- Ring_Read8 fails exactly on an empty buffer. -/
theorem Ring_Read8_eq_none (r : ringbuf_t) (h : RingWF r) :
    Ring_Read8 r = none ↔ Ring_GetLen r = 0 := by
  rw [Ring_Read8, ← Ring_IsEmpty_iff r h]
  by_cases hemp : Ring_IsEmpty r <;> simp [hemp]

/-- Ring_Read8 on a non-empty buffer pops the head of the byte queue. -/
theorem Ring_Read8_spec (r : ringbuf_t) (h : RingWF r)
    (hne : Ring_GetLen r ≠ 0) :
    Ring_Read8 r = some ((ringToList r).getD 0 0,
      { r with start_i := (r.start_i + 1) % RINGBUF_SIZE }) := by
  have hemp : ¬ Ring_IsEmpty r = true := by
    rw [Ring_IsEmpty_iff r h]; exact hne
  have hss : (r.start_i + 0) % RINGBUF_SIZE = r.start_i := by
    have := h.2.1
    simp only [RINGBUF_SIZE] at *
    omega
  rw [Ring_Read8, if_neg hemp, ringToList_getD r 0 (by omega), hss,
    ring_data_getD_mod r h]

/-- Ring_Read16 fails exactly when fewer than 2 bytes are buffered. -/
theorem Ring_Read16_eq_none (r : ringbuf_t) (h : RingWF r) :
    Ring_Read16 r = none ↔ Ring_GetLen r < 2 := by
  rw [Ring_Read16]
  by_cases hlt : Ring_GetLen r < 2 <;> simp [hlt]

/-- Ring_Read16 with at least 2 bytes buffered pops the first two queue
bytes and assembles `read16val` from them. -/
theorem Ring_Read16_spec (r : ringbuf_t) (h : RingWF r)
    (hge : 2 ≤ Ring_GetLen r) :
    Ring_Read16 r = some
      (read16val ((ringToList r).getD 0 0) ((ringToList r).getD 1 0),
       { r with start_i := (r.start_i + 2) % RINGBUF_SIZE }) := by
  have h0 : (ringToList r).getD 0 0 = r.data.getD r.start_i 0 := by
    rw [ringToList_getD r 0 (by omega)]
    congr 1
    have := h.2.1
    simp only [RINGBUF_SIZE] at *
    omega
  have h1 : (ringToList r).getD 1 0 =
      r.data.getD ((r.start_i + 1) % RINGBUF_SIZE) 0 := by
    rw [ringToList_getD r 1 (by omega)]
  have h2 : ((r.start_i + 1) % RINGBUF_SIZE + 1) % RINGBUF_SIZE =
      (r.start_i + 2) % RINGBUF_SIZE := by
    rw [Nat.mod_add_mod]
  simp only [Ring_Read16, if_neg (show ¬ Ring_GetLen r < 2 by omega), h0, h1, h2]

/-- ringWrite8: the successor state produced by a successful `Ring_Write8`
(specification-side abbreviation). -/
def ringWrite8 (r : ringbuf_t) (v : Nat) : ringbuf_t :=
  { r with data := r.data.set r.end_i (v % 256),
           end_i := (r.end_i + 1) % RINGBUF_SIZE }

/-- Ring_Write8 fails exactly on a buffer holding `RINGBUF_CAP` bytes. -/
theorem Ring_Write8_eq_none (r : ringbuf_t) (v : Nat) (h : RingWF r) :
    Ring_Write8 r v = none ↔ Ring_GetLen r = RINGBUF_CAP := by
  rw [Ring_Write8, ← Ring_IsFull_iff r h]
  by_cases hf : Ring_IsFull r <;> simp [hf]

theorem Ring_Write8_spec (r : ringbuf_t) (v : Nat) (h : RingWF r)
    (hlen : Ring_GetLen r < RINGBUF_CAP) :
    Ring_Write8 r v = some (ringWrite8 r v) := by
  rw [Ring_Write8, if_neg, ringWrite8]
  rw [Ring_IsFull_iff r h]
  omega

theorem ringWrite8_WF (r : ringbuf_t) (v : Nat) (h : RingWF r) :
    RingWF (ringWrite8 r v) := by
  obtain ⟨hd, hs, he, hb⟩ := h
  simp only [ringWrite8, RingWF, List.length_set]
  refine ⟨hd, hs, Nat.mod_lt _ (by norm_num [RINGBUF_SIZE]), ?_⟩
  intro b hbmem
  rcases List.mem_or_eq_of_mem_set hbmem with hmem | heq
  · exact hb b hmem
  · subst heq
    exact Nat.mod_lt _ (by norm_num)

theorem ringWrite8_getLen (r : ringbuf_t) (v : Nat) (h : RingWF r)
    (hlen : Ring_GetLen r < RINGBUF_CAP) :
    Ring_GetLen (ringWrite8 r v) = Ring_GetLen r + 1 := by
  rw [Ring_GetLen_eq _ h] at hlen ⊢
  rw [Ring_GetLen_eq _ (ringWrite8_WF r v h)]
  obtain ⟨hd, hs, he, hb⟩ := h
  simp only [ringWrite8, RINGBUF_SIZE, RINGBUF_CAP] at *
  omega

theorem ringWrite8_toList (r : ringbuf_t) (v : Nat) (h : RingWF r)
    (hlen : Ring_GetLen r < RINGBUF_CAP) :
    ringToList (ringWrite8 r v) = ringToList r ++ [v % 256] := by
  apply List.ext_getElem
  · simp [ringToList_length, ringWrite8_getLen r v h hlen]
  · intro i h1 h2
    rw [ringToList_getElem]
    simp only [ringToList_length, ringWrite8_getLen r v h hlen] at h1
    show (r.data.set r.end_i (v % 256)).getD ((r.start_i + i) % RINGBUF_SIZE) 0 =
      (ringToList r ++ [v % 256])[i]
    rcases Nat.lt_or_ge i (Ring_GetLen r) with hilt | hige
    · rw [list_getD_set_ne _ _ _ _ (ring_index_ne r h i hilt),
        List.getElem_append_left (by simpa [ringToList_length] using hilt),
        ringToList_getElem]
    · have hieq : i = Ring_GetLen r := by omega
      subst hieq
      rw [ring_index_end r h,
        list_getD_set_self _ _ _ (by rw [h.1]; exact h.2.2.1),
        List.getElem_append_right (by simp [ringToList_length])]
      simp [ringToList_length]

theorem ring_seg_front (r : ringbuf_t) (h : RingWF r) (k : Nat)
    (hk : k ≤ Ring_GetLen r) (hnw : r.start_i + k ≤ RINGBUF_SIZE) :
    ((r.data.drop r.start_i).take k).map (· % 256) = (ringToList r).take k := by
  obtain ⟨hd, hs, he, hb⟩ := h
  apply List.ext_getElem
  · simp only [List.length_map, List.length_take, List.length_drop,
      ringToList_length, hd]
    omega
  · intro i h1 h2
    simp only [List.length_map, List.length_take, List.length_drop, hd] at h1
    rw [List.getElem_map, List.getElem_take, List.getElem_drop,
      List.getElem_take, ringToList_getElem]
    have hmod : (r.start_i + i) % RINGBUF_SIZE = r.start_i + i := by
      simp only [RINGBUF_SIZE] at *
      omega
    rw [hmod, List.getD_eq_getElem _ _ (by omega)]
    exact Nat.mod_eq_of_lt (hb _ (List.getElem_mem _))

theorem ring_seg_back (r : ringbuf_t) (h : RingWF r) (k : Nat)
    (hwrap : r.end_i < r.start_i) (hk : k ≤ r.end_i) :
    (r.data.take k).map (· % 256) =
      ((ringToList r).drop (RINGBUF_SIZE - r.start_i)).take k := by
  obtain ⟨hd, hs, he, hb⟩ := h
  have hlen : Ring_GetLen r = RINGBUF_SIZE - r.start_i + r.end_i := by
    simp only [Ring_GetLen, if_neg (by omega : ¬ r.start_i ≤ r.end_i)]
  apply List.ext_getElem
  · simp only [List.length_map, List.length_take, List.length_drop,
      ringToList_length, hd, hlen]
    omega
  · intro i h1 h2
    simp only [List.length_map, List.length_take, hd] at h1
    rw [List.getElem_map, List.getElem_take, List.getElem_take,
      List.getElem_drop, ringToList_getElem]
    have hmod : (r.start_i + (RINGBUF_SIZE - r.start_i + i)) % RINGBUF_SIZE = i := by
      simp only [RINGBUF_SIZE] at *
      omega
    rw [hmod, List.getD_eq_getElem _ _ (by omega)]
    exact Nat.mod_eq_of_lt (hb _ (List.getElem_mem _))

/-- Ring_ReadBytes with enough buffered bytes pops exactly the first `n`
queue bytes (covering both the contiguous and the wrapped layout). -/
theorem Ring_ReadBytes_spec (r : ringbuf_t) (n : Nat) (h : RingWF r)
    (hn : n ≤ Ring_GetLen r) :
    Ring_ReadBytes r n = some ((ringToList r).take n,
      { r with start_i := (r.start_i + n) % RINGBUF_SIZE }) := by
  have hd := h.1
  have hs := h.2.1
  have he := h.2.2.1
  by_cases h0 : n = 0
  · subst h0
    have hss : (r.start_i + 0) % RINGBUF_SIZE = r.start_i := by
      simp only [RINGBUF_SIZE] at *
      omega
    rw [Ring_ReadBytes, if_pos rfl, hss]
    simp
  · rw [Ring_ReadBytes, if_neg h0, if_neg (by omega : ¬ Ring_GetLen r < n)]
    by_cases hse : r.start_i ≤ r.end_i
    · -- contiguous data: the first copy grabs everything
      have hlen : Ring_GetLen r = r.end_i - r.start_i := by
        simp only [Ring_GetLen, if_pos hse]
      simp only [if_pos hse]
      have hmin : min (r.end_i - r.start_i) n = n := by omega
      rw [hmin]
      simp only [Nat.sub_self]
      rw [ring_seg_front r h n hn (by simp only [RINGBUF_SIZE] at *; omega)]
      simp
    · -- wrapped data
      simp only [if_neg hse]
      have hlen : Ring_GetLen r = RINGBUF_SIZE - r.start_i + r.end_i := by
        simp only [Ring_GetLen, if_neg hse]
      by_cases hfit : n ≤ RINGBUF_SIZE - r.start_i
      · -- still a single copy
        have hmin : min (RINGBUF_SIZE - r.start_i) n = n := by omega
        rw [hmin]
        simp only [Nat.sub_self]
        rw [ring_seg_front r h n hn (by simp only [RINGBUF_SIZE] at *; omega)]
        simp
      · -- two copies
        have hmin : min (RINGBUF_SIZE - r.start_i) n = RINGBUF_SIZE - r.start_i := by
          omega
        rw [hmin]
        have hrest : n - (RINGBUF_SIZE - r.start_i) ≠ 0 := by
          simp only [RINGBUF_SIZE] at *
          omega
        rw [if_neg hrest]
        have hs1 : (r.start_i + (RINGBUF_SIZE - r.start_i)) % RINGBUF_SIZE = 0 := by
          simp only [RINGBUF_SIZE] at *
          omega
        rw [hs1, List.drop_zero]
        have hstart2 : (r.start_i + n) % RINGBUF_SIZE =
            0 + (n - (RINGBUF_SIZE - r.start_i)) := by
          simp only [RINGBUF_SIZE] at *
          omega
        rw [hstart2]
        have hbytes : ((r.data.drop r.start_i).take (RINGBUF_SIZE - r.start_i)).map (· % 256) ++
              (r.data.take (n - (RINGBUF_SIZE - r.start_i))).map (· % 256) =
            (ringToList r).take n := by
          rw [ring_seg_front r h (RINGBUF_SIZE - r.start_i) (by omega) (by omega),
            ring_seg_back r h (n - (RINGBUF_SIZE - r.start_i)) (by omega)
              (by simp only [RINGBUF_SIZE] at *; omega)]
          rw [← List.take_add]
          congr 1
          simp only [RINGBUF_SIZE] at *
          omega
        rw [hbytes]

/-- Ring_ReadBytes fails exactly when fewer than the requested bytes are
buffered (a zero-length request always succeeds). -/
theorem Ring_ReadBytes_eq_none (r : ringbuf_t) (n : Nat) (h : RingWF r) :
    Ring_ReadBytes r n = none ↔ Ring_GetLen r < n := by
  constructor
  · intro hc
    by_contra hge
    rw [Ring_ReadBytes_spec r n h (by omega)] at hc
    simp at hc
  · intro hlt
    rw [Ring_ReadBytes, if_neg (by omega : ¬ n = 0), if_pos hlt]

/-! ### C2: all-or-nothing ring operations -/

/-- C2: RingBuffer all-or-nothing operations — for every well-formed ring
buffer state, `Ring_Write8` fails exactly on a full buffer, each read
(`Ring_Read8`, `Ring_Read16`, `Ring_ReadBytes n`) fails exactly when fewer
than the requested bytes are buffered (so a failing call returns `none` and
hands back no successor state: the buffer value is untouched), and a
succeeding `Ring_ReadBytes` consumes exactly the requested prefix of the
byte queue — no partial consumption. -/
theorem C2_ring_all_or_nothing (r : ringbuf_t) (h : RingWF r) :
    (∀ v, Ring_Write8 r v = none ↔ Ring_IsFull r = true) ∧
    (Ring_Read8 r = none ↔ Ring_GetLen r < 1) ∧
    (Ring_Read16 r = none ↔ Ring_GetLen r < 2) ∧
    (∀ n, Ring_ReadBytes r n = none ↔ Ring_GetLen r < n) ∧
    (∀ n bs r2, Ring_ReadBytes r n = some (bs, r2) →
      bs = (ringToList r).take n ∧ ringToList r2 = (ringToList r).drop n ∧
        Ring_GetLen r2 = Ring_GetLen r - n) := by
  refine ⟨?_, ?_, ?_, ?_, ?_⟩
  · intro v
    rw [Ring_Write8_eq_none r v h, Ring_IsFull_iff r h]
  · rw [Ring_Read8_eq_none r h]
    omega
  · exact Ring_Read16_eq_none r h
  · intro n
    exact Ring_ReadBytes_eq_none r n h
  · intro n bs r2 hsome
    have hn : ¬ Ring_GetLen r < n := by
      intro hlt
      rw [(Ring_ReadBytes_eq_none r n h).mpr hlt] at hsome
      exact Option.noConfusion hsome
    rw [Ring_ReadBytes_spec r n h (by omega)] at hsome
    obtain ⟨hbs, hr2⟩ := Prod.mk.injEq .. ▸ (Option.some.injEq .. ▸ hsome)
    subst hr2
    exact ⟨hbs.symm ▸ rfl, ringToList_advance r h n (by omega),
      ring_advance_getLen r h n (by omega)⟩

/-- C2 witness state: a full ring (511 buffered bytes). -/
def c2FullRing : ringbuf_t :=
  { data := List.replicate RINGBUF_SIZE 0, start_i := 0, end_i := RINGBUF_CAP }

set_option maxRecDepth 4096 in
/-- C2 witness: the all-or-nothing theorem applied at a concrete full ring;
in particular a write to it fails and an oversized read fails. -/
theorem C2_ring_all_or_nothing_witness :
    RingWF c2FullRing ∧
    ((∀ v, Ring_Write8 c2FullRing v = none ↔ Ring_IsFull c2FullRing = true) ∧
    (Ring_Read8 c2FullRing = none ↔ Ring_GetLen c2FullRing < 1) ∧
    (Ring_Read16 c2FullRing = none ↔ Ring_GetLen c2FullRing < 2) ∧
    (∀ n, Ring_ReadBytes c2FullRing n = none ↔ Ring_GetLen c2FullRing < n) ∧
    (∀ n bs r2, Ring_ReadBytes c2FullRing n = some (bs, r2) →
      bs = (ringToList c2FullRing).take n ∧
        ringToList r2 = (ringToList c2FullRing).drop n ∧
        Ring_GetLen r2 = Ring_GetLen c2FullRing - n)) :=
  ⟨by decide, C2_ring_all_or_nothing c2FullRing (by decide)⟩

/-! ### C4: ring round-trip -/

/-- ringWriteAll: feed a byte sequence through repeated `Ring_Write8`
(failing as soon as one write fails). -/
def ringWriteAll (r : ringbuf_t) (ws : List Nat) : Option ringbuf_t :=
  match ws with
  | [] => some r
  | w :: rest =>
    match Ring_Write8 r w with
    | none => none
    | some r2 => ringWriteAll r2 rest

/-- ringReadAll: pop `n` bytes through repeated `Ring_Read8`. -/
def ringReadAll (r : ringbuf_t) (n : Nat) : Option (List Nat × ringbuf_t) :=
  match n with
  | 0 => some ([], r)
  | n + 1 =>
    match Ring_Read8 r with
    | none => none
    | some (b, r2) =>
      match ringReadAll r2 n with
      | none => none
      | some (bs, r3) => some (b :: bs, r3)

theorem ringWriteAll_spec (ws : List Nat) : ∀ r : ringbuf_t, RingWF r →
    Ring_GetLen r + ws.length ≤ RINGBUF_CAP →
    ∃ r2, ringWriteAll r ws = some r2 ∧ RingWF r2 ∧
      ringToList r2 = ringToList r ++ ws.map (· % 256) ∧
      Ring_GetLen r2 = Ring_GetLen r + ws.length := by
  induction ws with
  | nil =>
    intro r h hlen
    exact ⟨r, rfl, h, by simp, by simp⟩
  | cons w rest ih =>
    intro r h hlen
    simp only [List.length_cons] at hlen
    have hw := Ring_Write8_spec r w h (by omega)
    have hwf2 := ringWrite8_WF r w h
    have hlen2 := ringWrite8_getLen r w h (by omega)
    have htl2 := ringWrite8_toList r w h (by omega)
    obtain ⟨r3, hall, hwf3, htl3, hlen3⟩ :=
      ih (ringWrite8 r w) hwf2 (by omega)
    refine ⟨r3, ?_, hwf3, ?_, by simp only [List.length_cons]; omega⟩
    · simp only [ringWriteAll, hw]
      exact hall
    · rw [htl3, htl2]
      simp

theorem ringReadAll_spec (n : Nat) : ∀ r : ringbuf_t, RingWF r →
    n ≤ Ring_GetLen r →
    ∃ r2, ringReadAll r n = some ((ringToList r).take n, r2) ∧ RingWF r2 ∧
      ringToList r2 = (ringToList r).drop n ∧
      Ring_GetLen r2 = Ring_GetLen r - n := by
  induction n with
  | zero =>
    intro r h hlen
    exact ⟨r, rfl, h, by simp, by simp⟩
  | succ n ih =>
    intro r h hlen
    obtain ⟨b, bs, hbs⟩ : ∃ b bs, ringToList r = b :: bs := by
      rcases hrl : ringToList r with _ | ⟨b, bs⟩
      · have := ringToList_length r
        rw [hrl] at this
        simp at this
        omega
      · exact ⟨b, bs, rfl⟩
    have hr8 := Ring_Read8_spec r h (by omega)
    set r2 : ringbuf_t := { r with start_i := (r.start_i + 1) % RINGBUF_SIZE }
      with hr2def
    have hwf2 : RingWF r2 := RingWF_set_start r h 1
    have htl2 : ringToList r2 = bs := by
      rw [hr2def, ringToList_advance r h 1 (by omega), hbs]
      simp
    have hlen2 : Ring_GetLen r2 = Ring_GetLen r - 1 :=
      ring_advance_getLen r h 1 (by omega)
    obtain ⟨r3, hall, hwf3, htl3, hlen3⟩ := ih r2 hwf2 (by omega)
    refine ⟨r3, ?_, hwf3, ?_, by omega⟩
    · simp only [ringReadAll, hr8, hall, htl2, hbs]
      simp
    · rw [htl3, htl2, hbs]
      rfl

/-- C4: RingBuffer round-trip — writing any byte sequence of length at most
`RINGBUF_CAP` into an empty (possibly mid-array, so wrapping) ring succeeds,
reading the same count back returns the identical sequence in FIFO order and
drains the ring, and after every intermediate write and read operation
`Ring_GetLen`, `Ring_IsEmpty` and `Ring_IsFull` agree with the number of
bytes currently buffered. -/
theorem C4_ring_roundtrip (ws : List Nat) (hws : ws.length ≤ RINGBUF_CAP)
    (hbytes : ∀ b ∈ ws, b < 256) (r : ringbuf_t) (h : RingWF r)
    (hemp : Ring_IsEmpty r = true) :
    ∃ r1 rf, ringWriteAll r ws = some r1 ∧
      ringReadAll r1 ws.length = some (ws, rf) ∧
      Ring_IsEmpty rf = true ∧
      (∀ i ≤ ws.length, ∃ ri, ringWriteAll r (ws.take i) = some ri ∧
        Ring_GetLen ri = i ∧ (Ring_IsEmpty ri = true ↔ i = 0) ∧
        (Ring_IsFull ri = true ↔ i = RINGBUF_CAP)) ∧
      (∀ j ≤ ws.length, ∃ bsj rj, ringReadAll r1 j = some (bsj, rj) ∧
        bsj = ws.take j ∧ Ring_GetLen rj = ws.length - j ∧
        (Ring_IsEmpty rj = true ↔ j = ws.length) ∧
        (Ring_IsFull rj = true ↔ ws.length - j = RINGBUF_CAP)) := by
  have hlen0 : Ring_GetLen r = 0 := (Ring_IsEmpty_iff r h).mp hemp
  have htl0 : ringToList r = [] := by
    have := ringToList_length r
    rw [hlen0] at this
    exact List.eq_nil_of_length_eq_zero this
  have hmap : ws.map (· % 256) = ws := by
    apply List.map_congr_left ?_ |>.trans (List.map_id ws)
    intro b hbmem
    exact Nat.mod_eq_of_lt (hbytes b hbmem)
  obtain ⟨r1, hall1, hwf1, htl1, hlen1⟩ := ringWriteAll_spec ws r h (by omega)
  rw [htl0, List.nil_append, hmap] at htl1
  rw [hlen0, Nat.zero_add] at hlen1
  obtain ⟨rf, hallf, hwff, htlf, hlenf⟩ := ringReadAll_spec ws.length r1 hwf1 (by omega)
  rw [htl1, List.take_length] at hallf
  refine ⟨r1, rf, hall1, hallf, ?_, ?_, ?_⟩
  · rw [Ring_IsEmpty_iff rf hwff]
    omega
  · intro i hi
    obtain ⟨ri, halli, hwfi, htli, hleni⟩ :=
      ringWriteAll_spec (ws.take i) r h (by simp; omega)
    refine ⟨ri, halli, ?_, ?_, ?_⟩
    · rw [hleni, hlen0, List.length_take]
      omega
    · rw [Ring_IsEmpty_iff ri hwfi, hleni, hlen0, List.length_take]
      omega
    · rw [Ring_IsFull_iff ri hwfi, hleni, hlen0, List.length_take]
      omega
  · intro j hj
    obtain ⟨rj, hallj, hwfj, htlj, hlenj⟩ := ringReadAll_spec j r1 hwf1 (by omega)
    refine ⟨(ringToList r1).take j, rj, hallj, by rw [htl1], ?_, ?_, ?_⟩
    · omega
    · rw [Ring_IsEmpty_iff rj hwfj]
      omega
    · rw [Ring_IsFull_iff rj hwfj]
      omega

set_option maxRecDepth 4096 in
/-- C4 witness: round-trip of three bytes through a concrete empty ring
whose indices sit mid-array. -/
theorem C4_ring_roundtrip_witness :
    [65, 66, 67].length ≤ RINGBUF_CAP ∧ (∀ b ∈ [65, 66, 67], b < 256) ∧
    RingWF { data := List.replicate RINGBUF_SIZE 0, start_i := 510, end_i := 510 } ∧
    Ring_IsEmpty { data := List.replicate RINGBUF_SIZE 0, start_i := 510, end_i := 510 } = true ∧
    (∃ r1 rf,
      ringWriteAll { data := List.replicate RINGBUF_SIZE 0, start_i := 510, end_i := 510 } [65, 66, 67] = some r1 ∧
      ringReadAll r1 [65, 66, 67].length = some ([65, 66, 67], rf) ∧
      Ring_IsEmpty rf = true ∧
      (∀ i ≤ [65, 66, 67].length, ∃ ri,
        ringWriteAll { data := List.replicate RINGBUF_SIZE 0, start_i := 510, end_i := 510 } ([65, 66, 67].take i) = some ri ∧
        Ring_GetLen ri = i ∧ (Ring_IsEmpty ri = true ↔ i = 0) ∧
        (Ring_IsFull ri = true ↔ i = RINGBUF_CAP)) ∧
      (∀ j ≤ [65, 66, 67].length, ∃ bsj rj, ringReadAll r1 j = some (bsj, rj) ∧
        bsj = [65, 66, 67].take j ∧ Ring_GetLen rj = [65, 66, 67].length - j ∧
        (Ring_IsEmpty rj = true ↔ j = [65, 66, 67].length) ∧
        (Ring_IsFull rj = true ↔ [65, 66, 67].length - j = RINGBUF_CAP))) :=
  ⟨by decide, by decide, by decide, by decide,
    C4_ring_roundtrip [65, 66, 67] (by decide) (by decide)
      { data := List.replicate RINGBUF_SIZE 0, start_i := 510, end_i := 510 }
      (by decide) (by decide)⟩

/-! ### Linear-regime lemmas for the receive path

`Comm_Receive` appends received bytes at `end_i`.  Starting from the zeroed
ring, feeding at most `RINGBUF_CAP` bytes keeps `start_i ≤ end_i ≤
RINGBUF_CAP`, so the decoder proofs can work in this unwrapped regime. -/

/-- RingLin: linear (unwrapped) well-formed ring states. -/
def RingLin (r : ringbuf_t) : Prop :=
  r.data.length = RINGBUF_SIZE ∧ r.start_i ≤ r.end_i ∧ r.end_i ≤ RINGBUF_CAP ∧
    ∀ b ∈ r.data, b < 256

instance (r : ringbuf_t) : Decidable (RingLin r) := by
  unfold RingLin; infer_instance

theorem RingLin.wf {r : ringbuf_t} (h : RingLin r) : RingWF r :=
  ⟨h.1, by have := h.2.1; have := h.2.2.1; simp only [RINGBUF_CAP, RINGBUF_SIZE] at *; omega,
   by have := h.2.2.1; simp only [RINGBUF_CAP, RINGBUF_SIZE] at *; omega, h.2.2.2⟩

theorem RingLin_getLen {r : ringbuf_t} (h : RingLin r) :
    Ring_GetLen r = r.end_i - r.start_i := by
  simp only [Ring_GetLen, if_pos h.2.1]

/-- ringPush: bytes arriving into the free space after `end_i` of a linear
ring — the effect of `Comm_Receive`'s `recvmsg` into the current write
position, equivalently of repeated `Ring_Write8` (`ringPush_eq_writeAll`). -/
def ringPush (r : ringbuf_t) (q : List Nat) : ringbuf_t :=
  { data := r.data.take r.end_i ++ q.map (· % 256) ++
      r.data.drop (r.end_i + q.length),
    start_i := r.start_i,
    end_i := r.end_i + q.length }

theorem ringPush_nil (r : ringbuf_t) : ringPush r [] = r := by
  cases r with
  | mk data s e => simp [ringPush]

theorem ringPush_set_start (r : ringbuf_t) (x : Nat) (q : List Nat) :
    ringPush { r with start_i := x } q = { ringPush r q with start_i := x } :=
  rfl

theorem ringPush_lin (r : ringbuf_t) (q : List Nat) (h : RingLin r)
    (hroom : r.end_i + q.length ≤ RINGBUF_CAP) : RingLin (ringPush r q) := by
  obtain ⟨hd, hse, he, hb⟩ := h
  refine ⟨?_, by simpa [ringPush] using Nat.le_trans hse (Nat.le_add_right _ _),
    by simpa [ringPush] using hroom, ?_⟩
  · simp only [ringPush, List.length_append, List.length_take, List.length_drop,
      List.length_map, hd]
    simp only [RINGBUF_CAP, RINGBUF_SIZE] at *
    omega
  · intro b hbmem
    simp only [ringPush, List.mem_append] at hbmem
    rcases hbmem with (hmem | hmem) | hmem
    · exact hb b (List.mem_of_mem_take hmem)
    · obtain ⟨a, _, ha⟩ := List.mem_map.mp hmem
      rw [← ha]
      exact Nat.mod_lt _ (by norm_num)
    · exact hb b (List.mem_of_mem_drop hmem)

theorem ringPush_getLen (r : ringbuf_t) (q : List Nat) (h : RingLin r)
    (hroom : r.end_i + q.length ≤ RINGBUF_CAP) :
    Ring_GetLen (ringPush r q) = Ring_GetLen r + q.length := by
  rw [RingLin_getLen h, RingLin_getLen (ringPush_lin r q h hroom)]
  simp only [ringPush]
  have := h.2.1
  omega

theorem ringPush_toList (r : ringbuf_t) (q : List Nat) (h : RingLin r)
    (hroom : r.end_i + q.length ≤ RINGBUF_CAP) :
    ringToList (ringPush r q) = ringToList r ++ q.map (· % 256) := by
  obtain ⟨hd, hse, he, hb⟩ := h
  apply List.ext_getElem
  · simp [ringToList_length, ringPush_getLen r q ⟨hd, hse, he, hb⟩ hroom]
  · intro i h1 h2
    rw [ringToList_getElem]
    simp only [ringToList_length, ringPush_getLen r q ⟨hd, hse, he, hb⟩ hroom] at h1
    have hglen : Ring_GetLen r = r.end_i - r.start_i := RingLin_getLen ⟨hd, hse, he, hb⟩
    have hmod : (r.start_i + i) % RINGBUF_SIZE = r.start_i + i := by
      apply Nat.mod_eq_of_lt
      simp only [RINGBUF_CAP, RINGBUF_SIZE] at *
      omega
    simp only [ringPush, hmod]
    rcases Nat.lt_or_ge i (Ring_GetLen r) with hlt | hge
    · -- index falls in the untouched front region
      rw [List.getElem_append_left (by simp [ringToList_length]; omega)]
      rw [ringToList_getElem _ _ (by simp [ringToList_length]; omega), hmod]
      have hfront : r.start_i + i < r.end_i := by omega
      have h3 : r.start_i + i < (r.data.take r.end_i ++ q.map (· % 256)).length := by
        simp only [List.length_append, List.length_take, List.length_map, hd]
        simp only [RINGBUF_CAP, RINGBUF_SIZE] at *
        omega
      rw [List.getD_eq_getElem _ _ (by
          simp only [List.length_append, List.length_take, List.length_drop,
            List.length_map, hd]
          simp only [RINGBUF_CAP, RINGBUF_SIZE] at *
          omega),
        List.getD_eq_getElem _ _ (by simp only [RINGBUF_CAP, RINGBUF_SIZE] at *; omega)]
      rw [List.getElem_append_left h3, List.getElem_append_left (by
          simp only [List.length_take, hd]
          simp only [RINGBUF_CAP, RINGBUF_SIZE] at *
          omega)]
      simp
    · -- index falls in the freshly pushed bytes
      have hlen1 : (r.data.take r.end_i).length = r.end_i := by
        simp only [List.length_take, hd]
        simp only [RINGBUF_CAP, RINGBUF_SIZE] at *
        omega
      have hLHS : (r.data.take r.end_i ++ q.map (· % 256) ++
          r.data.drop (r.end_i + q.length)).getD (r.start_i + i) 0 =
          (q.map (· % 256)).getD (r.start_i + i - r.end_i) 0 := by
        rw [List.append_assoc,
          List.getD_append_right _ _ _ _ (by rw [hlen1]; omega), hlen1,
          List.getD_append _ _ _ _ (by simp only [List.length_map]; omega)]
      rw [hLHS, List.getElem_append_right (by simp [ringToList_length]; omega),
        ← List.getD_eq_getElem _ 0 (by simp only [List.length_map]; simp only [ringToList_length] at h2 ⊢; omega)]
      have hidx : r.start_i + i - r.end_i = i - Ring_GetLen r := by
        rw [hglen]
        omega
      rw [hidx, ringToList_length]

theorem ringPush_push (r : ringbuf_t) (q1 q2 : List Nat)
    (hd : r.data.length = RINGBUF_SIZE)
    (hroom : r.end_i + q1.length + q2.length ≤ RINGBUF_SIZE) :
    ringPush (ringPush r q1) q2 = ringPush r (q1 ++ q2) := by
  have hAB : (r.data.take r.end_i ++ q1.map (· % 256)).length =
      r.end_i + q1.length := by
    simp only [List.length_append, List.length_take, List.length_map, hd]
    simp only [RINGBUF_SIZE] at *
    omega
  simp only [ringPush, List.map_append, List.length_append, List.length_map,
    ringbuf_t.mk.injEq]
  refine ⟨?_, trivial, by omega⟩
  rw [← List.append_assoc, List.take_left' hAB]
  have hdrop : List.drop (r.end_i + q1.length + q2.length)
      ((r.data.take r.end_i ++ q1.map (· % 256)) ++ r.data.drop (r.end_i + q1.length)) =
      List.drop (r.end_i + q1.length + q2.length) r.data := by
    rw [show r.end_i + q1.length + q2.length =
        (r.data.take r.end_i ++ q1.map (· % 256)).length + q2.length by rw [hAB],
      List.drop_append, List.drop_drop, hAB]
  rw [hdrop, Nat.add_assoc]

theorem ringWrite8_as_push (r : ringbuf_t) (b : Nat) (hd : r.data.length = RINGBUF_SIZE)
    (he : r.end_i + 1 < RINGBUF_SIZE) :
    ringWrite8 r b = ringPush r [b] := by
  simp only [ringWrite8, ringPush, ringbuf_t.mk.injEq, List.map_cons,
    List.map_nil, List.length_cons, List.length_nil]
  refine ⟨?_, trivial, ?_⟩
  · rw [List.set_eq_take_cons_drop _ (by simp only [RINGBUF_SIZE] at *; omega)]
    simp
  · simp only [RINGBUF_SIZE] at *
    omega

theorem ringPush_eq_writeAll (q : List Nat) : ∀ r : ringbuf_t, RingLin r →
    r.end_i + q.length ≤ RINGBUF_CAP →
    ringWriteAll r q = some (ringPush r q) := by
  induction q with
  | nil =>
    intro r h hroom
    simp [ringWriteAll, ringPush_nil]
  | cons b q ih =>
    intro r h hroom
    simp only [List.length_cons] at hroom
    have hw := Ring_Write8_spec r b h.wf (by
      rw [RingLin_getLen h]
      simp only [RINGBUF_CAP, RINGBUF_SIZE] at *
      omega)
    have hl2 : RingLin (ringWrite8 r b) := by
      rw [ringWrite8_as_push r b h.1 (by simp only [RINGBUF_CAP, RINGBUF_SIZE] at *; omega)]
      exact ringPush_lin r [b] h (by simp; omega)
    simp only [ringWriteAll, hw]
    rw [ih (ringWrite8 r b) hl2 (by
      rw [ringWrite8_as_push r b h.1 (by simp only [RINGBUF_CAP, RINGBUF_SIZE] at *; omega)]
      simp only [ringPush, List.length_cons, List.length_nil]
      omega)]
    rw [ringWrite8_as_push r b h.1 (by simp only [RINGBUF_CAP, RINGBUF_SIZE] at *; omega)]
    rw [ringPush_push r [b] q h.1 (by
      simp only [List.length_cons, List.length_nil]
      simp only [RINGBUF_CAP, RINGBUF_SIZE] at *
      omega)]
    simp

/-! ### The resumable inbound-message decoder (Comm_HandleReceivedMsgs) -/

/-- CMSG_WANT_FRAME (no payload). -/
def CMSG_WANT_FRAME : Nat := 0
/-- CMSG_PRESS_KEY, key: u8, pressed: u8. -/
def CMSG_PRESS_KEY : Nat := 1
/-- CMSG_SET_FRAME_SHM_NAME, name: string. -/
def CMSG_SET_FRAME_SHM_NAME : Nat := 2
/-- CMSG_SET_CONFIG_VAR, name: string, value: string. -/
def CMSG_SET_CONFIG_VAR : Nat := 3

/-- PK_MOUSEBUTTONS: sentinel value from CMSG_PRESS_KEY indicating that the
key is actually a bitfield of currently pressed mouse buttons. -/
def PK_MOUSEBUTTONS : Nat := 255

/-- NAME_MAX (limits.h on the target platform): the size of the
`frame_shm_name` buffer, so `arrlen(state.v.set_frame_shm_name.name)`. -/
def NAME_MAX : Nat := 255

/-- CFG_NAME_MAX: `arrlen(state.v.set_config_var.name)` = 64. -/
def CFG_NAME_MAX : Nat := 64

/-- CFG_VALUE_MAX: `arrlen(state.v.set_config_var.value)` = 128. -/
def CFG_VALUE_MAX : Nat := 128

/-- Effect: one observable side effect applied by the decoder when a message
completes (in application order). -/
inductive Effect where
  /-- `screenvisible = true` for CMSG_WANT_FRAME. -/
  | wantFrame : Effect
  /-- UnlinkFrameShm of the previous object plus installing the new
  `frame_shm_name` for CMSG_SET_FRAME_SHM_NAME. -/
  | setShmName (name : List Nat) : Effect
  /-- the key/pressed pair of a CMSG_PRESS_KEY; `accepted` tells whether the
  pair was pushed to `key_buf` or dropped with a logged warning. -/
  | pressKey (key pressed : Nat) (accepted : Bool) : Effect
  /-- the M_SetVariable call (plus logging) of a CMSG_SET_CONFIG_VAR. -/
  | setConfigVar (name value : List Nat) : Effect
deriving DecidableEq, Repr

/-- DecoderState: the `static struct { unsigned stage; uint8_t msg_type; union
{...} v; } state` of Comm_HandleReceivedMsgs.  The C union members are given
separate fields; each message writes its scratch fields before any later
stage reads them, so the overlay is observationally irrelevant (the config
message's reuse of one `len` field for name and value is kept as `cv_len`). -/
structure DecoderState where
  stage : Nat
  msg_type : Nat
  shm_len : Nat
  shm_name : List Nat
  pk_key : Nat
  pk_pressed : Nat
  cv_len : Nat
  cv_name : List Nat
  cv_value : List Nat
deriving DecidableEq, Repr

/-- dsInit: the zero-initialised decoder state (`state = {0}`). -/
def dsInit : DecoderState :=
  { stage := 0, msg_type := 0, shm_len := 0, shm_name := [], pk_key := 0,
    pk_pressed := 0, cv_len := 0, cv_name := [], cv_value := [] }

/-- Mach: the decoder-visible machine state outside the decoder struct —
the key-event ring buffer, the `screenvisible` flag and the global
`frame_shm_name`. -/
structure Mach where
  key_buf : ringbuf_t
  screenvisible : Bool
  frame_shm_name : List Nat
deriving DecidableEq, Repr

/-- CommFatal: conditions on which the decoder terminates the session
(`I_Error`/`I_Quit`).  `outOfFuel` is an artefact of the fuelled loop model
and is proven unreachable for sufficient fuel (`commLoop_noFuelErr`). -/
inductive CommFatal where
  | shmNameTooLong (len : Nat) : CommFatal
  | cfgNameTooLong (len : Nat) : CommFatal
  | cfgValueTooLong (len : Nat) : CommFatal
  | unknownMsgType (t : Nat) : CommFatal
  | outOfFuel : CommFatal
deriving DecidableEq, Repr

/-- StepRes: the outcome of running the per-message sub-state-machine from
the current stage: a suspension (some read came up short; state is kept and
the unread bytes stay buffered), completion (side effects applied, state and
buffers updated), or a fatal protocol violation. -/
inductive StepRes where
  | suspend (ds : DecoderState) (r : ringbuf_t) : StepRes
  | done (ds : DecoderState) (mc : Mach) (r : ringbuf_t) (effs : List Effect) : StepRes
  | fatal (e : CommFatal) : StepRes
deriving DecidableEq, Repr

/-- keyPush: a `Ring_Write8` into the key buffer whose success is asserted in
the C (`assert(ok)`); under the guard `Ring_GetLen key_buf + 2 ≤ RINGBUF_CAP`
the write always succeeds, so the fallback is unreachable. -/
def keyPush (kb : ringbuf_t) (v : Nat) : ringbuf_t :=
  (Ring_Write8 kb v).getD kb

/-- pkStage2: CMSG_PRESS_KEY stage 2 — read `pressed`, then either push the
pair into `key_buf` (when it has room for 2 more bytes) or drop it with a
logged warning. -/
def pkStage2 (ds : DecoderState) (mc : Mach) (r : ringbuf_t) : StepRes :=
  match Ring_Read8 r with
  | none => .suspend ds r
  | some (p, r2) =>
    let ds2 := { ds with pk_pressed := p }
    if Ring_GetLen mc.key_buf + 2 ≤ RINGBUF_CAP then
      .done ds2 { mc with key_buf := keyPush (keyPush mc.key_buf ds.pk_key) p }
        r2 [.pressKey ds.pk_key p true]
    else
      .done ds2 mc r2 [.pressKey ds.pk_key p false]

/-- pkStep: the CMSG_PRESS_KEY sub-state-machine (stage 1 falls through into
stage 2, as in the C switch). -/
def pkStep (ds : DecoderState) (mc : Mach) (r : ringbuf_t) : StepRes :=
  if ds.stage = 1 then
    match Ring_Read8 r with
    | none => .suspend ds r
    | some (k, r2) => pkStage2 { ds with stage := 2, pk_key := k } mc r2
  else pkStage2 ds mc r

/-- shmStage2: CMSG_SET_FRAME_SHM_NAME stage 2 — read the name bytes, then
release the previous shared-memory object and install the new name. -/
def shmStage2 (ds : DecoderState) (mc : Mach) (r : ringbuf_t) : StepRes :=
  match Ring_ReadBytes r ds.shm_len with
  | none => .suspend ds r
  | some (name, r2) =>
    .done { ds with shm_name := name } { mc with frame_shm_name := name } r2
      [.setShmName name]

/-- shmStep: the CMSG_SET_FRAME_SHM_NAME sub-state-machine; an oversized
length is fatal before any payload byte is consumed. -/
def shmStep (ds : DecoderState) (mc : Mach) (r : ringbuf_t) : StepRes :=
  if ds.stage = 1 then
    match Ring_Read16 r with
    | none => .suspend ds r
    | some (len, r2) =>
      if NAME_MAX ≤ len then .fatal (.shmNameTooLong len)
      else shmStage2 { ds with stage := 2, shm_len := len } mc r2
  else shmStage2 ds mc r

/-- cvStage4: CMSG_SET_CONFIG_VAR stage 4 — read the value bytes and apply
the variable through the config collaborator. -/
def cvStage4 (ds : DecoderState) (mc : Mach) (r : ringbuf_t) : StepRes :=
  match Ring_ReadBytes r ds.cv_len with
  | none => .suspend ds r
  | some (v, r2) =>
    .done { ds with cv_value := v } mc r2 [.setConfigVar ds.cv_name v]

/-- cvStage3: CMSG_SET_CONFIG_VAR stage 3 — read the value length (fatal when
it exceeds the value scratch buffer). -/
def cvStage3 (ds : DecoderState) (mc : Mach) (r : ringbuf_t) : StepRes :=
  match Ring_Read16 r with
  | none => .suspend ds r
  | some (len, r2) =>
    if CFG_VALUE_MAX ≤ len then .fatal (.cfgValueTooLong len)
    else cvStage4 { ds with stage := 4, cv_len := len } mc r2

/-- cvStage2: CMSG_SET_CONFIG_VAR stage 2 — read the name bytes. -/
def cvStage2 (ds : DecoderState) (mc : Mach) (r : ringbuf_t) : StepRes :=
  match Ring_ReadBytes r ds.cv_len with
  | none => .suspend ds r
  | some (name, r2) => cvStage3 { ds with stage := 3, cv_name := name } mc r2

/-- cvStep: the CMSG_SET_CONFIG_VAR sub-state-machine (stages fall through,
as in the C switch). -/
def cvStep (ds : DecoderState) (mc : Mach) (r : ringbuf_t) : StepRes :=
  if ds.stage = 1 then
    match Ring_Read16 r with
    | none => .suspend ds r
    | some (len, r2) =>
      if CFG_NAME_MAX ≤ len then .fatal (.cfgNameTooLong len)
      else cvStage2 { ds with stage := 2, cv_len := len } mc r2
  else if ds.stage = 2 then cvStage2 ds mc r
  else if ds.stage = 3 then cvStage3 ds mc r
  else cvStage4 ds mc r

/-- stepMsg: dispatch on `msg_type` to the per-message sub-state-machine
(called with `stage ≥ 1`, i.e. after the type byte has been read); an
unknown type is fatal. -/
def stepMsg (ds : DecoderState) (mc : Mach) (r : ringbuf_t) : StepRes :=
  if ds.msg_type = CMSG_WANT_FRAME then
    .done ds { mc with screenvisible := true } r [.wantFrame]
  else if ds.msg_type = CMSG_SET_FRAME_SHM_NAME then shmStep ds mc r
  else if ds.msg_type = CMSG_PRESS_KEY then pkStep ds mc r
  else if ds.msg_type = CMSG_SET_CONFIG_VAR then cvStep ds mc r
  else .fatal (.unknownMsgType ds.msg_type)

/-- DecOut: result of a (suspending) run of the decoder loop: the saved
decoder state, the machine state, the receive ring and the side effects
applied, in order. -/
abbrev DecOut := DecoderState × Mach × ringbuf_t × List Effect

/-- prependEffs: prefix previously applied effects onto a loop outcome. -/
def prependEffs (es : List Effect) (o : DecOut) : DecOut :=
  (o.1, o.2.1, o.2.2.1, es ++ o.2.2.2)

/-- commLoop: the decoder loop, fuelled.  Stage 0 reads a type byte
(returning when unavailable), then the per-message machine runs; on
completion `stage` resets to 0 and the loop immediately tries the next
message.  `2 * Ring_GetLen r + 2` fuel always suffices
(`commLoop_noFuelErr`). -/
def commLoop : Nat → DecoderState → Mach → ringbuf_t → Except CommFatal DecOut
  | 0, _, _, _ => .error .outOfFuel
  | fuel + 1, ds, mc, r =>
    if ds.stage = 0 then
      match Ring_Read8 r with
      | none => .ok (ds, mc, r, [])
      | some (t, r2) =>
        match stepMsg { ds with stage := 1, msg_type := t } mc r2 with
        | .suspend ds2 r3 => .ok (ds2, mc, r3, [])
        | .fatal e => .error e
        | .done ds2 mc2 r3 effs =>
          (commLoop fuel { ds2 with stage := 0 } mc2 r3).map (prependEffs effs)
    else
      match stepMsg ds mc r with
      | .suspend ds2 r3 => .ok (ds2, mc, r3, [])
      | .fatal e => .error e
      | .done ds2 mc2 r3 effs =>
        (commLoop fuel { ds2 with stage := 0 } mc2 r3).map (prependEffs effs)

/-- Comm_HandleReceivedMsgs: run the decoder loop with always-sufficient
fuel. -/
def Comm_HandleReceivedMsgs (ds : DecoderState) (mc : Mach) (r : ringbuf_t) :
    Except CommFatal DecOut :=
  commLoop (2 * Ring_GetLen r + 2) ds mc r

/-- CMsg: one complete inbound wire message. -/
inductive CMsg where
  | wantFrame : CMsg
  | setFrameShmName (name : List Nat) : CMsg
  | pressKey (key pressed : Nat) : CMsg
  | setConfigVar (name value : List Nat) : CMsg
deriving DecidableEq, Repr

/-- enc16: little-endian u16 encoding of a length. -/
def enc16 (n : Nat) : List Nat := [n % 256, n / 256 % 256]

/-- encodeCMsg: the wire bytes of a message — type byte, then the per-type
payload (strings as u16 length + raw bytes, integers little-endian). -/
def encodeCMsg : CMsg → List Nat
  | .wantFrame => [CMSG_WANT_FRAME]
  | .setFrameShmName name => CMSG_SET_FRAME_SHM_NAME :: (enc16 name.length ++ name)
  | .pressKey k p => [CMSG_PRESS_KEY, k, p]
  | .setConfigVar name value =>
      CMSG_SET_CONFIG_VAR :: (enc16 name.length ++ name ++ enc16 value.length ++ value)

/-- ValidCMsg: messages the decoder completes (applying their side effect)
rather than rejecting as fatal: byte-valued fields and accepted lengths.
A shared-memory name length must stay below 128: `Ring_Read16` sign-extends
a low byte ≥ 128 (see `read16val`), so such lengths are read back as
≥ 65408 and trip the fatal NAME_MAX bound even though the protocol could
express them. -/
def ValidCMsg : CMsg → Prop
  | .wantFrame => True
  | .setFrameShmName name => name.length < 128 ∧ ∀ b ∈ name, b < 256
  | .pressKey k p => k < 256 ∧ p < 256
  | .setConfigVar name value =>
      name.length < CFG_NAME_MAX ∧ value.length < CFG_VALUE_MAX ∧
        (∀ b ∈ name, b < 256) ∧ ∀ b ∈ value, b < 256

instance (m : CMsg) : Decidable (ValidCMsg m) := by
  unfold ValidCMsg
  cases m <;> infer_instance

/-- msgEffect: the single side effect a valid message applies, given the
machine state at the moment it completes. -/
def msgEffect (m : CMsg) (mc : Mach) : Effect :=
  match m with
  | .wantFrame => .wantFrame
  | .setFrameShmName name => .setShmName name
  | .pressKey k p =>
      .pressKey k p (decide (Ring_GetLen mc.key_buf + 2 ≤ RINGBUF_CAP))
  | .setConfigVar name value => .setConfigVar name value

/-- msgMach: the machine state after a valid message's side effect. -/
def msgMach (m : CMsg) (mc : Mach) : Mach :=
  match m with
  | .wantFrame => { mc with screenvisible := true }
  | .setFrameShmName name => { mc with frame_shm_name := name }
  | .pressKey k p =>
      if Ring_GetLen mc.key_buf + 2 ≤ RINGBUF_CAP then
        { mc with key_buf := keyPush (keyPush mc.key_buf k) p }
      else mc
  | .setConfigVar _ _ => mc

/-- emptyRecvRing: the zero-initialised receive ring buffer. -/
def emptyRecvRing : ringbuf_t :=
  { data := List.replicate RINGBUF_SIZE 0, start_i := 0, end_i := 0 }

/-- ringOf: a receive ring holding exactly the given bytes, as after they
arrived into the zeroed ring. -/
def ringOf (bytes : List Nat) : ringbuf_t := ringPush emptyRecvRing bytes

/-- feedChunk: one receive burst — the chunk's bytes arrive in the ring,
then the decoder runs; a previous fatal outcome is sticky. -/
def feedChunk (st : Except CommFatal DecOut) (c : List Nat) :
    Except CommFatal DecOut :=
  match st with
  | .error e => .error e
  | .ok (ds, mc, r, effs) =>
      (Comm_HandleReceivedMsgs ds mc (ringPush r c)).map (prependEffs effs)

/-- feedChunks: feed a sequence of receive bursts to the decoder, starting
from the reset decoder state and an empty receive ring. -/
def feedChunks (mc : Mach) (cs : List (List Nat)) : Except CommFatal DecOut :=
  cs.foldl feedChunk (.ok (dsInit, mc, emptyRecvRing, []))

set_option maxRecDepth 4096 in
theorem emptyRecvRing_lin : RingLin emptyRecvRing := by decide

theorem ringOf_lin (bytes : List Nat) (h : bytes.length ≤ RINGBUF_CAP) :
    RingLin (ringOf bytes) :=
  ringPush_lin emptyRecvRing bytes emptyRecvRing_lin (by simpa [emptyRecvRing] using h)

theorem ringOf_toList (bytes : List Nat) (h : bytes.length ≤ RINGBUF_CAP) :
    ringToList (ringOf bytes) = bytes.map (· % 256) := by
  rw [ringOf, ringPush_toList emptyRecvRing bytes emptyRecvRing_lin
    (by simpa [emptyRecvRing] using h)]
  have : ringToList emptyRecvRing = [] := by
    have := ringToList_length emptyRecvRing
    have h2 : Ring_GetLen emptyRecvRing = 0 := rfl
    rw [h2] at this
    exact List.eq_nil_of_length_eq_zero this
  rw [this, List.nil_append]

theorem ringOf_end (bytes : List Nat) : (ringOf bytes).end_i = bytes.length := by
  simp [ringOf, ringPush, emptyRecvRing]

/-! ### Inversion and push-composition lemmas for the reads -/

theorem Ring_Read8_inv (r : ringbuf_t) (b : Nat) (r2 : ringbuf_t)
    (h : RingWF r) (hr : Ring_Read8 r = some (b, r2)) :
    Ring_GetLen r ≠ 0 ∧ b = (ringToList r).getD 0 0 ∧
      r2 = { r with start_i := (r.start_i + 1) % RINGBUF_SIZE } := by
  have hne : Ring_GetLen r ≠ 0 := by
    intro h0
    rw [(Ring_Read8_eq_none r h).mpr h0] at hr
    exact Option.noConfusion hr
  rw [Ring_Read8_spec r h hne] at hr
  obtain ⟨h1, h2⟩ := Prod.mk.injEq .. ▸ (Option.some.injEq .. ▸ hr)
  exact ⟨hne, h1.symm, h2.symm⟩

theorem Ring_Read16_inv (r : ringbuf_t) (v : Nat) (r2 : ringbuf_t)
    (h : RingWF r) (hr : Ring_Read16 r = some (v, r2)) :
    2 ≤ Ring_GetLen r ∧
      v = read16val ((ringToList r).getD 0 0) ((ringToList r).getD 1 0) ∧
      r2 = { r with start_i := (r.start_i + 2) % RINGBUF_SIZE } := by
  have hge : 2 ≤ Ring_GetLen r := by
    by_contra hlt
    rw [(Ring_Read16_eq_none r h).mpr (by omega)] at hr
    exact Option.noConfusion hr
  rw [Ring_Read16_spec r h hge] at hr
  obtain ⟨h1, h2⟩ := Prod.mk.injEq .. ▸ (Option.some.injEq .. ▸ hr)
  exact ⟨hge, h1.symm, h2.symm⟩

theorem Ring_ReadBytes_inv (r : ringbuf_t) (n : Nat) (bs : List Nat)
    (r2 : ringbuf_t) (h : RingWF r) (hr : Ring_ReadBytes r n = some (bs, r2)) :
    n ≤ Ring_GetLen r ∧ bs = (ringToList r).take n ∧
      r2 = { r with start_i := (r.start_i + n) % RINGBUF_SIZE } := by
  have hge : n ≤ Ring_GetLen r := by
    by_contra hlt
    rw [(Ring_ReadBytes_eq_none r n h).mpr (by omega)] at hr
    exact Option.noConfusion hr
  rw [Ring_ReadBytes_spec r n h hge] at hr
  obtain ⟨h1, h2⟩ := Prod.mk.injEq .. ▸ (Option.some.injEq .. ▸ hr)
  exact ⟨hge, h1.symm, h2.symm⟩

theorem ringPush_getD_head (r : ringbuf_t) (q : List Nat) (h : RingLin r)
    (hroom : r.end_i + q.length ≤ RINGBUF_CAP) (i : Nat) (hi : i < Ring_GetLen r) :
    (ringToList (ringPush r q)).getD i 0 = (ringToList r).getD i 0 := by
  rw [ringPush_toList r q h hroom,
    List.getD_append _ _ _ _ (by rw [ringToList_length]; omega)]

/-- Reading one byte commutes with pushing more bytes behind it. -/
theorem Ring_Read8_push (r : ringbuf_t) (b : Nat) (r2 : ringbuf_t)
    (q : List Nat) (h : RingLin r) (hroom : r.end_i + q.length ≤ RINGBUF_CAP)
    (hr : Ring_Read8 r = some (b, r2)) :
    Ring_Read8 (ringPush r q) = some (b, ringPush r2 q) := by
  obtain ⟨hne, hb, hr2⟩ := Ring_Read8_inv r b r2 h.wf hr
  have hpl := ringPush_lin r q h hroom
  have hpglen := ringPush_getLen r q h hroom
  rw [Ring_Read8_spec (ringPush r q) hpl.wf (by omega)]
  rw [ringPush_getD_head r q h hroom 0 (by omega), ← hb, hr2]
  rfl

theorem Ring_Read16_push (r : ringbuf_t) (v : Nat) (r2 : ringbuf_t)
    (q : List Nat) (h : RingLin r) (hroom : r.end_i + q.length ≤ RINGBUF_CAP)
    (hr : Ring_Read16 r = some (v, r2)) :
    Ring_Read16 (ringPush r q) = some (v, ringPush r2 q) := by
  obtain ⟨hge, hv, hr2⟩ := Ring_Read16_inv r v r2 h.wf hr
  have hpl := ringPush_lin r q h hroom
  have hpglen := ringPush_getLen r q h hroom
  rw [Ring_Read16_spec (ringPush r q) hpl.wf (by omega)]
  rw [ringPush_getD_head r q h hroom 0 (by omega),
    ringPush_getD_head r q h hroom 1 (by omega), ← hv, hr2]
  rfl

theorem Ring_ReadBytes_push (r : ringbuf_t) (n : Nat) (bs : List Nat)
    (r2 : ringbuf_t) (q : List Nat) (h : RingLin r)
    (hroom : r.end_i + q.length ≤ RINGBUF_CAP)
    (hr : Ring_ReadBytes r n = some (bs, r2)) :
    Ring_ReadBytes (ringPush r q) n = some (bs, ringPush r2 q) := by
  obtain ⟨hge, hbs, hr2⟩ := Ring_ReadBytes_inv r n bs r2 h.wf hr
  have hpl := ringPush_lin r q h hroom
  have hpglen := ringPush_getLen r q h hroom
  rw [Ring_ReadBytes_spec (ringPush r q) n hpl.wf (by omega)]
  rw [ringPush_toList r q h hroom,
    List.take_append_of_le_length (by rw [ringToList_length]; omega), ← hbs, hr2]
  rfl

/-- Consuming a read leaves the ring linear with the same write position. -/
theorem ring_consume_lin (r : ringbuf_t) (n : Nat) (h : RingLin r)
    (hn : n ≤ Ring_GetLen r) :
    RingLin { r with start_i := (r.start_i + n) % RINGBUF_SIZE } ∧
      Ring_GetLen { r with start_i := (r.start_i + n) % RINGBUF_SIZE } =
        Ring_GetLen r - n := by
  have hlen := RingLin_getLen h
  obtain ⟨hd, hse, he, hb⟩ := h
  have hmod : (r.start_i + n) % RINGBUF_SIZE = r.start_i + n := by
    apply Nat.mod_eq_of_lt
    simp only [RINGBUF_CAP, RINGBUF_SIZE] at *
    omega
  constructor
  · rw [hmod]
    refine ⟨hd, ?_, he, hb⟩
    show r.start_i + n ≤ r.end_i
    omega
  · exact ring_advance_getLen r ⟨hd, by simp only [RINGBUF_CAP, RINGBUF_SIZE] at *; omega,
      by simp only [RINGBUF_CAP, RINGBUF_SIZE] at *; omega, hb⟩ n (by omega)

/-! ### Push-composition of the per-message machines

`StepPush F G ds mc r q` says: the outcome of `F ds mc r` determines the
outcome of `F` on the same ring with `q` pushed behind it — a suspension
resumes through the dispatcher `G` exactly where it stopped, while completed
and fatal outcomes are unchanged (this is the all-or-nothing property of the
reads doing its work). -/
def StepPush (F G : DecoderState → Mach → ringbuf_t → StepRes)
    (ds : DecoderState) (mc : Mach) (r : ringbuf_t) (q : List Nat) : Prop :=
  (∀ ds2 r2, F ds mc r = .suspend ds2 r2 →
      RingLin r2 ∧ r2.end_i = r.end_i ∧ Ring_GetLen r2 ≤ Ring_GetLen r ∧
      ds2.msg_type = ds.msg_type ∧ ds2.stage ≠ 0 ∧
      F ds mc (ringPush r q) = G ds2 mc (ringPush r2 q)) ∧
  (∀ ds2 mc2 r2 effs, F ds mc r = .done ds2 mc2 r2 effs →
      RingLin r2 ∧ r2.end_i = r.end_i ∧ Ring_GetLen r2 ≤ Ring_GetLen r ∧
      F ds mc (ringPush r q) = .done ds2 mc2 (ringPush r2 q) effs) ∧
  (∀ e, F ds mc r = .fatal e → e ≠ .outOfFuel ∧ F ds mc (ringPush r q) = .fatal e)

theorem cvStep_stage2 (ds : DecoderState) (mc : Mach) (r : ringbuf_t)
    (h : ds.stage = 2) : cvStep ds mc r = cvStage2 ds mc r := by
  rw [cvStep, if_neg (by omega), if_pos h]

theorem cvStep_stage3 (ds : DecoderState) (mc : Mach) (r : ringbuf_t)
    (h : ds.stage = 3) : cvStep ds mc r = cvStage3 ds mc r := by
  rw [cvStep, if_neg (by omega), if_neg (by omega), if_pos h]

theorem cvStep_stage4 (ds : DecoderState) (mc : Mach) (r : ringbuf_t)
    (h1 : ds.stage ≠ 1) (h2 : ds.stage ≠ 2) (h3 : ds.stage ≠ 3) :
    cvStep ds mc r = cvStage4 ds mc r := by
  rw [cvStep, if_neg h1, if_neg h2, if_neg h3]

theorem pkStep_stage2 (ds : DecoderState) (mc : Mach) (r : ringbuf_t)
    (h : ds.stage ≠ 1) : pkStep ds mc r = pkStage2 ds mc r := by
  rw [pkStep, if_neg h]

theorem shmStep_stage2 (ds : DecoderState) (mc : Mach) (r : ringbuf_t)
    (h : ds.stage ≠ 1) : shmStep ds mc r = shmStage2 ds mc r := by
  rw [shmStep, if_neg h]

theorem cvStage4_push (ds : DecoderState) (mc : Mach) (r : ringbuf_t)
    (q : List Nat) (h : RingLin r) (hroom : r.end_i + q.length ≤ RINGBUF_CAP)
    (hst : ds.stage ≠ 0 ∧ ds.stage ≠ 1 ∧ ds.stage ≠ 2 ∧ ds.stage ≠ 3) :
    StepPush cvStage4 cvStep ds mc r q := by
  refine ⟨?_, ?_, ?_⟩
  · intro ds2 r2 hF
    unfold cvStage4 at hF
    cases hr : Ring_ReadBytes r ds.cv_len with
    | none =>
      rw [hr] at hF
      simp only [] at hF
      obtain ⟨hds, hrr⟩ := StepRes.suspend.injEq .. ▸ hF
      subst hds
      subst hrr
      refine ⟨h, rfl, le_refl _, rfl, hst.1, ?_⟩
      rw [cvStep_stage4 ds mc (ringPush r q) hst.2.1 hst.2.2.1 hst.2.2.2]
    | some val =>
      rw [hr] at hF
      simp at hF
  · intro ds2 mc2 r2 effs hF
    unfold cvStage4 at hF
    cases hr : Ring_ReadBytes r ds.cv_len with
    | none =>
      rw [hr] at hF
      simp at hF
    | some val =>
      obtain ⟨bs, rA⟩ := val
      rw [hr] at hF
      simp only [StepRes.done.injEq] at hF
      obtain ⟨hds, hmc, hrr, heff⟩ := hF
      obtain ⟨hge, hbs, hrA⟩ := Ring_ReadBytes_inv r ds.cv_len bs rA h.wf hr
      have hcons := ring_consume_lin r ds.cv_len h hge
      subst hds
      subst hmc
      subst heff
      subst hrr
      refine ⟨hrA ▸ hcons.1, hrA ▸ rfl, by rw [hrA]; rw [hcons.2]; omega, ?_⟩
      unfold cvStage4
      rw [Ring_ReadBytes_push r ds.cv_len bs rA q h hroom hr]
  · intro e hF
    unfold cvStage4 at hF
    cases hr : Ring_ReadBytes r ds.cv_len with
    | none =>
      rw [hr] at hF
      simp at hF
    | some val =>
      rw [hr] at hF
      simp at hF

theorem cvStage3_push (ds : DecoderState) (mc : Mach) (r : ringbuf_t)
    (q : List Nat) (h : RingLin r) (hroom : r.end_i + q.length ≤ RINGBUF_CAP)
    (hst : ds.stage = 3) : StepPush cvStage3 cvStep ds mc r q := by
  refine ⟨?_, ?_, ?_⟩
  · intro ds2 r2 hF
    unfold cvStage3 at hF
    cases hr : Ring_Read16 r with
    | none =>
      rw [hr] at hF
      simp only [StepRes.suspend.injEq] at hF
      obtain ⟨hds, hrr⟩ := hF
      subst hds
      subst hrr
      refine ⟨h, rfl, le_refl _, rfl, by omega, ?_⟩
      rw [cvStep_stage3 ds mc (ringPush r q) hst]
    | some val =>
      obtain ⟨len, rA⟩ := val
      rw [hr] at hF
      simp only [] at hF
      obtain ⟨hge, hlen, hrA⟩ := Ring_Read16_inv r len rA h.wf hr
      have hcons := ring_consume_lin r 2 h hge
      have hlinA : RingLin rA := hrA ▸ hcons.1
      have hendA : rA.end_i = r.end_i := by rw [hrA]
      have hglenA : Ring_GetLen rA = Ring_GetLen r - 2 := hrA ▸ hcons.2
      by_cases hbound : CFG_VALUE_MAX ≤ len
      · rw [if_pos hbound] at hF
        exact StepRes.noConfusion hF
      · rw [if_neg hbound] at hF
        obtain ⟨hnS, hnD, hnF⟩ := cvStage4_push { ds with stage := 4, cv_len := len }
          mc rA q hlinA (by rw [hendA]; exact hroom) (by refine ⟨?_, ?_, ?_, ?_⟩ <;> simp)
        obtain ⟨hl3, he3, hg3, hmt3, hs3, heq3⟩ := hnS ds2 r2 hF
        refine ⟨hl3, by rw [he3, hendA], by omega, by rw [hmt3], hs3, ?_⟩
        unfold cvStage3
        rw [Ring_Read16_push r len rA q h hroom hr]
        simp only []
        rw [if_neg hbound, heq3]
  · intro ds2 mc2 r2 effs hF
    unfold cvStage3 at hF
    cases hr : Ring_Read16 r with
    | none =>
      rw [hr] at hF
      simp at hF
    | some val =>
      obtain ⟨len, rA⟩ := val
      rw [hr] at hF
      simp only [] at hF
      obtain ⟨hge, hlen, hrA⟩ := Ring_Read16_inv r len rA h.wf hr
      have hcons := ring_consume_lin r 2 h hge
      have hlinA : RingLin rA := hrA ▸ hcons.1
      have hendA : rA.end_i = r.end_i := by rw [hrA]
      have hglenA : Ring_GetLen rA = Ring_GetLen r - 2 := hrA ▸ hcons.2
      by_cases hbound : CFG_VALUE_MAX ≤ len
      · rw [if_pos hbound] at hF
        exact StepRes.noConfusion hF
      · rw [if_neg hbound] at hF
        obtain ⟨hnS, hnD, hnF⟩ := cvStage4_push { ds with stage := 4, cv_len := len }
          mc rA q hlinA (by rw [hendA]; exact hroom) (by refine ⟨?_, ?_, ?_, ?_⟩ <;> simp)
        obtain ⟨hl3, he3, hg3, heq3⟩ := hnD ds2 mc2 r2 effs hF
        refine ⟨hl3, by rw [he3, hendA], by omega, ?_⟩
        unfold cvStage3
        rw [Ring_Read16_push r len rA q h hroom hr]
        simp only []
        rw [if_neg hbound, heq3]
  · intro e hF
    unfold cvStage3 at hF
    cases hr : Ring_Read16 r with
    | none =>
      rw [hr] at hF
      simp at hF
    | some val =>
      obtain ⟨len, rA⟩ := val
      rw [hr] at hF
      simp only [] at hF
      obtain ⟨hge, hlen, hrA⟩ := Ring_Read16_inv r len rA h.wf hr
      have hcons := ring_consume_lin r 2 h hge
      have hlinA : RingLin rA := hrA ▸ hcons.1
      have hendA : rA.end_i = r.end_i := by rw [hrA]
      by_cases hbound : CFG_VALUE_MAX ≤ len
      · rw [if_pos hbound] at hF
        simp only [StepRes.fatal.injEq] at hF
        subst hF
        refine ⟨by intro hc; exact CommFatal.noConfusion hc, ?_⟩
        unfold cvStage3
        rw [Ring_Read16_push r len rA q h hroom hr]
        simp only []
        rw [if_pos hbound]
      · rw [if_neg hbound] at hF
        obtain ⟨hnS, hnD, hnF⟩ := cvStage4_push { ds with stage := 4, cv_len := len }
          mc rA q hlinA (by rw [hendA]; exact hroom) (by refine ⟨?_, ?_, ?_, ?_⟩ <;> simp)
        obtain ⟨hne, heq3⟩ := hnF e hF
        refine ⟨hne, ?_⟩
        unfold cvStage3
        rw [Ring_Read16_push r len rA q h hroom hr]
        simp only []
        rw [if_neg hbound, heq3]

theorem cvStage2_push (ds : DecoderState) (mc : Mach) (r : ringbuf_t)
    (q : List Nat) (h : RingLin r) (hroom : r.end_i + q.length ≤ RINGBUF_CAP)
    (hst : ds.stage = 2) : StepPush cvStage2 cvStep ds mc r q := by
  refine ⟨?_, ?_, ?_⟩
  · intro ds2 r2 hF
    unfold cvStage2 at hF
    cases hr : Ring_ReadBytes r ds.cv_len with
    | none =>
      rw [hr] at hF
      simp only [StepRes.suspend.injEq] at hF
      obtain ⟨hds, hrr⟩ := hF
      subst hds
      subst hrr
      refine ⟨h, rfl, le_refl _, rfl, by omega, ?_⟩
      rw [cvStep_stage2 ds mc (ringPush r q) hst]
    | some val =>
      obtain ⟨bs, rA⟩ := val
      rw [hr] at hF
      simp only [] at hF
      obtain ⟨hge, hbs, hrA⟩ := Ring_ReadBytes_inv r ds.cv_len bs rA h.wf hr
      have hcons := ring_consume_lin r ds.cv_len h hge
      have hlinA : RingLin rA := hrA ▸ hcons.1
      have hendA : rA.end_i = r.end_i := by rw [hrA]
      have hglenA : Ring_GetLen rA = Ring_GetLen r - ds.cv_len := hrA ▸ hcons.2
      obtain ⟨hnS, hnD, hnF⟩ := cvStage3_push { ds with stage := 3, cv_name := bs }
        mc rA q hlinA (by rw [hendA]; exact hroom) (by simp)
      obtain ⟨hl3, he3, hg3, hmt3, hs3, heq3⟩ := hnS ds2 r2 hF
      refine ⟨hl3, by rw [he3, hendA], by omega, by rw [hmt3], hs3, ?_⟩
      unfold cvStage2
      rw [Ring_ReadBytes_push r ds.cv_len bs rA q h hroom hr]
      simp only []
      rw [heq3]
  · intro ds2 mc2 r2 effs hF
    unfold cvStage2 at hF
    cases hr : Ring_ReadBytes r ds.cv_len with
    | none =>
      rw [hr] at hF
      simp at hF
    | some val =>
      obtain ⟨bs, rA⟩ := val
      rw [hr] at hF
      simp only [] at hF
      obtain ⟨hge, hbs, hrA⟩ := Ring_ReadBytes_inv r ds.cv_len bs rA h.wf hr
      have hcons := ring_consume_lin r ds.cv_len h hge
      have hlinA : RingLin rA := hrA ▸ hcons.1
      have hendA : rA.end_i = r.end_i := by rw [hrA]
      have hglenA : Ring_GetLen rA = Ring_GetLen r - ds.cv_len := hrA ▸ hcons.2
      obtain ⟨hnS, hnD, hnF⟩ := cvStage3_push { ds with stage := 3, cv_name := bs }
        mc rA q hlinA (by rw [hendA]; exact hroom) (by simp)
      obtain ⟨hl3, he3, hg3, heq3⟩ := hnD ds2 mc2 r2 effs hF
      refine ⟨hl3, by rw [he3, hendA], by omega, ?_⟩
      unfold cvStage2
      rw [Ring_ReadBytes_push r ds.cv_len bs rA q h hroom hr]
      simp only []
      rw [heq3]
  · intro e hF
    unfold cvStage2 at hF
    cases hr : Ring_ReadBytes r ds.cv_len with
    | none =>
      rw [hr] at hF
      simp at hF
    | some val =>
      obtain ⟨bs, rA⟩ := val
      rw [hr] at hF
      simp only [] at hF
      obtain ⟨hge, hbs, hrA⟩ := Ring_ReadBytes_inv r ds.cv_len bs rA h.wf hr
      have hcons := ring_consume_lin r ds.cv_len h hge
      have hlinA : RingLin rA := hrA ▸ hcons.1
      have hendA : rA.end_i = r.end_i := by rw [hrA]
      obtain ⟨hnS, hnD, hnF⟩ := cvStage3_push { ds with stage := 3, cv_name := bs }
        mc rA q hlinA (by rw [hendA]; exact hroom) (by simp)
      obtain ⟨hne, heq3⟩ := hnF e hF
      refine ⟨hne, ?_⟩
      unfold cvStage2
      rw [Ring_ReadBytes_push r ds.cv_len bs rA q h hroom hr]
      simp only []
      rw [heq3]

theorem StepPush_of_eq (F F2 G : DecoderState → Mach → ringbuf_t → StepRes)
    (ds : DecoderState) (mc : Mach) (r : ringbuf_t) (q : List Nat)
    (heq : ∀ rx, F ds mc rx = F2 ds mc rx)
    (hsp : StepPush F2 G ds mc r q) : StepPush F G ds mc r q := by
  obtain ⟨h1, h2, h3⟩ := hsp
  refine ⟨?_, ?_, ?_⟩
  · intro ds2 r2 hF
    rw [heq r] at hF
    obtain ⟨a, b, c, d, e2, f⟩ := h1 ds2 r2 hF
    exact ⟨a, b, c, d, e2, by rw [heq (ringPush r q), f]⟩
  · intro ds2 mc2 r2 effs hF
    rw [heq r] at hF
    obtain ⟨a, b, c, f⟩ := h2 ds2 mc2 r2 effs hF
    exact ⟨a, b, c, by rw [heq (ringPush r q), f]⟩
  · intro e hF
    rw [heq r] at hF
    obtain ⟨a, f⟩ := h3 e hF
    exact ⟨a, by rw [heq (ringPush r q), f]⟩

theorem cvStep_push (ds : DecoderState) (mc : Mach) (r : ringbuf_t)
    (q : List Nat) (h : RingLin r) (hroom : r.end_i + q.length ≤ RINGBUF_CAP)
    (hst : ds.stage ≠ 0) : StepPush cvStep cvStep ds mc r q := by
  by_cases hst1 : ds.stage = 1
  · refine ⟨?_, ?_, ?_⟩
    · intro ds2 r2 hF
      rw [cvStep, if_pos hst1] at hF
      cases hr : Ring_Read16 r with
      | none =>
        rw [hr] at hF
        simp only [StepRes.suspend.injEq] at hF
        obtain ⟨hds, hrr⟩ := hF
        subst hds
        subst hrr
        exact ⟨h, rfl, le_refl _, rfl, hst, rfl⟩
      | some val =>
        obtain ⟨len, rA⟩ := val
        rw [hr] at hF
        simp only [] at hF
        obtain ⟨hge, hlen, hrA⟩ := Ring_Read16_inv r len rA h.wf hr
        have hcons := ring_consume_lin r 2 h hge
        have hlinA : RingLin rA := hrA ▸ hcons.1
        have hendA : rA.end_i = r.end_i := by rw [hrA]
        have hglenA : Ring_GetLen rA = Ring_GetLen r - 2 := hrA ▸ hcons.2
        by_cases hbound : CFG_NAME_MAX ≤ len
        · rw [if_pos hbound] at hF
          exact StepRes.noConfusion hF
        · rw [if_neg hbound] at hF
          obtain ⟨hnS, hnD, hnF⟩ := cvStage2_push { ds with stage := 2, cv_len := len }
            mc rA q hlinA (by rw [hendA]; exact hroom) (by simp)
          obtain ⟨hl3, he3, hg3, hmt3, hs3, heq3⟩ := hnS ds2 r2 hF
          refine ⟨hl3, by rw [he3, hendA], by omega, by rw [hmt3], hs3, ?_⟩
          rw [cvStep, if_pos hst1, Ring_Read16_push r len rA q h hroom hr]
          simp only []
          rw [if_neg hbound, heq3]
    · intro ds2 mc2 r2 effs hF
      rw [cvStep, if_pos hst1] at hF
      cases hr : Ring_Read16 r with
      | none =>
        rw [hr] at hF
        simp at hF
      | some val =>
        obtain ⟨len, rA⟩ := val
        rw [hr] at hF
        simp only [] at hF
        obtain ⟨hge, hlen, hrA⟩ := Ring_Read16_inv r len rA h.wf hr
        have hcons := ring_consume_lin r 2 h hge
        have hlinA : RingLin rA := hrA ▸ hcons.1
        have hendA : rA.end_i = r.end_i := by rw [hrA]
        have hglenA : Ring_GetLen rA = Ring_GetLen r - 2 := hrA ▸ hcons.2
        by_cases hbound : CFG_NAME_MAX ≤ len
        · rw [if_pos hbound] at hF
          exact StepRes.noConfusion hF
        · rw [if_neg hbound] at hF
          obtain ⟨hnS, hnD, hnF⟩ := cvStage2_push { ds with stage := 2, cv_len := len }
            mc rA q hlinA (by rw [hendA]; exact hroom) (by simp)
          obtain ⟨hl3, he3, hg3, heq3⟩ := hnD ds2 mc2 r2 effs hF
          refine ⟨hl3, by rw [he3, hendA], by omega, ?_⟩
          rw [cvStep, if_pos hst1, Ring_Read16_push r len rA q h hroom hr]
          simp only []
          rw [if_neg hbound, heq3]
    · intro e hF
      rw [cvStep, if_pos hst1] at hF
      cases hr : Ring_Read16 r with
      | none =>
        rw [hr] at hF
        simp at hF
      | some val =>
        obtain ⟨len, rA⟩ := val
        rw [hr] at hF
        simp only [] at hF
        obtain ⟨hge, hlen, hrA⟩ := Ring_Read16_inv r len rA h.wf hr
        have hcons := ring_consume_lin r 2 h hge
        have hlinA : RingLin rA := hrA ▸ hcons.1
        have hendA : rA.end_i = r.end_i := by rw [hrA]
        by_cases hbound : CFG_NAME_MAX ≤ len
        · rw [if_pos hbound] at hF
          simp only [StepRes.fatal.injEq] at hF
          subst hF
          refine ⟨by intro hc; exact CommFatal.noConfusion hc, ?_⟩
          rw [cvStep, if_pos hst1, Ring_Read16_push r len rA q h hroom hr]
          simp only []
          rw [if_pos hbound]
        · rw [if_neg hbound] at hF
          obtain ⟨hnS, hnD, hnF⟩ := cvStage2_push { ds with stage := 2, cv_len := len }
            mc rA q hlinA (by rw [hendA]; exact hroom) (by simp)
          obtain ⟨hne, heq3⟩ := hnF e hF
          refine ⟨hne, ?_⟩
          rw [cvStep, if_pos hst1, Ring_Read16_push r len rA q h hroom hr]
          simp only []
          rw [if_neg hbound, heq3]
  · by_cases hst2 : ds.stage = 2
    · exact StepPush_of_eq cvStep cvStage2 cvStep ds mc r q
        (fun rx => cvStep_stage2 ds mc rx hst2) (cvStage2_push ds mc r q h hroom hst2)
    · by_cases hst3 : ds.stage = 3
      · exact StepPush_of_eq cvStep cvStage3 cvStep ds mc r q
          (fun rx => cvStep_stage3 ds mc rx hst3) (cvStage3_push ds mc r q h hroom hst3)
      · exact StepPush_of_eq cvStep cvStage4 cvStep ds mc r q
          (fun rx => cvStep_stage4 ds mc rx hst1 hst2 hst3)
          (cvStage4_push ds mc r q h hroom ⟨hst, hst1, hst2, hst3⟩)

theorem pkStage2_push (ds : DecoderState) (mc : Mach) (r : ringbuf_t)
    (q : List Nat) (h : RingLin r) (hroom : r.end_i + q.length ≤ RINGBUF_CAP)
    (hst : ds.stage ≠ 0 ∧ ds.stage ≠ 1) : StepPush pkStage2 pkStep ds mc r q := by
  refine ⟨?_, ?_, ?_⟩
  · intro ds2 r2 hF
    unfold pkStage2 at hF
    cases hr : Ring_Read8 r with
    | none =>
      rw [hr] at hF
      simp only [StepRes.suspend.injEq] at hF
      obtain ⟨hds, hrr⟩ := hF
      subst hds
      subst hrr
      refine ⟨h, rfl, le_refl _, rfl, hst.1, ?_⟩
      rw [pkStep_stage2 ds mc (ringPush r q) hst.2]
    | some val =>
      obtain ⟨p, rA⟩ := val
      rw [hr] at hF
      simp only [] at hF
      split at hF <;> exact StepRes.noConfusion hF
  · intro ds2 mc2 r2 effs hF
    unfold pkStage2 at hF
    cases hr : Ring_Read8 r with
    | none =>
      rw [hr] at hF
      simp at hF
    | some val =>
      obtain ⟨p, rA⟩ := val
      rw [hr] at hF
      simp only [] at hF
      obtain ⟨hne, hp, hrA⟩ := Ring_Read8_inv r p rA h.wf hr
      have hcons := ring_consume_lin r 1 h (by omega)
      have hlinA : RingLin rA := hrA ▸ hcons.1
      have hendA : rA.end_i = r.end_i := by rw [hrA]
      have hglenA : Ring_GetLen rA = Ring_GetLen r - 1 := hrA ▸ hcons.2
      have hpush := Ring_Read8_push r p rA q h hroom hr
      split at hF
      · rename_i hcond
        obtain ⟨hds, hmc, hrr, heff⟩ := StepRes.done.injEq .. ▸ hF
        subst hds
        subst hmc
        subst hrr
        subst heff
        refine ⟨hlinA, hendA, by omega, ?_⟩
        unfold pkStage2
        rw [hpush]
        simp only []
        rw [if_pos hcond]
      · rename_i hcond
        obtain ⟨hds, hmc, hrr, heff⟩ := StepRes.done.injEq .. ▸ hF
        subst hds
        subst hmc
        subst hrr
        subst heff
        refine ⟨hlinA, hendA, by omega, ?_⟩
        unfold pkStage2
        rw [hpush]
        simp only []
        rw [if_neg hcond]
  · intro e hF
    unfold pkStage2 at hF
    cases hr : Ring_Read8 r with
    | none =>
      rw [hr] at hF
      simp at hF
    | some val =>
      obtain ⟨p, rA⟩ := val
      rw [hr] at hF
      simp only [] at hF
      split at hF <;> exact StepRes.noConfusion hF

theorem pkStep_push (ds : DecoderState) (mc : Mach) (r : ringbuf_t)
    (q : List Nat) (h : RingLin r) (hroom : r.end_i + q.length ≤ RINGBUF_CAP)
    (hst : ds.stage ≠ 0) : StepPush pkStep pkStep ds mc r q := by
  by_cases hst1 : ds.stage = 1
  · refine ⟨?_, ?_, ?_⟩
    · intro ds2 r2 hF
      rw [pkStep, if_pos hst1] at hF
      cases hr : Ring_Read8 r with
      | none =>
        rw [hr] at hF
        simp only [StepRes.suspend.injEq] at hF
        obtain ⟨hds, hrr⟩ := hF
        subst hds
        subst hrr
        exact ⟨h, rfl, le_refl _, rfl, hst, rfl⟩
      | some val =>
        obtain ⟨k, rA⟩ := val
        rw [hr] at hF
        simp only [] at hF
        obtain ⟨hne, hk, hrA⟩ := Ring_Read8_inv r k rA h.wf hr
        have hcons := ring_consume_lin r 1 h (by omega)
        have hlinA : RingLin rA := hrA ▸ hcons.1
        have hendA : rA.end_i = r.end_i := by rw [hrA]
        have hglenA : Ring_GetLen rA = Ring_GetLen r - 1 := hrA ▸ hcons.2
        obtain ⟨hnS, hnD, hnF⟩ := pkStage2_push { ds with stage := 2, pk_key := k }
          mc rA q hlinA (by rw [hendA]; exact hroom) (by simp)
        obtain ⟨hl3, he3, hg3, hmt3, hs3, heq3⟩ := hnS ds2 r2 hF
        refine ⟨hl3, by rw [he3, hendA], by omega, by rw [hmt3], hs3, ?_⟩
        rw [pkStep, if_pos hst1, Ring_Read8_push r k rA q h hroom hr]
        simp only []
        rw [heq3]
    · intro ds2 mc2 r2 effs hF
      rw [pkStep, if_pos hst1] at hF
      cases hr : Ring_Read8 r with
      | none =>
        rw [hr] at hF
        simp at hF
      | some val =>
        obtain ⟨k, rA⟩ := val
        rw [hr] at hF
        simp only [] at hF
        obtain ⟨hne, hk, hrA⟩ := Ring_Read8_inv r k rA h.wf hr
        have hcons := ring_consume_lin r 1 h (by omega)
        have hlinA : RingLin rA := hrA ▸ hcons.1
        have hendA : rA.end_i = r.end_i := by rw [hrA]
        have hglenA : Ring_GetLen rA = Ring_GetLen r - 1 := hrA ▸ hcons.2
        obtain ⟨hnS, hnD, hnF⟩ := pkStage2_push { ds with stage := 2, pk_key := k }
          mc rA q hlinA (by rw [hendA]; exact hroom) (by simp)
        obtain ⟨hl3, he3, hg3, heq3⟩ := hnD ds2 mc2 r2 effs hF
        refine ⟨hl3, by rw [he3, hendA], by omega, ?_⟩
        rw [pkStep, if_pos hst1, Ring_Read8_push r k rA q h hroom hr]
        simp only []
        rw [heq3]
    · intro e hF
      rw [pkStep, if_pos hst1] at hF
      cases hr : Ring_Read8 r with
      | none =>
        rw [hr] at hF
        simp at hF
      | some val =>
        obtain ⟨k, rA⟩ := val
        rw [hr] at hF
        simp only [] at hF
        obtain ⟨hne, hk, hrA⟩ := Ring_Read8_inv r k rA h.wf hr
        have hcons := ring_consume_lin r 1 h (by omega)
        have hlinA : RingLin rA := hrA ▸ hcons.1
        have hendA : rA.end_i = r.end_i := by rw [hrA]
        obtain ⟨hnS, hnD, hnF⟩ := pkStage2_push { ds with stage := 2, pk_key := k }
          mc rA q hlinA (by rw [hendA]; exact hroom) (by simp)
        obtain ⟨hne2, heq3⟩ := hnF e hF
        refine ⟨hne2, ?_⟩
        rw [pkStep, if_pos hst1, Ring_Read8_push r k rA q h hroom hr]
        simp only []
        rw [heq3]
  · exact StepPush_of_eq pkStep pkStage2 pkStep ds mc r q
      (fun rx => pkStep_stage2 ds mc rx hst1)
      (pkStage2_push ds mc r q h hroom ⟨hst, hst1⟩)

theorem shmStage2_push (ds : DecoderState) (mc : Mach) (r : ringbuf_t)
    (q : List Nat) (h : RingLin r) (hroom : r.end_i + q.length ≤ RINGBUF_CAP)
    (hst : ds.stage ≠ 0 ∧ ds.stage ≠ 1) : StepPush shmStage2 shmStep ds mc r q := by
  refine ⟨?_, ?_, ?_⟩
  · intro ds2 r2 hF
    unfold shmStage2 at hF
    cases hr : Ring_ReadBytes r ds.shm_len with
    | none =>
      rw [hr] at hF
      simp only [StepRes.suspend.injEq] at hF
      obtain ⟨hds, hrr⟩ := hF
      subst hds
      subst hrr
      refine ⟨h, rfl, le_refl _, rfl, hst.1, ?_⟩
      rw [shmStep_stage2 ds mc (ringPush r q) hst.2]
    | some val =>
      obtain ⟨bs, rA⟩ := val
      rw [hr] at hF
      simp at hF
  · intro ds2 mc2 r2 effs hF
    unfold shmStage2 at hF
    cases hr : Ring_ReadBytes r ds.shm_len with
    | none =>
      rw [hr] at hF
      simp at hF
    | some val =>
      obtain ⟨bs, rA⟩ := val
      rw [hr] at hF
      simp only [StepRes.done.injEq] at hF
      obtain ⟨hds, hmc, hrr, heff⟩ := hF
      obtain ⟨hge, hbs, hrA⟩ := Ring_ReadBytes_inv r ds.shm_len bs rA h.wf hr
      have hcons := ring_consume_lin r ds.shm_len h hge
      subst hds
      subst hmc
      subst heff
      subst hrr
      refine ⟨hrA ▸ hcons.1, hrA ▸ rfl, by rw [hrA, hcons.2]; omega, ?_⟩
      unfold shmStage2
      rw [Ring_ReadBytes_push r ds.shm_len bs rA q h hroom hr]
  · intro e hF
    unfold shmStage2 at hF
    cases hr : Ring_ReadBytes r ds.shm_len with
    | none =>
      rw [hr] at hF
      simp at hF
    | some val =>
      rw [hr] at hF
      simp at hF

theorem shmStep_push (ds : DecoderState) (mc : Mach) (r : ringbuf_t)
    (q : List Nat) (h : RingLin r) (hroom : r.end_i + q.length ≤ RINGBUF_CAP)
    (hst : ds.stage ≠ 0) : StepPush shmStep shmStep ds mc r q := by
  by_cases hst1 : ds.stage = 1
  · refine ⟨?_, ?_, ?_⟩
    · intro ds2 r2 hF
      rw [shmStep, if_pos hst1] at hF
      cases hr : Ring_Read16 r with
      | none =>
        rw [hr] at hF
        simp only [StepRes.suspend.injEq] at hF
        obtain ⟨hds, hrr⟩ := hF
        subst hds
        subst hrr
        exact ⟨h, rfl, le_refl _, rfl, hst, rfl⟩
      | some val =>
        obtain ⟨len, rA⟩ := val
        rw [hr] at hF
        simp only [] at hF
        obtain ⟨hge, hlen, hrA⟩ := Ring_Read16_inv r len rA h.wf hr
        have hcons := ring_consume_lin r 2 h hge
        have hlinA : RingLin rA := hrA ▸ hcons.1
        have hendA : rA.end_i = r.end_i := by rw [hrA]
        have hglenA : Ring_GetLen rA = Ring_GetLen r - 2 := hrA ▸ hcons.2
        by_cases hbound : NAME_MAX ≤ len
        · rw [if_pos hbound] at hF
          exact StepRes.noConfusion hF
        · rw [if_neg hbound] at hF
          obtain ⟨hnS, hnD, hnF⟩ := shmStage2_push { ds with stage := 2, shm_len := len }
            mc rA q hlinA (by rw [hendA]; exact hroom) (by simp)
          obtain ⟨hl3, he3, hg3, hmt3, hs3, heq3⟩ := hnS ds2 r2 hF
          refine ⟨hl3, by rw [he3, hendA], by omega, by rw [hmt3], hs3, ?_⟩
          rw [shmStep, if_pos hst1, Ring_Read16_push r len rA q h hroom hr]
          simp only []
          rw [if_neg hbound, heq3]
    · intro ds2 mc2 r2 effs hF
      rw [shmStep, if_pos hst1] at hF
      cases hr : Ring_Read16 r with
      | none =>
        rw [hr] at hF
        simp at hF
      | some val =>
        obtain ⟨len, rA⟩ := val
        rw [hr] at hF
        simp only [] at hF
        obtain ⟨hge, hlen, hrA⟩ := Ring_Read16_inv r len rA h.wf hr
        have hcons := ring_consume_lin r 2 h hge
        have hlinA : RingLin rA := hrA ▸ hcons.1
        have hendA : rA.end_i = r.end_i := by rw [hrA]
        have hglenA : Ring_GetLen rA = Ring_GetLen r - 2 := hrA ▸ hcons.2
        by_cases hbound : NAME_MAX ≤ len
        · rw [if_pos hbound] at hF
          exact StepRes.noConfusion hF
        · rw [if_neg hbound] at hF
          obtain ⟨hnS, hnD, hnF⟩ := shmStage2_push { ds with stage := 2, shm_len := len }
            mc rA q hlinA (by rw [hendA]; exact hroom) (by simp)
          obtain ⟨hl3, he3, hg3, heq3⟩ := hnD ds2 mc2 r2 effs hF
          refine ⟨hl3, by rw [he3, hendA], by omega, ?_⟩
          rw [shmStep, if_pos hst1, Ring_Read16_push r len rA q h hroom hr]
          simp only []
          rw [if_neg hbound, heq3]
    · intro e hF
      rw [shmStep, if_pos hst1] at hF
      cases hr : Ring_Read16 r with
      | none =>
        rw [hr] at hF
        simp at hF
      | some val =>
        obtain ⟨len, rA⟩ := val
        rw [hr] at hF
        simp only [] at hF
        obtain ⟨hge, hlen, hrA⟩ := Ring_Read16_inv r len rA h.wf hr
        have hcons := ring_consume_lin r 2 h hge
        have hlinA : RingLin rA := hrA ▸ hcons.1
        have hendA : rA.end_i = r.end_i := by rw [hrA]
        by_cases hbound : NAME_MAX ≤ len
        · rw [if_pos hbound] at hF
          simp only [StepRes.fatal.injEq] at hF
          subst hF
          refine ⟨by intro hc; exact CommFatal.noConfusion hc, ?_⟩
          rw [shmStep, if_pos hst1, Ring_Read16_push r len rA q h hroom hr]
          simp only []
          rw [if_pos hbound]
        · rw [if_neg hbound] at hF
          obtain ⟨hnS, hnD, hnF⟩ := shmStage2_push { ds with stage := 2, shm_len := len }
            mc rA q hlinA (by rw [hendA]; exact hroom) (by simp)
          obtain ⟨hne, heq3⟩ := hnF e hF
          refine ⟨hne, ?_⟩
          rw [shmStep, if_pos hst1, Ring_Read16_push r len rA q h hroom hr]
          simp only []
          rw [if_neg hbound, heq3]
  · exact StepPush_of_eq shmStep shmStage2 shmStep ds mc r q
      (fun rx => shmStep_stage2 ds mc rx hst1)
      (shmStage2_push ds mc r q h hroom ⟨hst, hst1⟩)

/-- Push-composition for the full dispatcher. -/
theorem stepMsg_push (ds : DecoderState) (mc : Mach) (r : ringbuf_t)
    (q : List Nat) (h : RingLin r) (hroom : r.end_i + q.length ≤ RINGBUF_CAP)
    (hst : ds.stage ≠ 0) : StepPush stepMsg stepMsg ds mc r q := by
  by_cases h0 : ds.msg_type = CMSG_WANT_FRAME
  · refine ⟨?_, ?_, ?_⟩
    · intro ds2 r2 hF
      rw [stepMsg, if_pos h0] at hF
      exact StepRes.noConfusion hF
    · intro ds2 mc2 r2 effs hF
      rw [stepMsg, if_pos h0] at hF
      obtain ⟨hds, hmc, hrr, heff⟩ := StepRes.done.injEq .. ▸ hF
      subst hds
      subst hmc
      subst hrr
      subst heff
      refine ⟨h, rfl, le_refl _, ?_⟩
      rw [stepMsg, if_pos h0]
    · intro e hF
      rw [stepMsg, if_pos h0] at hF
      exact StepRes.noConfusion hF
  · by_cases h2 : ds.msg_type = CMSG_SET_FRAME_SHM_NAME
    · have heq : ∀ rx, stepMsg ds mc rx = shmStep ds mc rx := fun rx => by
        rw [stepMsg, if_neg h0, if_pos h2]
      obtain ⟨hnS, hnD, hnF⟩ := shmStep_push ds mc r q h hroom hst
      refine ⟨?_, ?_, ?_⟩
      · intro ds2 r2 hF
        rw [heq r] at hF
        obtain ⟨a, b, c, d, e2, f⟩ := hnS ds2 r2 hF
        refine ⟨a, b, c, d, e2, ?_⟩
        rw [heq (ringPush r q), f]
        have heq2 : ds2.msg_type = CMSG_SET_FRAME_SHM_NAME := by rw [d, h2]
        rw [stepMsg, if_neg (by rw [heq2]; simp [CMSG_SET_FRAME_SHM_NAME, CMSG_WANT_FRAME]),
          if_pos heq2]
      · intro ds2 mc2 r2 effs hF
        rw [heq r] at hF
        obtain ⟨a, b, c, f⟩ := hnD ds2 mc2 r2 effs hF
        exact ⟨a, b, c, by rw [heq (ringPush r q), f]⟩
      · intro e hF
        rw [heq r] at hF
        obtain ⟨a, f⟩ := hnF e hF
        exact ⟨a, by rw [heq (ringPush r q), f]⟩
    · by_cases h1 : ds.msg_type = CMSG_PRESS_KEY
      · have heq : ∀ rx, stepMsg ds mc rx = pkStep ds mc rx := fun rx => by
          rw [stepMsg, if_neg h0, if_neg h2, if_pos h1]
        obtain ⟨hnS, hnD, hnF⟩ := pkStep_push ds mc r q h hroom hst
        refine ⟨?_, ?_, ?_⟩
        · intro ds2 r2 hF
          rw [heq r] at hF
          obtain ⟨a, b, c, d, e2, f⟩ := hnS ds2 r2 hF
          refine ⟨a, b, c, d, e2, ?_⟩
          rw [heq (ringPush r q), f]
          have heq2 : ds2.msg_type = CMSG_PRESS_KEY := by rw [d, h1]
          rw [stepMsg, if_neg (by rw [heq2]; simp [CMSG_PRESS_KEY, CMSG_WANT_FRAME]),
            if_neg (by rw [heq2]; simp [CMSG_PRESS_KEY, CMSG_SET_FRAME_SHM_NAME]),
            if_pos heq2]
        · intro ds2 mc2 r2 effs hF
          rw [heq r] at hF
          obtain ⟨a, b, c, f⟩ := hnD ds2 mc2 r2 effs hF
          exact ⟨a, b, c, by rw [heq (ringPush r q), f]⟩
        · intro e hF
          rw [heq r] at hF
          obtain ⟨a, f⟩ := hnF e hF
          exact ⟨a, by rw [heq (ringPush r q), f]⟩
      · by_cases h3 : ds.msg_type = CMSG_SET_CONFIG_VAR
        · have heq : ∀ rx, stepMsg ds mc rx = cvStep ds mc rx := fun rx => by
            rw [stepMsg, if_neg h0, if_neg h2, if_neg h1, if_pos h3]
          obtain ⟨hnS, hnD, hnF⟩ := cvStep_push ds mc r q h hroom hst
          refine ⟨?_, ?_, ?_⟩
          · intro ds2 r2 hF
            rw [heq r] at hF
            obtain ⟨a, b, c, d, e2, f⟩ := hnS ds2 r2 hF
            refine ⟨a, b, c, d, e2, ?_⟩
            rw [heq (ringPush r q), f]
            have heq2 : ds2.msg_type = CMSG_SET_CONFIG_VAR := by rw [d, h3]
            rw [stepMsg, if_neg (by rw [heq2]; simp [CMSG_SET_CONFIG_VAR, CMSG_WANT_FRAME]),
              if_neg (by rw [heq2]; simp [CMSG_SET_CONFIG_VAR, CMSG_SET_FRAME_SHM_NAME]),
              if_neg (by rw [heq2]; simp [CMSG_SET_CONFIG_VAR, CMSG_PRESS_KEY]),
              if_pos heq2]
          · intro ds2 mc2 r2 effs hF
            rw [heq r] at hF
            obtain ⟨a, b, c, f⟩ := hnD ds2 mc2 r2 effs hF
            exact ⟨a, b, c, by rw [heq (ringPush r q), f]⟩
          · intro e hF
            rw [heq r] at hF
            obtain ⟨a, f⟩ := hnF e hF
            exact ⟨a, by rw [heq (ringPush r q), f]⟩
        · refine ⟨?_, ?_, ?_⟩
          · intro ds2 r2 hF
            rw [stepMsg, if_neg h0, if_neg h2, if_neg h1, if_neg h3] at hF
            exact StepRes.noConfusion hF
          · intro ds2 mc2 r2 effs hF
            rw [stepMsg, if_neg h0, if_neg h2, if_neg h1, if_neg h3] at hF
            exact StepRes.noConfusion hF
          · intro e hF
            rw [stepMsg, if_neg h0, if_neg h2, if_neg h1, if_neg h3] at hF
            obtain heq2 := StepRes.fatal.injEq .. ▸ hF
            subst heq2
            refine ⟨by intro hc; exact CommFatal.noConfusion hc, ?_⟩
            rw [stepMsg, if_neg h0, if_neg h2, if_neg h1, if_neg h3]

/-! ### Loop-level lemmas -/

theorem except_map_error {α β ε : Type} (f : α → β) (e : ε) :
    (Except.error e : Except ε α).map f = .error e := rfl

theorem except_map_ok {α β ε : Type} (f : α → β) (a : α) :
    (Except.ok a : Except ε α).map f = .ok (f a) := rfl

/-- Fuel is irrelevant to the loop outcome as long as it does not run out. -/
theorem commLoop_mono (f1 : Nat) : ∀ f2 ds mc r res, f1 ≤ f2 →
    commLoop f1 ds mc r = res → res ≠ .error .outOfFuel →
    commLoop f2 ds mc r = res := by
  induction f1 with
  | zero =>
    intro f2 ds mc r res hle hc hne
    rw [commLoop] at hc
    exact absurd hc (Ne.symm hne)
  | succ f ih =>
    intro f2 ds mc r res hle hc hne
    obtain ⟨f2b, rfl⟩ : ∃ f2b, f2 = f2b + 1 := ⟨f2 - 1, by omega⟩
    rw [commLoop] at hc ⊢
    by_cases hst : ds.stage = 0
    · rw [if_pos hst] at hc ⊢
      cases hrd : Ring_Read8 r with
      | none =>
        rw [hrd] at hc
        exact hc
      | some val =>
        obtain ⟨t, r2⟩ := val
        rw [hrd] at hc
        simp only [] at hc ⊢
        cases hsm : stepMsg { ds with stage := 1, msg_type := t } mc r2 with
        | suspend ds2 r3 =>
          rw [hsm] at hc
          exact hc
        | fatal e =>
          rw [hsm] at hc
          exact hc
        | done ds2 mc2 r3 effs =>
          rw [hsm] at hc
          simp only [] at hc ⊢
          cases hinner : commLoop f { ds2 with stage := 0 } mc2 r3 with
          | error e =>
            rw [hinner, except_map_error] at hc
            have he : (Except.error e : Except CommFatal DecOut) ≠ .error .outOfFuel := by
              rw [hc]
              exact hne
            rw [ih f2b _ mc2 r3 (.error e) (by omega) hinner he, except_map_error]
            exact hc
          | ok out =>
            rw [hinner, except_map_ok] at hc
            rw [ih f2b _ mc2 r3 (.ok out) (by omega) hinner
                (by intro hcc; exact Except.noConfusion hcc),
              except_map_ok]
            exact hc
    · rw [if_neg hst] at hc ⊢
      cases hsm : stepMsg ds mc r with
      | suspend ds2 r3 =>
        rw [hsm] at hc
        exact hc
      | fatal e =>
        rw [hsm] at hc
        exact hc
      | done ds2 mc2 r3 effs =>
        rw [hsm] at hc
        simp only [] at hc ⊢
        cases hinner : commLoop f { ds2 with stage := 0 } mc2 r3 with
        | error e =>
          rw [hinner, except_map_error] at hc
          have he : (Except.error e : Except CommFatal DecOut) ≠ .error .outOfFuel := by
            rw [hc]
            exact hne
          rw [ih f2b _ mc2 r3 (.error e) (by omega) hinner he, except_map_error]
          exact hc
        | ok out =>
          rw [hinner, except_map_ok] at hc
          rw [ih f2b _ mc2 r3 (.ok out) (by omega) hinner
              (by intro hcc; exact Except.noConfusion hcc),
            except_map_ok]
          exact hc

/-- enoughFuel: fuel bound under which the loop never exhausts. -/
def enoughFuel (ds : DecoderState) (r : ringbuf_t) (fuel : Nat) : Prop :=
  2 * Ring_GetLen r + (if ds.stage = 0 then 1 else 2) ≤ fuel

theorem commLoop_noFuelErr (fuel : Nat) : ∀ ds mc r, RingLin r →
    enoughFuel ds r fuel → commLoop fuel ds mc r ≠ .error .outOfFuel := by
  induction fuel with
  | zero =>
    intro ds mc r h he
    unfold enoughFuel at he
    exfalso
    split at he <;> omega
  | succ f ih =>
    intro ds mc r h he hcon
    unfold enoughFuel at he
    rw [commLoop] at hcon
    by_cases hst : ds.stage = 0
    · rw [if_pos hst] at hcon
      rw [if_pos hst] at he
      cases hrd : Ring_Read8 r with
      | none =>
        rw [hrd] at hcon
        exact Except.noConfusion hcon
      | some val =>
        obtain ⟨t, r2⟩ := val
        rw [hrd] at hcon
        simp only [] at hcon
        obtain ⟨hne0, ht, hr2⟩ := Ring_Read8_inv r t r2 h.wf hrd
        have hcons := ring_consume_lin r 1 h (by omega)
        have hlin2 : RingLin r2 := hr2 ▸ hcons.1
        have hglen2 : Ring_GetLen r2 = Ring_GetLen r - 1 := hr2 ▸ hcons.2
        cases hsm : stepMsg { ds with stage := 1, msg_type := t } mc r2 with
        | suspend ds2 r3 =>
          rw [hsm] at hcon
          simp only [] at hcon
          exact Except.noConfusion hcon
        | fatal e =>
          rw [hsm] at hcon
          simp only [] at hcon
          obtain ⟨hnoof, _⟩ := (stepMsg_push { ds with stage := 1, msg_type := t }
            mc r2 [] hlin2
            (by have := hlin2.2.2.1; simp only [List.length_nil]; omega)
            (by simp)).2.2 e hsm
          exact hnoof (by injection hcon)
        | done ds2 mc2 r3 effs =>
          rw [hsm] at hcon
          simp only [] at hcon
          obtain ⟨hl3, he3, hg3, _⟩ := (stepMsg_push { ds with stage := 1, msg_type := t }
            mc r2 [] hlin2
            (by have := hlin2.2.2.1; simp only [List.length_nil]; omega)
            (by simp)).2.1 ds2 mc2 r3 effs hsm
          cases hinner : commLoop f { ds2 with stage := 0 } mc2 r3 with
          | error e =>
            rw [hinner, except_map_error] at hcon
            have heq : e = .outOfFuel := by injection hcon
            subst heq
            exact ih { ds2 with stage := 0 } mc2 r3 hl3
              (by unfold enoughFuel; rw [if_pos rfl]; omega) hinner
          | ok out =>
            rw [hinner, except_map_ok] at hcon
            exact Except.noConfusion hcon
    · rw [if_neg hst] at hcon
      rw [if_neg hst] at he
      cases hsm : stepMsg ds mc r with
      | suspend ds2 r3 =>
        rw [hsm] at hcon
        simp only [] at hcon
        exact Except.noConfusion hcon
      | fatal e =>
        rw [hsm] at hcon
        simp only [] at hcon
        obtain ⟨hnoof, _⟩ := (stepMsg_push ds mc r [] h
          (by have := h.2.2.1; simp only [List.length_nil]; omega) hst).2.2 e hsm
        exact hnoof (by injection hcon)
      | done ds2 mc2 r3 effs =>
        rw [hsm] at hcon
        simp only [] at hcon
        obtain ⟨hl3, he3, hg3, _⟩ := (stepMsg_push ds mc r [] h
          (by have := h.2.2.1; simp only [List.length_nil]; omega) hst).2.1
          ds2 mc2 r3 effs hsm
        cases hinner : commLoop f { ds2 with stage := 0 } mc2 r3 with
        | error e =>
          rw [hinner, except_map_error] at hcon
          have heq : e = .outOfFuel := by injection hcon
          subst heq
          exact ih { ds2 with stage := 0 } mc2 r3 hl3
            (by unfold enoughFuel; rw [if_pos rfl]; omega) hinner
        | ok out =>
          rw [hinner, except_map_ok] at hcon
          exact Except.noConfusion hcon

theorem commLoop_irrel (f1 f2 : Nat) (ds : DecoderState) (mc : Mach)
    (r : ringbuf_t) (h : RingLin r) (h1 : enoughFuel ds r f1)
    (h2 : enoughFuel ds r f2) : commLoop f1 ds mc r = commLoop f2 ds mc r := by
  rcases Nat.le_total f1 f2 with hle | hle
  · exact (commLoop_mono f1 f2 ds mc r _ hle rfl
      (commLoop_noFuelErr f1 ds mc r h h1)).symm
  · exact commLoop_mono f2 f1 ds mc r _ hle rfl
      (commLoop_noFuelErr f2 ds mc r h h2)

theorem enoughFuel_handle (ds : DecoderState) (r : ringbuf_t) :
    enoughFuel ds r (2 * Ring_GetLen r + 2) := by
  unfold enoughFuel
  split <;> omega

/-- A (suspending) loop run only consumes buffered bytes: the ring stays
linear, the write position is untouched and the buffered length shrinks. -/
theorem commLoop_frame (fuel : Nat) : ∀ ds mc r ds2 mc2 r2 effs, RingLin r →
    commLoop fuel ds mc r = .ok (ds2, mc2, r2, effs) →
    RingLin r2 ∧ r2.end_i = r.end_i ∧ Ring_GetLen r2 ≤ Ring_GetLen r := by
  induction fuel with
  | zero =>
    intro ds mc r ds2 mc2 r2 effs h hc
    rw [commLoop] at hc
    exact Except.noConfusion hc
  | succ f ih =>
    intro ds mc r ds2 mc2 r2 effs h hc
    rw [commLoop] at hc
    by_cases hst : ds.stage = 0
    · rw [if_pos hst] at hc
      cases hrd : Ring_Read8 r with
      | none =>
        rw [hrd] at hc
        simp only [Except.ok.injEq, Prod.mk.injEq] at hc
        obtain ⟨-, -, hrr, -⟩ := hc
        rw [← hrr]
        exact ⟨h, rfl, le_refl _⟩
      | some val =>
        obtain ⟨t, rA⟩ := val
        rw [hrd] at hc
        simp only [] at hc
        obtain ⟨hne0, ht, hrA⟩ := Ring_Read8_inv r t rA h.wf hrd
        have hcons := ring_consume_lin r 1 h (by omega)
        have hlinA : RingLin rA := hrA ▸ hcons.1
        have hglenA : Ring_GetLen rA = Ring_GetLen r - 1 := hrA ▸ hcons.2
        have hendA : rA.end_i = r.end_i := by rw [hrA]
        obtain ⟨hpS, hpD, hpF⟩ := stepMsg_push { ds with stage := 1, msg_type := t }
          mc rA [] hlinA (by have := hlinA.2.2.1; simp only [List.length_nil]; omega)
          (by simp)
        cases hsm : stepMsg { ds with stage := 1, msg_type := t } mc rA with
        | suspend ds3 r3 =>
          rw [hsm] at hc
          simp only [Except.ok.injEq, Prod.mk.injEq] at hc
          obtain ⟨-, -, hrr, -⟩ := hc
          obtain ⟨hl3, he3, hg3, -, -, -⟩ := hpS ds3 r3 hsm
          rw [← hrr]
          exact ⟨hl3, by rw [he3, hendA], by omega⟩
        | fatal e =>
          rw [hsm] at hc
          exact Except.noConfusion hc
        | done ds3 mc3 r3 effs3 =>
          rw [hsm] at hc
          simp only [] at hc
          obtain ⟨hl3, he3, hg3, -⟩ := hpD ds3 mc3 r3 effs3 hsm
          cases hinner : commLoop f { ds3 with stage := 0 } mc3 r3 with
          | error e =>
            rw [hinner, except_map_error] at hc
            exact Except.noConfusion hc
          | ok out =>
            obtain ⟨o1, o2, o3, o4⟩ := out
            rw [hinner, except_map_ok] at hc
            simp only [prependEffs, Except.ok.injEq, Prod.mk.injEq] at hc
            obtain ⟨-, -, hrr, -⟩ := hc
            obtain ⟨hi1, hi2, hi3⟩ := ih { ds3 with stage := 0 } mc3 r3 o1 o2 o3 o4 hl3 hinner
            rw [← hrr]
            exact ⟨hi1, by rw [hi2, he3, hendA], by omega⟩
    · rw [if_neg hst] at hc
      obtain ⟨hpS, hpD, hpF⟩ := stepMsg_push ds mc r [] h
        (by have := h.2.2.1; simp only [List.length_nil]; omega) hst
      cases hsm : stepMsg ds mc r with
      | suspend ds3 r3 =>
        rw [hsm] at hc
        simp only [Except.ok.injEq, Prod.mk.injEq] at hc
        obtain ⟨-, -, hrr, -⟩ := hc
        obtain ⟨hl3, he3, hg3, -, -, -⟩ := hpS ds3 r3 hsm
        rw [← hrr]
        exact ⟨hl3, he3, hg3⟩
      | fatal e =>
        rw [hsm] at hc
        exact Except.noConfusion hc
      | done ds3 mc3 r3 effs3 =>
        rw [hsm] at hc
        simp only [] at hc
        obtain ⟨hl3, he3, hg3, -⟩ := hpD ds3 mc3 r3 effs3 hsm
        cases hinner : commLoop f { ds3 with stage := 0 } mc3 r3 with
        | error e =>
          rw [hinner, except_map_error] at hc
          exact Except.noConfusion hc
        | ok out =>
          obtain ⟨o1, o2, o3, o4⟩ := out
          rw [hinner, except_map_ok] at hc
          simp only [prependEffs, Except.ok.injEq, Prod.mk.injEq] at hc
          obtain ⟨-, -, hrr, -⟩ := hc
          obtain ⟨hi1, hi2, hi3⟩ := ih { ds3 with stage := 0 } mc3 r3 o1 o2 o3 o4 hl3 hinner
          rw [← hrr]
          exact ⟨hi1, by rw [hi2, he3], by omega⟩

theorem prependEffs_nil (o : DecOut) : prependEffs [] o = o := by
  obtain ⟨a, b, c, d⟩ := o
  simp [prependEffs]

theorem map_prependEffs_nil (x : Except CommFatal DecOut) :
    x.map (prependEffs []) = x := by
  cases x with
  | error e => rfl
  | ok o => rw [except_map_ok, prependEffs_nil]

theorem prependEffs_comp (a b : List Effect) (o : DecOut) :
    prependEffs a (prependEffs b o) = prependEffs (a ++ b) o := by
  obtain ⟨x, y, z, w⟩ := o
  simp [prependEffs]

theorem except_map_map (f g : DecOut → DecOut) (x : Except CommFatal DecOut) :
    (x.map g).map f = x.map (fun o => f (g o)) := by
  cases x <;> rfl

theorem commLoop_nonzero_eq (g : Nat) (ds : DecoderState) (mc : Mach)
    (r : ringbuf_t) (hst : ds.stage ≠ 0) :
    commLoop (g + 1) ds mc r = match stepMsg ds mc r with
      | .suspend ds2 r3 => .ok (ds2, mc, r3, [])
      | .fatal e => .error e
      | .done ds2 mc2 r3 effs =>
          (commLoop g { ds2 with stage := 0 } mc2 r3).map (prependEffs effs) := by
  rw [commLoop, if_neg hst]

/-- Core resumability: a suspended loop run, given more bytes, continues
exactly where it stopped — running on the extended input equals running on
the original input and then resuming the saved state on the leftover plus
the new bytes, with the already-applied effects in front. -/
theorem commLoop_push (f1 : Nat) : ∀ ds mc r ds2 mc2 r2 effs q g,
    RingLin r → r.end_i + q.length ≤ RINGBUF_CAP →
    commLoop f1 ds mc r = .ok (ds2, mc2, r2, effs) →
    enoughFuel ds (ringPush r q) g →
    commLoop g ds mc (ringPush r q) =
      (Comm_HandleReceivedMsgs ds2 mc2 (ringPush r2 q)).map (prependEffs effs) := by
  induction f1 with
  | zero =>
    intro ds mc r ds2 mc2 r2 effs q g h hroom hc hg
    rw [commLoop] at hc
    exact Except.noConfusion hc
  | succ f ih =>
    intro ds mc r ds2 mc2 r2 effs q g h hroom hc hg
    have hpl : RingLin (ringPush r q) := ringPush_lin r q h hroom
    have hpe : (ringPush r q).end_i = r.end_i + q.length := rfl
    have hpg : Ring_GetLen (ringPush r q) = Ring_GetLen r + q.length :=
      ringPush_getLen r q h hroom
    obtain ⟨gb, rfl⟩ : ∃ gb, g = gb + 1 := by
      refine ⟨g - 1, ?_⟩
      unfold enoughFuel at hg
      split at hg <;> omega
    rw [commLoop] at hc
    by_cases hst : ds.stage = 0
    · rw [if_pos hst] at hc
      cases hrd : Ring_Read8 r with
      | none =>
        rw [hrd] at hc
        simp only [Except.ok.injEq, Prod.mk.injEq] at hc
        obtain ⟨hds, hmc, hrr, heff⟩ := hc
        rw [← hds, ← hmc, ← hrr, ← heff, map_prependEffs_nil]
        exact commLoop_irrel (gb + 1) _ ds mc (ringPush r q) hpl hg
          (enoughFuel_handle ds (ringPush r q))
      | some val =>
        obtain ⟨t, rA⟩ := val
        rw [hrd] at hc
        simp only [] at hc
        obtain ⟨hne0, ht, hrAeq⟩ := Ring_Read8_inv r t rA h.wf hrd
        have hcons := ring_consume_lin r 1 h (by omega)
        have hlinA : RingLin rA := hrAeq ▸ hcons.1
        have hglenA : Ring_GetLen rA = Ring_GetLen r - 1 := hrAeq ▸ hcons.2
        have hendA : rA.end_i = r.end_i := by rw [hrAeq]
        have hroomA : rA.end_i + q.length ≤ RINGBUF_CAP := by rw [hendA]; exact hroom
        have hrd8p := Ring_Read8_push r t rA q h hroom hrd
        obtain ⟨hpS, hpD, hpF⟩ := stepMsg_push { ds with stage := 1, msg_type := t }
          mc rA q hlinA hroomA (by simp)
        cases hsm : stepMsg { ds with stage := 1, msg_type := t } mc rA with
        | suspend ds3 r3 =>
          rw [hsm] at hc
          simp only [Except.ok.injEq, Prod.mk.injEq] at hc
          obtain ⟨hds, hmc, hrr, heff⟩ := hc
          obtain ⟨hl3, he3, hg3, hmt3, hs3, heq3⟩ := hpS ds3 r3 hsm
          rw [commLoop, if_pos hst, hrd8p]
          simp only []
          rw [heq3, ← hds, ← hmc, ← hrr, ← heff, map_prependEffs_nil]
          have hlp3 : RingLin (ringPush r3 q) :=
            ringPush_lin r3 q hl3 (by rw [he3, hendA]; exact hroom)
          rw [Comm_HandleReceivedMsgs,
            show 2 * Ring_GetLen (ringPush r3 q) + 2 =
              (2 * Ring_GetLen (ringPush r3 q) + 1) + 1 from rfl,
            commLoop_nonzero_eq _ ds3 mc (ringPush r3 q) hs3]
          obtain ⟨hqS, hqD, hqF⟩ := stepMsg_push ds3 mc (ringPush r3 q) []
            hlp3 (by have := hlp3.2.2.1; simp only [List.length_nil]; omega) hs3
          cases hsm2 : stepMsg ds3 mc (ringPush r3 q) with
          | suspend ds4 r4 => rfl
          | fatal e => rfl
          | done ds4 mc4 r4 effs4 =>
            simp only []
            obtain ⟨hl4, he4, hg4, -⟩ := hqD ds4 mc4 r4 effs4 hsm2
            have hpg3 : Ring_GetLen (ringPush r3 q) = Ring_GetLen r3 + q.length :=
              ringPush_getLen r3 q hl3 (by rw [he3, hendA]; exact hroom)
            apply congrArg
            apply commLoop_irrel gb _ _ mc4 r4 hl4
            · unfold enoughFuel
              rw [if_pos rfl]
              unfold enoughFuel at hg
              rw [if_pos hst] at hg
              omega
            · unfold enoughFuel
              rw [if_pos rfl]
              omega
        | fatal e =>
          rw [hsm] at hc
          exact Except.noConfusion hc
        | done ds3 mc3 r3 effs3 =>
          rw [hsm] at hc
          simp only [] at hc
          obtain ⟨hl3, he3, hg3, hpdone⟩ := hpD ds3 mc3 r3 effs3 hsm
          cases hinner : commLoop f { ds3 with stage := 0 } mc3 r3 with
          | error e =>
            rw [hinner, except_map_error] at hc
            exact Except.noConfusion hc
          | ok out =>
            obtain ⟨o1, o2, o3, o4⟩ := out
            rw [hinner, except_map_ok] at hc
            simp only [prependEffs, Except.ok.injEq, Prod.mk.injEq] at hc
            obtain ⟨hds, hmc, hrr, heff⟩ := hc
            rw [commLoop, if_pos hst, hrd8p]
            simp only []
            rw [hpdone]
            simp only []
            have hroom3 : r3.end_i + q.length ≤ RINGBUF_CAP := by
              rw [he3, hendA]
              exact hroom
            rw [ih { ds3 with stage := 0 } mc3 r3 o1 o2 o3 o4 q gb hl3 hroom3 hinner
              (by
                unfold enoughFuel
                rw [if_pos rfl, ringPush_getLen r3 q hl3 hroom3]
                unfold enoughFuel at hg
                rw [if_pos hst] at hg
                omega)]
            rw [except_map_map, ← hds, ← hmc, ← hrr, ← heff]
            congr 1
            funext o
            rw [prependEffs_comp]
    · rw [if_neg hst] at hc
      obtain ⟨hpS, hpD, hpF⟩ := stepMsg_push ds mc r q h hroom hst
      cases hsm : stepMsg ds mc r with
      | suspend ds3 r3 =>
        rw [hsm] at hc
        simp only [Except.ok.injEq, Prod.mk.injEq] at hc
        obtain ⟨hds, hmc, hrr, heff⟩ := hc
        obtain ⟨hl3, he3, hg3, hmt3, hs3, heq3⟩ := hpS ds3 r3 hsm
        rw [commLoop, if_neg hst, heq3, ← hds, ← hmc, ← hrr, ← heff,
          map_prependEffs_nil]
        have hlp3 : RingLin (ringPush r3 q) :=
          ringPush_lin r3 q hl3 (by rw [he3]; exact hroom)
        rw [Comm_HandleReceivedMsgs,
          show 2 * Ring_GetLen (ringPush r3 q) + 2 =
            (2 * Ring_GetLen (ringPush r3 q) + 1) + 1 from rfl,
          commLoop_nonzero_eq _ ds3 mc (ringPush r3 q) hs3]
        obtain ⟨hqS, hqD, hqF⟩ := stepMsg_push ds3 mc (ringPush r3 q) []
          hlp3 (by have := hlp3.2.2.1; simp only [List.length_nil]; omega) hs3
        cases hsm2 : stepMsg ds3 mc (ringPush r3 q) with
        | suspend ds4 r4 => rfl
        | fatal e => rfl
        | done ds4 mc4 r4 effs4 =>
          simp only []
          obtain ⟨hl4, he4, hg4, -⟩ := hqD ds4 mc4 r4 effs4 hsm2
          have hpg3 : Ring_GetLen (ringPush r3 q) = Ring_GetLen r3 + q.length :=
            ringPush_getLen r3 q hl3 (by rw [he3]; exact hroom)
          apply congrArg
          apply commLoop_irrel gb _ _ mc4 r4 hl4
          · unfold enoughFuel
            rw [if_pos rfl]
            unfold enoughFuel at hg
            rw [if_neg hst] at hg
            omega
          · unfold enoughFuel
            rw [if_pos rfl]
            omega
      | fatal e =>
        rw [hsm] at hc
        exact Except.noConfusion hc
      | done ds3 mc3 r3 effs3 =>
        rw [hsm] at hc
        simp only [] at hc
        obtain ⟨hl3, he3, hg3, hpdone⟩ := hpD ds3 mc3 r3 effs3 hsm
        cases hinner : commLoop f { ds3 with stage := 0 } mc3 r3 with
        | error e =>
          rw [hinner, except_map_error] at hc
          exact Except.noConfusion hc
        | ok out =>
          obtain ⟨o1, o2, o3, o4⟩ := out
          rw [hinner, except_map_ok] at hc
          simp only [prependEffs, Except.ok.injEq, Prod.mk.injEq] at hc
          obtain ⟨hds, hmc, hrr, heff⟩ := hc
          rw [commLoop, if_neg hst, hpdone]
          simp only []
          have hroom3 : r3.end_i + q.length ≤ RINGBUF_CAP := by
            rw [he3]
            exact hroom
          rw [ih { ds3 with stage := 0 } mc3 r3 o1 o2 o3 o4 q gb hl3 hroom3 hinner
            (by
              unfold enoughFuel
              rw [if_pos rfl, ringPush_getLen r3 q hl3 hroom3]
              unfold enoughFuel at hg
              rw [if_neg hst] at hg
              omega)]
          rw [except_map_map, ← hds, ← hmc, ← hrr, ← heff]
          congr 1
          funext o
          rw [prependEffs_comp]

/-- Fatal composition: a fatal decoder error (a real one, not fuel
exhaustion) is unaffected by bytes arriving later in the queue. -/
theorem commLoop_push_fatal (f1 : Nat) : ∀ ds mc r e q g,
    RingLin r → r.end_i + q.length ≤ RINGBUF_CAP →
    commLoop f1 ds mc r = .error e → e ≠ .outOfFuel →
    enoughFuel ds (ringPush r q) g →
    commLoop g ds mc (ringPush r q) = .error e := by
  induction f1 with
  | zero =>
    intro ds mc r e q g h hroom hc hne hg
    rw [commLoop] at hc
    simp only [Except.error.injEq] at hc
    exact absurd hc.symm hne
  | succ f ih =>
    intro ds mc r e q g h hroom hc hne hg
    have hpl : RingLin (ringPush r q) := ringPush_lin r q h hroom
    have hpg : Ring_GetLen (ringPush r q) = Ring_GetLen r + q.length :=
      ringPush_getLen r q h hroom
    obtain ⟨gb, rfl⟩ : ∃ gb, g = gb + 1 := by
      refine ⟨g - 1, ?_⟩
      unfold enoughFuel at hg
      split at hg <;> omega
    rw [commLoop] at hc
    by_cases hst : ds.stage = 0
    · rw [if_pos hst] at hc
      cases hrd : Ring_Read8 r with
      | none =>
        rw [hrd] at hc
        exact Except.noConfusion hc
      | some val =>
        obtain ⟨t, rA⟩ := val
        rw [hrd] at hc
        simp only [] at hc
        obtain ⟨hne0, ht, hrAeq⟩ := Ring_Read8_inv r t rA h.wf hrd
        have hcons := ring_consume_lin r 1 h (by omega)
        have hlinA : RingLin rA := hrAeq ▸ hcons.1
        have hglenA : Ring_GetLen rA = Ring_GetLen r - 1 := hrAeq ▸ hcons.2
        have hendA : rA.end_i = r.end_i := by rw [hrAeq]
        have hroomA : rA.end_i + q.length ≤ RINGBUF_CAP := by rw [hendA]; exact hroom
        have hrd8p := Ring_Read8_push r t rA q h hroom hrd
        obtain ⟨hpS, hpD, hpF⟩ := stepMsg_push { ds with stage := 1, msg_type := t }
          mc rA q hlinA hroomA (by simp)
        cases hsm : stepMsg { ds with stage := 1, msg_type := t } mc rA with
        | suspend ds3 r3 =>
          rw [hsm] at hc
          exact Except.noConfusion hc
        | fatal e2 =>
          rw [hsm] at hc
          simp only [Except.error.injEq] at hc
          rw [commLoop, if_pos hst, hrd8p]
          simp only []
          rw [(hpF e2 hsm).2, hc]
        | done ds3 mc3 r3 effs3 =>
          rw [hsm] at hc
          simp only [] at hc
          obtain ⟨hl3, he3, hg3, hpdone⟩ := hpD ds3 mc3 r3 effs3 hsm
          cases hinner : commLoop f { ds3 with stage := 0 } mc3 r3 with
          | ok out =>
            rw [hinner, except_map_ok] at hc
            exact Except.noConfusion hc
          | error e2 =>
            rw [hinner, except_map_error] at hc
            simp only [Except.error.injEq] at hc
            rw [commLoop, if_pos hst, hrd8p]
            simp only []
            rw [hpdone]
            simp only []
            have hroom3 : r3.end_i + q.length ≤ RINGBUF_CAP := by
              rw [he3, hendA]
              exact hroom
            rw [ih { ds3 with stage := 0 } mc3 r3 e2 q gb hl3 hroom3 hinner
              (hc ▸ hne)
              (by
                unfold enoughFuel
                rw [if_pos rfl, ringPush_getLen r3 q hl3 hroom3]
                unfold enoughFuel at hg
                rw [if_pos hst] at hg
                omega), except_map_error, hc]
    · rw [if_neg hst] at hc
      obtain ⟨hpS, hpD, hpF⟩ := stepMsg_push ds mc r q h hroom hst
      cases hsm : stepMsg ds mc r with
      | suspend ds3 r3 =>
        rw [hsm] at hc
        exact Except.noConfusion hc
      | fatal e2 =>
        rw [hsm] at hc
        simp only [Except.error.injEq] at hc
        rw [commLoop, if_neg hst, (hpF e2 hsm).2, hc]
      | done ds3 mc3 r3 effs3 =>
        rw [hsm] at hc
        simp only [] at hc
        obtain ⟨hl3, he3, hg3, hpdone⟩ := hpD ds3 mc3 r3 effs3 hsm
        cases hinner : commLoop f { ds3 with stage := 0 } mc3 r3 with
        | ok out =>
          rw [hinner, except_map_ok] at hc
          exact Except.noConfusion hc
        | error e2 =>
          rw [hinner, except_map_error] at hc
          simp only [Except.error.injEq] at hc
          rw [commLoop, if_neg hst, hpdone]
          simp only []
          have hroom3 : r3.end_i + q.length ≤ RINGBUF_CAP := by
            rw [he3]
            exact hroom
          rw [ih { ds3 with stage := 0 } mc3 r3 e2 q gb hl3 hroom3 hinner
            (hc ▸ hne)
            (by
              unfold enoughFuel
              rw [if_pos rfl, ringPush_getLen r3 q hl3 hroom3]
              unfold enoughFuel at hg
              rw [if_neg hst] at hg
              omega), except_map_error, hc]

theorem RINGBUF_CAP_lt_size : RINGBUF_CAP < RINGBUF_SIZE := by decide

/-- Two consecutive receive bursts decode exactly like a single burst of
their concatenated bytes. -/
theorem feedChunk_merge (ds : DecoderState) (mc : Mach) (r : ringbuf_t)
    (effs : List Effect) (c1 c2 : List Nat) (h : RingLin r)
    (hroom : r.end_i + c1.length + c2.length ≤ RINGBUF_CAP) :
    feedChunk (feedChunk (.ok (ds, mc, r, effs)) c1) c2 =
      feedChunk (.ok (ds, mc, r, effs)) (c1 ++ c2) := by
  have hl1 : RingLin (ringPush r c1) := ringPush_lin r c1 h (by omega)
  have he1 : (ringPush r c1).end_i = r.end_i + c1.length := rfl
  have hroom1 : (ringPush r c1).end_i + c2.length ≤ RINGBUF_CAP := by
    rw [he1]
    omega
  have hpp : ringPush (ringPush r c1) c2 = ringPush r (c1 ++ c2) :=
    ringPush_push r c1 c2 h.1
      (Nat.le_trans hroom (Nat.le_of_lt RINGBUF_CAP_lt_size))
  rw [feedChunk]
  cases hrun : Comm_HandleReceivedMsgs ds mc (ringPush r c1) with
  | error e =>
    have hnf : e ≠ .outOfFuel := by
      intro hcon
      exact commLoop_noFuelErr _ ds mc (ringPush r c1) hl1
        (enoughFuel_handle ds (ringPush r c1)) (hcon ▸ hrun)
    rw [except_map_error]
    show Except.error e = feedChunk (.ok (ds, mc, r, effs)) (c1 ++ c2)
    rw [feedChunk]
    rw [← hpp, Comm_HandleReceivedMsgs]
    rw [commLoop_push_fatal _ ds mc (ringPush r c1) e c2 _ hl1 hroom1 hrun hnf
      (enoughFuel_handle ds (ringPush (ringPush r c1) c2)), except_map_error]
  | ok out =>
    obtain ⟨ds2, mc2, r2, effs2⟩ := out
    rw [except_map_ok]
    simp only [prependEffs]
    rw [feedChunk, feedChunk]
    rw [← hpp]
    rw [show Comm_HandleReceivedMsgs ds mc (ringPush (ringPush r c1) c2) =
      (Comm_HandleReceivedMsgs ds2 mc2 (ringPush r2 c2)).map (prependEffs effs2)
      from commLoop_push _ ds mc (ringPush r c1) ds2 mc2 r2 effs2 c2 _ hl1
        hroom1 hrun (enoughFuel_handle ds (ringPush (ringPush r c1) c2))]
    rw [except_map_map]
    congr 1
    funext o
    rw [prependEffs_comp]

theorem foldl_feedChunk (cs : List (List Nat)) : ∀ (ds : DecoderState) (mc : Mach)
    (r : ringbuf_t) (effs : List Effect) (c0 : List Nat), RingLin r →
    r.end_i + c0.length + cs.flatten.length ≤ RINGBUF_CAP →
    cs.foldl feedChunk (feedChunk (.ok (ds, mc, r, effs)) c0) =
      feedChunk (.ok (ds, mc, r, effs)) (c0 ++ cs.flatten) := by
  induction cs with
  | nil =>
    intro ds mc r effs c0 h hroom
    simp only [List.foldl_nil, List.flatten_nil, List.append_nil]
  | cons c cs ih =>
    intro ds mc r effs c0 h hroom
    simp only [List.flatten_cons, List.length_append] at hroom ⊢
    rw [List.foldl_cons,
      feedChunk_merge ds mc r effs c0 c h (by omega),
      ih ds mc r effs (c0 ++ c) h (by simp only [List.length_append]; omega),
      List.append_assoc]

/-- Chunked decoding equals one-shot decoding: feeding any sequence of
receive bursts whose bytes concatenate to `bs` produces exactly the result
of decoding `bs` in one run from the reset state. -/
theorem feedChunks_eq_oneshot (mc : Mach) (cs : List (List Nat))
    (h : cs.flatten.length ≤ RINGBUF_CAP) :
    feedChunks mc cs = Comm_HandleReceivedMsgs dsInit mc (ringOf cs.flatten) := by
  cases cs with
  | nil =>
    rw [feedChunks, List.foldl_nil, List.flatten_nil, ringOf, ringPush_nil]
    rfl
  | cons c cs =>
    rw [feedChunks, List.foldl_cons]
    have hjoin := h
    simp only [List.flatten_cons, List.length_append] at hjoin
    rw [show feedChunk (.ok (dsInit, mc, emptyRecvRing, [])) c =
        feedChunk (.ok (dsInit, mc, emptyRecvRing, ([] : List Effect))) c from rfl,
      foldl_feedChunk cs dsInit mc emptyRecvRing [] c emptyRecvRing_lin
        (by simp only [emptyRecvRing]; omega),
      feedChunk, List.flatten_cons, ← ringOf, map_prependEffs_nil]

/-! ### Decoding one complete message from a linear ring -/

theorem map_mod_self (l : List Nat) (h : ∀ b ∈ l, b < 256) :
    l.map (· % 256) = l := by
  induction l with
  | nil => rfl
  | cons a t ih =>
    simp only [List.map_cons, List.cons.injEq]
    exact ⟨Nat.mod_eq_of_lt (h a (List.mem_cons_self a t)),
      ih fun b hb => h b (List.mem_cons_of_mem a hb)⟩

theorem read8_lin (r : ringbuf_t) (h : RingLin r) (b : Nat) (bs : List Nat)
    (hq : ringToList r = b :: bs) :
    ∃ r2, Ring_Read8 r = some (b, r2) ∧ RingLin r2 ∧ r2.end_i = r.end_i ∧
      ringToList r2 = bs := by
  have hlen : Ring_GetLen r = bs.length + 1 := by
    rw [← ringToList_length, hq]
    simp
  have hcons := ring_consume_lin r 1 h (by omega)
  refine ⟨_, ?_, hcons.1, rfl, ?_⟩
  · rw [Ring_Read8_spec r h.wf (by omega), hq]
    rfl
  · rw [ringToList_advance r h.wf 1 (by omega), hq, List.drop_one, List.tail_cons]

theorem read16_lin (r : ringbuf_t) (h : RingLin r) (b0 b1 : Nat) (bs : List Nat)
    (hq : ringToList r = b0 :: b1 :: bs) :
    ∃ r2, Ring_Read16 r = some (read16val b0 b1, r2) ∧ RingLin r2 ∧
      r2.end_i = r.end_i ∧ ringToList r2 = bs := by
  have hlen : Ring_GetLen r = bs.length + 2 := by
    rw [← ringToList_length, hq]
    simp
  have hcons := ring_consume_lin r 2 h (by omega)
  refine ⟨_, ?_, hcons.1, rfl, ?_⟩
  · rw [Ring_Read16_spec r h.wf (by omega), hq]
    rfl
  · rw [ringToList_advance r h.wf 2 (by omega), hq]
    rfl

theorem readBytes_lin (r : ringbuf_t) (h : RingLin r) (p bs : List Nat)
    (hq : ringToList r = p ++ bs) :
    ∃ r2, Ring_ReadBytes r p.length = some (p, r2) ∧ RingLin r2 ∧
      r2.end_i = r.end_i ∧ ringToList r2 = bs := by
  have hlen : Ring_GetLen r = p.length + bs.length := by
    rw [← ringToList_length, hq]
    simp
  have hcons := ring_consume_lin r p.length h (by omega)
  refine ⟨_, ?_, hcons.1, rfl, ?_⟩
  · rw [Ring_ReadBytes_spec r p.length h.wf (by omega), hq,
      List.take_left]
  · rw [ringToList_advance r h.wf p.length (by omega), hq, List.drop_left]

theorem read16val_enc16 (n : Nat) (h : n < 128) :
    read16val (n % 256) (n / 256 % 256) = n := by
  have h1 : n % 256 = n := Nat.mod_eq_of_lt (by omega)
  have h2 : n / 256 = 0 := Nat.div_eq_of_lt (by omega)
  simp [read16val, h1, h2, h]

theorem encodeCMsg_len_le (m : CMsg) (hv : ValidCMsg m) :
    (encodeCMsg m).length ≤ RINGBUF_CAP := by
  cases m with
  | wantFrame => decide
  | setFrameShmName name =>
    obtain ⟨hl, -⟩ := hv
    simp only [encodeCMsg, enc16, List.length_cons, List.length_append,
      RINGBUF_CAP, RINGBUF_SIZE]
    simp only [List.length_cons, List.length_nil]
    omega
  | pressKey k p => simp [encodeCMsg, RINGBUF_CAP, RINGBUF_SIZE]
  | setConfigVar name value =>
    obtain ⟨hn, hval, -, -⟩ := hv
    simp only [CFG_NAME_MAX, CFG_VALUE_MAX] at hn hval
    simp only [encodeCMsg, enc16, List.length_cons, List.length_append,
      RINGBUF_CAP, RINGBUF_SIZE]
    simp only [List.length_cons, List.length_nil]
    omega

theorem enc16_bytes_lt (n : Nat) : ∀ b ∈ enc16 n, b < 256 := by
  intro b hb
  simp only [enc16, List.mem_cons, List.not_mem_nil, or_false] at hb
  rcases hb with rfl | rfl <;> exact Nat.mod_lt _ (by omega)

theorem encodeCMsg_bytes_lt (m : CMsg) (hv : ValidCMsg m) :
    ∀ b ∈ encodeCMsg m, b < 256 := by
  cases m with
  | wantFrame =>
    intro b hb
    simp only [encodeCMsg, CMSG_WANT_FRAME, List.mem_cons,
      List.not_mem_nil, or_false] at hb
    omega
  | setFrameShmName name =>
    obtain ⟨-, hbytes⟩ := hv
    intro b hb
    simp only [encodeCMsg, CMSG_SET_FRAME_SHM_NAME, List.mem_cons,
      List.mem_append] at hb
    rcases hb with rfl | hb | hb
    · omega
    · exact enc16_bytes_lt _ b hb
    · exact hbytes b hb
  | pressKey k p =>
    obtain ⟨hk, hp⟩ := hv
    intro b hb
    simp only [encodeCMsg, CMSG_PRESS_KEY, List.mem_cons,
      List.not_mem_nil, or_false] at hb
    rcases hb with rfl | rfl | rfl <;> omega
  | setConfigVar name value =>
    obtain ⟨-, -, hname, hval⟩ := hv
    intro b hb
    simp only [encodeCMsg, CMSG_SET_CONFIG_VAR, List.mem_cons,
      List.mem_append] at hb
    rcases hb with rfl | hb
    · omega
    rcases hb with ⟨⟨h1 | h1⟩ | h1⟩ | h1
    · exact enc16_bytes_lt _ b h1
    · exact hname b h1
    · exact enc16_bytes_lt _ b h1
    · exact hval b h1

theorem ringOf_toList_of_lt (bytes : List Nat)
    (hlen : bytes.length ≤ RINGBUF_CAP) (hlt : ∀ b ∈ bytes, b < 256) :
    ringToList (ringOf bytes) = bytes := by
  rw [ringOf_toList bytes hlen, map_mod_self bytes hlt]

theorem commLoop_emptyRing (f : Nat) (ds : DecoderState) (mc : Mach)
    (r : ringbuf_t) (hst : ds.stage = 0) (hwf : RingWF r)
    (hlen : Ring_GetLen r = 0) :
    commLoop (f + 1) ds mc r = .ok (ds, mc, r, []) := by
  rw [commLoop, if_pos hst, (Ring_Read8_eq_none r hwf).mpr hlen]

theorem CHRM_one_msg (ds0 : DecoderState) (mc : Mach) (r : ringbuf_t)
    (hst : ds0.stage = 0) (h : RingLin r) (t : Nat)
    (r1 : ringbuf_t) (ds2 : DecoderState) (mc2 : Mach) (r2 : ringbuf_t)
    (effs : List Effect)
    (hrd : Ring_Read8 r = some (t, r1))
    (hsm : stepMsg { ds0 with stage := 1, msg_type := t } mc r1 =
      .done ds2 mc2 r2 effs)
    (hwf2 : RingWF r2) (hdr : Ring_GetLen r2 = 0) :
    Comm_HandleReceivedMsgs ds0 mc r =
      .ok ({ ds2 with stage := 0 }, mc2, r2, effs) := by
  rw [Comm_HandleReceivedMsgs,
    show 2 * Ring_GetLen r + 2 = (2 * Ring_GetLen r + 1) + 1 from rfl,
    commLoop, if_pos hst, hrd]
  simp only []
  rw [hsm]
  simp only []
  rw [show 2 * Ring_GetLen r + 1 = (2 * Ring_GetLen r) + 1 from rfl,
    commLoop_emptyRing _ _ mc2 r2 rfl hwf2 hdr, except_map_ok]
  simp [prependEffs]

theorem pkStage2_eval (ds : DecoderState) (mc : Mach) (r : ringbuf_t)
    (p : Nat) (r2 : ringbuf_t) (hrd : Ring_Read8 r = some (p, r2)) :
    pkStage2 ds mc r =
      if Ring_GetLen mc.key_buf + 2 ≤ RINGBUF_CAP then
        .done { ds with pk_pressed := p }
          { mc with key_buf := keyPush (keyPush mc.key_buf ds.pk_key) p } r2
          [.pressKey ds.pk_key p true]
      else .done { ds with pk_pressed := p } mc r2
        [.pressKey ds.pk_key p false] := by
  rw [pkStage2, hrd]

theorem pkStep_stage1 (ds : DecoderState) (mc : Mach) (r : ringbuf_t)
    (k : Nat) (r2 : ringbuf_t) (h : ds.stage = 1)
    (hrd : Ring_Read8 r = some (k, r2)) :
    pkStep ds mc r = pkStage2 { ds with stage := 2, pk_key := k } mc r2 := by
  rw [pkStep, if_pos h, hrd]

theorem shmStep_stage1 (ds : DecoderState) (mc : Mach) (r : ringbuf_t)
    (len : Nat) (r2 : ringbuf_t) (h : ds.stage = 1)
    (hrd : Ring_Read16 r = some (len, r2)) (hlen : len < NAME_MAX) :
    shmStep ds mc r = shmStage2 { ds with stage := 2, shm_len := len } mc r2 := by
  rw [shmStep, if_pos h, hrd]
  simp only []
  rw [if_neg (by omega)]

theorem shmStage2_eval (ds : DecoderState) (mc : Mach) (r : ringbuf_t)
    (name : List Nat) (r2 : ringbuf_t)
    (hrd : Ring_ReadBytes r ds.shm_len = some (name, r2)) :
    shmStage2 ds mc r = .done { ds with shm_name := name }
      { mc with frame_shm_name := name } r2 [.setShmName name] := by
  rw [shmStage2, hrd]

theorem cvStep_stage1 (ds : DecoderState) (mc : Mach) (r : ringbuf_t)
    (len : Nat) (r2 : ringbuf_t) (h : ds.stage = 1)
    (hrd : Ring_Read16 r = some (len, r2)) (hlen : len < CFG_NAME_MAX) :
    cvStep ds mc r = cvStage2 { ds with stage := 2, cv_len := len } mc r2 := by
  rw [cvStep, if_pos h, hrd]
  simp only []
  rw [if_neg (by omega)]

theorem cvStage2_eval (ds : DecoderState) (mc : Mach) (r : ringbuf_t)
    (name : List Nat) (r2 : ringbuf_t)
    (hrd : Ring_ReadBytes r ds.cv_len = some (name, r2)) :
    cvStage2 ds mc r = cvStage3 { ds with stage := 3, cv_name := name } mc r2 := by
  rw [cvStage2, hrd]

theorem cvStage3_eval (ds : DecoderState) (mc : Mach) (r : ringbuf_t)
    (len : Nat) (r2 : ringbuf_t)
    (hrd : Ring_Read16 r = some (len, r2)) (hlen : len < CFG_VALUE_MAX) :
    cvStage3 ds mc r = cvStage4 { ds with stage := 4, cv_len := len } mc r2 := by
  rw [cvStage3, hrd]
  simp only []
  rw [if_neg (by omega)]

theorem cvStage4_eval (ds : DecoderState) (mc : Mach) (r : ringbuf_t)
    (v : List Nat) (r2 : ringbuf_t)
    (hrd : Ring_ReadBytes r ds.cv_len = some (v, r2)) :
    cvStage4 ds mc r = .done { ds with cv_value := v } mc r2
      [.setConfigVar ds.cv_name v] := by
  rw [cvStage4, hrd]

/-- Decoding one complete valid message from any stage-0 decoder state
applies exactly its one side effect, updates the machine accordingly,
drains the ring and resets `stage` to 0. -/
theorem decode_one_gen (m : CMsg) (ds0 : DecoderState) (mc : Mach)
    (r : ringbuf_t) (hv : ValidCMsg m) (hst : ds0.stage = 0)
    (hlin : RingLin r) (hq : ringToList r = encodeCMsg m) :
    ∃ ds2 r2, Comm_HandleReceivedMsgs ds0 mc r =
      .ok (ds2, msgMach m mc, r2, [msgEffect m mc]) ∧ ds2.stage = 0 ∧
      Ring_GetLen r2 = 0 ∧ r2.end_i = r.end_i ∧ RingLin r2 := by
  cases m with
  | wantFrame =>
    obtain ⟨rA, hrdA, hlA, heA, hqA⟩ :=
      read8_lin _ hlin CMSG_WANT_FRAME [] hq
    have hsm : stepMsg { ds0 with stage := 1, msg_type := CMSG_WANT_FRAME }
        mc rA = .done { ds0 with stage := 1, msg_type := CMSG_WANT_FRAME }
        { mc with screenvisible := true } rA [.wantFrame] := rfl
    have hdr : Ring_GetLen rA = 0 := by
      rw [← ringToList_length, hqA]
      rfl
    have hmain : Comm_HandleReceivedMsgs ds0 mc r =
        .ok ({ ds0 with stage := 0, msg_type := CMSG_WANT_FRAME },
          msgMach CMsg.wantFrame mc, rA, [msgEffect CMsg.wantFrame mc]) := by
      rw [CHRM_one_msg ds0 mc _ hst hlin CMSG_WANT_FRAME rA _ _ rA _ hrdA hsm
        hlA.wf hdr]
      rfl
    exact ⟨_, rA, hmain, rfl, hdr, heA, hlA⟩
  | pressKey k p =>
    obtain ⟨rA, hrdA, hlA, heA, hqA⟩ :=
      read8_lin _ hlin CMSG_PRESS_KEY [k, p] hq
    obtain ⟨rB, hrdB, hlB, heB, hqB⟩ := read8_lin rA hlA k [p] hqA
    obtain ⟨rC, hrdC, hlC, heC, hqC⟩ := read8_lin rB hlB p [] hqB
    have hdisp : stepMsg { ds0 with stage := 1, msg_type := CMSG_PRESS_KEY }
        mc rA = pkStep { ds0 with stage := 1, msg_type := CMSG_PRESS_KEY }
        mc rA := rfl
    have hstep := pkStep_stage1 { ds0 with stage := 1, msg_type := CMSG_PRESS_KEY } mc rA k rB rfl hrdB
    have heval := pkStage2_eval { { ds0 with stage := 1, msg_type := CMSG_PRESS_KEY } with stage := 2, pk_key := k } mc rB p rC hrdC
    have hdr : Ring_GetLen rC = 0 := by
      rw [← ringToList_length, hqC]
      rfl
    by_cases hkb : Ring_GetLen mc.key_buf + 2 ≤ RINGBUF_CAP
    · rw [if_pos hkb] at heval
      have hmain : Comm_HandleReceivedMsgs ds0 mc r =
          .ok ({ ds0 with stage := 0, msg_type := CMSG_PRESS_KEY, pk_key := k, pk_pressed := p },
            msgMach (CMsg.pressKey k p) mc, rC,
            [msgEffect (CMsg.pressKey k p) mc]) := by
        rw [CHRM_one_msg ds0 mc _ hst hlin CMSG_PRESS_KEY rA _ _ rC _ hrdA
          (hdisp.trans (hstep.trans heval)) hlC.wf hdr]
        simp only [msgMach, msgEffect, if_pos hkb, decide_eq_true hkb]
      exact ⟨_, rC, hmain, rfl, hdr, heC.trans (heB.trans heA), hlC⟩
    · rw [if_neg hkb] at heval
      have hmain : Comm_HandleReceivedMsgs ds0 mc r =
          .ok ({ ds0 with stage := 0, msg_type := CMSG_PRESS_KEY, pk_key := k, pk_pressed := p },
            msgMach (CMsg.pressKey k p) mc, rC,
            [msgEffect (CMsg.pressKey k p) mc]) := by
        rw [CHRM_one_msg ds0 mc _ hst hlin CMSG_PRESS_KEY rA _ _ rC _ hrdA
          (hdisp.trans (hstep.trans heval)) hlC.wf hdr]
        simp only [msgMach, msgEffect, if_neg hkb, decide_eq_false hkb]
      exact ⟨_, rC, hmain, rfl, hdr, heC.trans (heB.trans heA), hlC⟩
  | setFrameShmName name =>
    obtain ⟨hnl, hnb⟩ := hv
    obtain ⟨rA, hrdA, hlA, heA, hqA⟩ :=
      read8_lin _ hlin CMSG_SET_FRAME_SHM_NAME (enc16 name.length ++ name) hq
    obtain ⟨rB, hrdB, hlB, heB, hqB⟩ := read16_lin rA hlA (name.length % 256)
      (name.length / 256 % 256) name hqA
    rw [read16val_enc16 name.length hnl] at hrdB
    obtain ⟨rC, hrdC, hlC, heC, hqC⟩ := readBytes_lin rB hlB name []
      (hqB.trans (List.append_nil name).symm)
    have hdisp : stepMsg { ds0 with stage := 1, msg_type := CMSG_SET_FRAME_SHM_NAME } mc rA =
        shmStep { ds0 with stage := 1, msg_type := CMSG_SET_FRAME_SHM_NAME } mc rA := rfl
    have hstep := shmStep_stage1 { ds0 with stage := 1, msg_type := CMSG_SET_FRAME_SHM_NAME } mc rA name.length rB rfl hrdB (by simp only [NAME_MAX]; omega)
    have heval := shmStage2_eval { { ds0 with stage := 1, msg_type := CMSG_SET_FRAME_SHM_NAME } with stage := 2, shm_len := name.length } mc rB name rC hrdC
    have hdr : Ring_GetLen rC = 0 := by
      rw [← ringToList_length, hqC]
      rfl
    have hmain : Comm_HandleReceivedMsgs ds0 mc r =
        .ok ({ ds0 with stage := 0, msg_type := CMSG_SET_FRAME_SHM_NAME, shm_len := name.length, shm_name := name },
          msgMach (CMsg.setFrameShmName name) mc, rC,
          [msgEffect (CMsg.setFrameShmName name) mc]) := by
      rw [CHRM_one_msg ds0 mc _ hst hlin CMSG_SET_FRAME_SHM_NAME rA _ _ rC _
        hrdA (hdisp.trans (hstep.trans heval)) hlC.wf hdr]
      rfl
    exact ⟨_, rC, hmain, rfl, hdr, heC.trans (heB.trans heA), hlC⟩
  | setConfigVar name value =>
    obtain ⟨hnl, hvl, hnb, hvb⟩ := hv
    obtain ⟨rA, hrdA, hlA, heA, hqA⟩ :=
      read8_lin _ hlin CMSG_SET_CONFIG_VAR
        (((enc16 name.length ++ name) ++ enc16 value.length) ++ value) hq
    obtain ⟨rB, hrdB, hlB, heB, hqB⟩ := read16_lin rA hlA (name.length % 256)
      (name.length / 256 % 256) ((name ++ enc16 value.length) ++ value) hqA
    rw [read16val_enc16 name.length
      (by simp only [CFG_NAME_MAX] at hnl; omega)] at hrdB
    obtain ⟨rC, hrdC, hlC, heC, hqC⟩ := readBytes_lin rB hlB name
      (enc16 value.length ++ value)
      (hqB.trans (by rw [List.append_assoc]))
    obtain ⟨rD, hrdD, hlD, heD, hqD⟩ := read16_lin rC hlC (value.length % 256)
      (value.length / 256 % 256) value hqC
    rw [read16val_enc16 value.length (by simp only [CFG_VALUE_MAX] at hvl; omega)]
      at hrdD
    obtain ⟨rE, hrdE, hlE, heE, hqE⟩ := readBytes_lin rD hlD value []
      (hqD.trans (List.append_nil value).symm)
    have hdisp : stepMsg { ds0 with stage := 1, msg_type := CMSG_SET_CONFIG_VAR } mc rA =
        cvStep { ds0 with stage := 1, msg_type := CMSG_SET_CONFIG_VAR } mc rA := rfl
    have hstep := cvStep_stage1 { ds0 with stage := 1, msg_type := CMSG_SET_CONFIG_VAR } mc rA name.length rB rfl hrdB hnl
    have hev2 := cvStage2_eval { { ds0 with stage := 1, msg_type := CMSG_SET_CONFIG_VAR } with stage := 2, cv_len := name.length } mc rB name rC hrdC
    have hev3 := cvStage3_eval { { { ds0 with stage := 1, msg_type := CMSG_SET_CONFIG_VAR } with stage := 2, cv_len := name.length } with stage := 3, cv_name := name } mc rC value.length rD hrdD hvl
    have hev4 := cvStage4_eval { { { { ds0 with stage := 1, msg_type := CMSG_SET_CONFIG_VAR } with stage := 2, cv_len := name.length } with stage := 3, cv_name := name } with stage := 4, cv_len := value.length } mc rD value rE hrdE
    have hdr : Ring_GetLen rE = 0 := by
      rw [← ringToList_length, hqE]
      rfl
    have hmain : Comm_HandleReceivedMsgs ds0 mc r =
        .ok ({ ds0 with stage := 0, msg_type := CMSG_SET_CONFIG_VAR, cv_len := value.length, cv_name := name, cv_value := value },
          msgMach (CMsg.setConfigVar name value) mc, rE,
          [msgEffect (CMsg.setConfigVar name value) mc]) := by
      rw [CHRM_one_msg ds0 mc _ hst hlin CMSG_SET_CONFIG_VAR rA _ _ rE _ hrdA
        (hdisp.trans (hstep.trans (hev2.trans (hev3.trans hev4)))) hlE.wf hdr]
      rfl
    exact ⟨_, rE, hmain, rfl, hdr, heE.trans (heD.trans (heC.trans (heB.trans heA))), hlE⟩

/-- C1: decoder resumability — for every complete valid inbound message,
feeding its bytes in one call produces the same outcome as feeding them
split into arbitrarily many chunks across separate calls; either way the
message's side effect is applied exactly once and the decoder stage is
reset to 0 afterwards. -/
theorem C1_decoder_resumability (m : CMsg) (mc : Mach) (cs : List (List Nat))
    (hv : ValidCMsg m) (hchunks : cs.flatten = encodeCMsg m) :
    feedChunks mc cs = feedChunks mc [encodeCMsg m] ∧
    ∃ ds2 r2, feedChunks mc cs =
      .ok (ds2, msgMach m mc, r2, [msgEffect m mc]) ∧ ds2.stage = 0 := by
  have hlen : cs.flatten.length ≤ RINGBUF_CAP := by
    rw [hchunks]
    exact encodeCMsg_len_le m hv
  have hfl : ([encodeCMsg m] : List (List Nat)).flatten = encodeCMsg m := by
    simp
  have h1 := feedChunks_eq_oneshot mc cs hlen
  have h2 := feedChunks_eq_oneshot mc [encodeCMsg m]
    (by rw [hfl]; exact encodeCMsg_len_le m hv)
  obtain ⟨ds2, r2, hmain, hstage, -, -, -⟩ := decode_one_gen m dsInit mc
    (ringOf (encodeCMsg m)) hv rfl (ringOf_lin _ (encodeCMsg_len_le m hv))
    (ringOf_toList_of_lt _ (encodeCMsg_len_le m hv) (encodeCMsg_bytes_lt m hv))
  refine ⟨by rw [h1, h2, hchunks, hfl], ds2, r2, ?_, hstage⟩
  rw [h1, hchunks, hmain]

/-- C1 witness: a press-key message delivered one byte at a time decodes
exactly as when delivered whole. -/
theorem C1_decoder_resumability_witness :
    ValidCMsg (CMsg.pressKey 65 1) ∧
    ([[1], [65], [1]] : List (List Nat)).flatten =
      encodeCMsg (CMsg.pressKey 65 1) ∧
    (feedChunks { key_buf := emptyRecvRing, screenvisible := false, frame_shm_name := [] } [[1], [65], [1]] =
      feedChunks { key_buf := emptyRecvRing, screenvisible := false, frame_shm_name := [] } [encodeCMsg (CMsg.pressKey 65 1)] ∧
    ∃ ds2 r2, feedChunks { key_buf := emptyRecvRing, screenvisible := false, frame_shm_name := [] } [[1], [65], [1]] =
      .ok (ds2, msgMach (CMsg.pressKey 65 1) { key_buf := emptyRecvRing, screenvisible := false, frame_shm_name := [] }, r2,
        [msgEffect (CMsg.pressKey 65 1) { key_buf := emptyRecvRing, screenvisible := false, frame_shm_name := [] }]) ∧ ds2.stage = 0) :=
  ⟨by decide, by decide,
    C1_decoder_resumability (CMsg.pressKey 65 1) _ _ (by decide) (by decide)⟩

/-! ### Two-message runs and key-event backpressure -/

theorem keyPush_spec (kb : ringbuf_t) (v : Nat) (h : RingWF kb)
    (hlen : Ring_GetLen kb < RINGBUF_CAP) :
    keyPush kb v = ringWrite8 kb v := by
  rw [keyPush, Ring_Write8_spec kb v h hlen]
  rfl

/-- The accepted branch of a press-key message appends exactly the two event
bytes to the key buffer. -/
theorem msgMach_pk_accepted (mc : Mach) (k p : Nat) (hwf : RingWF mc.key_buf)
    (hroom : Ring_GetLen mc.key_buf + 2 ≤ RINGBUF_CAP) :
    ringToList (msgMach (CMsg.pressKey k p) mc).key_buf =
      ringToList mc.key_buf ++ [k % 256, p % 256] ∧
    Ring_GetLen (msgMach (CMsg.pressKey k p) mc).key_buf =
      Ring_GetLen mc.key_buf + 2 ∧
    RingWF (msgMach (CMsg.pressKey k p) mc).key_buf ∧
    msgEffect (CMsg.pressKey k p) mc = .pressKey k p true := by
  have h1 : Ring_GetLen mc.key_buf < RINGBUF_CAP := by omega
  have hw1 : keyPush mc.key_buf k = ringWrite8 mc.key_buf k :=
    keyPush_spec mc.key_buf k hwf h1
  have hwf1 : RingWF (ringWrite8 mc.key_buf k) := ringWrite8_WF _ k hwf
  have hg1 : Ring_GetLen (ringWrite8 mc.key_buf k) =
      Ring_GetLen mc.key_buf + 1 := ringWrite8_getLen _ k hwf h1
  have h2 : Ring_GetLen (ringWrite8 mc.key_buf k) < RINGBUF_CAP := by omega
  have hw2 : keyPush (ringWrite8 mc.key_buf k) p =
      ringWrite8 (ringWrite8 mc.key_buf k) p := keyPush_spec _ p hwf1 h2
  refine ⟨?_, ?_, ?_, ?_⟩
  · simp only [msgMach, if_pos hroom, hw1, hw2]
    rw [ringWrite8_toList _ p hwf1 h2, ringWrite8_toList _ k hwf h1,
      List.append_assoc]
    rfl
  · simp only [msgMach, if_pos hroom, hw1, hw2]
    rw [ringWrite8_getLen _ p hwf1 h2, hg1]
  · simp only [msgMach, if_pos hroom, hw1, hw2]
    exact ringWrite8_WF _ p hwf1
  · simp only [msgEffect, decide_eq_true hroom]

/-- The dropped branch of a press-key message leaves the machine unchanged. -/
theorem msgMach_pk_dropped (mc : Mach) (k p : Nat)
    (hfull : ¬ Ring_GetLen mc.key_buf + 2 ≤ RINGBUF_CAP) :
    msgMach (CMsg.pressKey k p) mc = mc ∧
    msgEffect (CMsg.pressKey k p) mc = .pressKey k p false := by
  constructor
  · simp only [msgMach, if_neg hfull]
  · simp only [msgEffect, decide_eq_false hfull]

theorem encodeCMsg_len_small (m : CMsg) (hv : ValidCMsg m) :
    (encodeCMsg m).length ≤ 195 := by
  cases m with
  | wantFrame => decide
  | setFrameShmName name =>
    obtain ⟨hl, -⟩ := hv
    simp only [encodeCMsg, enc16, List.length_cons, List.length_append]
    simp only [List.length_cons, List.length_nil]
    omega
  | pressKey k p => simp [encodeCMsg]
  | setConfigVar name value =>
    obtain ⟨hn, hval, -, -⟩ := hv
    simp only [CFG_NAME_MAX, CFG_VALUE_MAX] at hn hval
    simp only [encodeCMsg, enc16, List.length_cons, List.length_append]
    simp only [List.length_cons, List.length_nil]
    omega

/-- Decoding the concatenation of two complete valid messages applies both
side effects in order, threading the machine state. -/
theorem decode_two (m1 m2 : CMsg) (mc : Mach) (hv1 : ValidCMsg m1)
    (hv2 : ValidCMsg m2) :
    ∃ ds3 r3, Comm_HandleReceivedMsgs dsInit mc
        (ringOf (encodeCMsg m1 ++ encodeCMsg m2)) =
      .ok (ds3, msgMach m2 (msgMach m1 mc), r3,
        [msgEffect m1 mc, msgEffect m2 (msgMach m1 mc)]) ∧
      ds3.stage = 0 := by
  have hb1 := encodeCMsg_len_small m1 hv1
  have hb2 := encodeCMsg_len_small m2 hv2
  have hcap1 : (encodeCMsg m1).length ≤ RINGBUF_CAP := by
    simp only [RINGBUF_CAP, RINGBUF_SIZE]
    omega
  have hlin1 : RingLin (ringOf (encodeCMsg m1)) := ringOf_lin _ hcap1
  obtain ⟨ds2, r2, hm1, hs2, hg2, he2, hl2⟩ := decode_one_gen m1 dsInit mc
    (ringOf (encodeCMsg m1)) hv1 rfl hlin1
    (ringOf_toList_of_lt _ hcap1 (encodeCMsg_bytes_lt m1 hv1))
  have hend1 : (ringOf (encodeCMsg m1)).end_i = (encodeCMsg m1).length :=
    ringOf_end _
  have hroom : (ringOf (encodeCMsg m1)).end_i + (encodeCMsg m2).length ≤
      RINGBUF_CAP := by
    rw [hend1]
    simp only [RINGBUF_CAP, RINGBUF_SIZE]
    omega
  have hroom2 : r2.end_i + (encodeCMsg m2).length ≤ RINGBUF_CAP := by
    rw [he2]
    exact hroom
  have hnil2 : ringToList r2 = [] := List.eq_nil_of_length_eq_zero
    (by rw [ringToList_length]; exact hg2)
  have hq2 : ringToList (ringPush r2 (encodeCMsg m2)) = encodeCMsg m2 := by
    rw [ringPush_toList r2 _ hl2 hroom2, hnil2, List.nil_append,
      map_mod_self _ (encodeCMsg_bytes_lt m2 hv2)]
  obtain ⟨ds3, r3, hm2, hs3, hg3, he3, hl3⟩ := decode_one_gen m2 ds2
    (msgMach m1 mc) (ringPush r2 (encodeCMsg m2)) hv2 hs2
    (ringPush_lin r2 _ hl2 hroom2) hq2
  have hsplit : ringOf (encodeCMsg m1 ++ encodeCMsg m2) =
      ringPush (ringOf (encodeCMsg m1)) (encodeCMsg m2) := by
    rw [ringOf, ringOf, ringPush_push emptyRecvRing _ _
      (by simp [emptyRecvRing])
      (by simp only [emptyRecvRing]; simp only [RINGBUF_SIZE]; omega)]
  have hcomp := commLoop_push (2 * Ring_GetLen (ringOf (encodeCMsg m1)) + 2)
    dsInit mc (ringOf (encodeCMsg m1)) ds2 (msgMach m1 mc) r2
    [msgEffect m1 mc] (encodeCMsg m2) _ hlin1 hroom hm1
    (enoughFuel_handle dsInit (ringPush (ringOf (encodeCMsg m1)) (encodeCMsg m2)))
  refine ⟨ds3, r3, ?_, hs3⟩
  rw [hsplit]
  rw [show Comm_HandleReceivedMsgs dsInit mc
      (ringPush (ringOf (encodeCMsg m1)) (encodeCMsg m2)) =
    (Comm_HandleReceivedMsgs ds2 (msgMach m1 mc)
      (ringPush r2 (encodeCMsg m2))).map (prependEffs [msgEffect m1 mc])
    from hcomp]
  rw [hm2, except_map_ok]
  rfl

/-- C6 (amended): key-event backpressure by drop — a completed press-key
message pushes its (key, pressed) pair, both bytes or neither, into the
key-event ring buffer exactly when that buffer has room for 2 more bytes
(`Ring_GetLen + 2 ≤ RINGBUF_CAP`), otherwise the event is dropped and the
buffer is unchanged; with the buffer pre-filled to `RINGBUF_CAP - 3` = 508
bytes — one 2-byte event slot below the even 510-byte usable event
capacity — of two arriving press-key events exactly the first is accepted
and the second is dropped, with no corruption of buffer state. -/
theorem C6_key_backpressure_amended (mc : Mach) (k1 p1 k2 p2 : Nat)
    (hk1 : k1 < 256) (hp1 : p1 < 256) (hwf : RingWF mc.key_buf) :
    (∃ ds2 r2, Comm_HandleReceivedMsgs dsInit mc
        (ringOf (encodeCMsg (CMsg.pressKey k1 p1))) =
      .ok (ds2, msgMach (CMsg.pressKey k1 p1) mc, r2,
        [msgEffect (CMsg.pressKey k1 p1) mc]) ∧ ds2.stage = 0) ∧
    (Ring_GetLen mc.key_buf + 2 ≤ RINGBUF_CAP →
      ringToList (msgMach (CMsg.pressKey k1 p1) mc).key_buf =
        ringToList mc.key_buf ++ [k1, p1] ∧
      msgEffect (CMsg.pressKey k1 p1) mc = .pressKey k1 p1 true) ∧
    (¬ Ring_GetLen mc.key_buf + 2 ≤ RINGBUF_CAP →
      msgMach (CMsg.pressKey k1 p1) mc = mc ∧
      msgEffect (CMsg.pressKey k1 p1) mc = .pressKey k1 p1 false) ∧
    (Ring_GetLen mc.key_buf = RINGBUF_CAP - 3 → k2 < 256 → p2 < 256 →
      ∃ ds3 r3, Comm_HandleReceivedMsgs dsInit mc
          (ringOf (encodeCMsg (CMsg.pressKey k1 p1) ++
            encodeCMsg (CMsg.pressKey k2 p2))) =
        .ok (ds3,
          msgMach (CMsg.pressKey k2 p2) (msgMach (CMsg.pressKey k1 p1) mc),
          r3, [.pressKey k1 p1 true, .pressKey k2 p2 false]) ∧
        ringToList (msgMach (CMsg.pressKey k2 p2)
            (msgMach (CMsg.pressKey k1 p1) mc)).key_buf =
          ringToList mc.key_buf ++ [k1, p1]) := by
  have hcap : (encodeCMsg (CMsg.pressKey k1 p1)).length ≤ RINGBUF_CAP := by
    simp [encodeCMsg, RINGBUF_CAP, RINGBUF_SIZE]
  refine ⟨?_, ?_, ?_, ?_⟩
  · obtain ⟨ds2, r2, hm, hs2, -, -, -⟩ := decode_one_gen (CMsg.pressKey k1 p1)
      dsInit mc (ringOf (encodeCMsg (CMsg.pressKey k1 p1))) ⟨hk1, hp1⟩ rfl
      (ringOf_lin _ hcap)
      (ringOf_toList_of_lt _ hcap (encodeCMsg_bytes_lt _ ⟨hk1, hp1⟩))
    exact ⟨ds2, r2, hm, hs2⟩
  · intro hroom
    obtain ⟨ht, -, -, heff⟩ := msgMach_pk_accepted mc k1 p1 hwf hroom
    rw [Nat.mod_eq_of_lt hk1, Nat.mod_eq_of_lt hp1] at ht
    exact ⟨ht, heff⟩
  · intro hfull
    exact msgMach_pk_dropped mc k1 p1 hfull
  · intro h508 hk2 hp2
    have hroom1 : Ring_GetLen mc.key_buf + 2 ≤ RINGBUF_CAP := by
      simp only [RINGBUF_CAP, RINGBUF_SIZE] at h508 ⊢
      omega
    obtain ⟨ht1, hg1, hwf1, heff1⟩ := msgMach_pk_accepted mc k1 p1 hwf hroom1
    have hfull2 : ¬ Ring_GetLen
        (msgMach (CMsg.pressKey k1 p1) mc).key_buf + 2 ≤ RINGBUF_CAP := by
      rw [hg1]
      simp only [RINGBUF_CAP, RINGBUF_SIZE] at h508 ⊢
      omega
    obtain ⟨hmach2, heff2⟩ :=
      msgMach_pk_dropped (msgMach (CMsg.pressKey k1 p1) mc) k2 p2 hfull2
    obtain ⟨ds3, r3, hm, -⟩ := decode_two (CMsg.pressKey k1 p1)
      (CMsg.pressKey k2 p2) mc ⟨hk1, hp1⟩ ⟨hk2, hp2⟩
    rw [heff1, heff2] at hm
    refine ⟨ds3, r3, hm, ?_⟩
    rw [hmach2, ht1, Nat.mod_eq_of_lt hk1, Nat.mod_eq_of_lt hp1]

set_option maxRecDepth 8192 in
/-- C6 witness: concrete key buffer pre-filled to 508 of 511 bytes. -/
theorem C6_key_backpressure_amended_witness :
    (65 < 256 ∧ 1 < 256 ∧
      RingWF { data := List.replicate RINGBUF_SIZE 0, start_i := 0, end_i := 508 }) ∧
    ((∃ ds2 r2, Comm_HandleReceivedMsgs dsInit { key_buf := { data := List.replicate RINGBUF_SIZE 0, start_i := 0, end_i := 508 }, screenvisible := false, frame_shm_name := [] }
        (ringOf (encodeCMsg (CMsg.pressKey 65 1))) =
      .ok (ds2, msgMach (CMsg.pressKey 65 1) { key_buf := { data := List.replicate RINGBUF_SIZE 0, start_i := 0, end_i := 508 }, screenvisible := false, frame_shm_name := [] }, r2,
        [msgEffect (CMsg.pressKey 65 1) { key_buf := { data := List.replicate RINGBUF_SIZE 0, start_i := 0, end_i := 508 }, screenvisible := false, frame_shm_name := [] }]) ∧ ds2.stage = 0) ∧
    (Ring_GetLen ({ key_buf := { data := List.replicate RINGBUF_SIZE 0, start_i := 0, end_i := 508 }, screenvisible := false, frame_shm_name := [] } : Mach).key_buf + 2 ≤ RINGBUF_CAP →
      ringToList (msgMach (CMsg.pressKey 65 1) { key_buf := { data := List.replicate RINGBUF_SIZE 0, start_i := 0, end_i := 508 }, screenvisible := false, frame_shm_name := [] }).key_buf =
        ringToList ({ key_buf := { data := List.replicate RINGBUF_SIZE 0, start_i := 0, end_i := 508 }, screenvisible := false, frame_shm_name := [] } : Mach).key_buf ++ [65, 1] ∧
      msgEffect (CMsg.pressKey 65 1) { key_buf := { data := List.replicate RINGBUF_SIZE 0, start_i := 0, end_i := 508 }, screenvisible := false, frame_shm_name := [] } = .pressKey 65 1 true) ∧
    (¬ Ring_GetLen ({ key_buf := { data := List.replicate RINGBUF_SIZE 0, start_i := 0, end_i := 508 }, screenvisible := false, frame_shm_name := [] } : Mach).key_buf + 2 ≤ RINGBUF_CAP →
      msgMach (CMsg.pressKey 65 1) { key_buf := { data := List.replicate RINGBUF_SIZE 0, start_i := 0, end_i := 508 }, screenvisible := false, frame_shm_name := [] } = { key_buf := { data := List.replicate RINGBUF_SIZE 0, start_i := 0, end_i := 508 }, screenvisible := false, frame_shm_name := [] } ∧
      msgEffect (CMsg.pressKey 65 1) { key_buf := { data := List.replicate RINGBUF_SIZE 0, start_i := 0, end_i := 508 }, screenvisible := false, frame_shm_name := [] } = .pressKey 65 1 false) ∧
    (Ring_GetLen ({ key_buf := { data := List.replicate RINGBUF_SIZE 0, start_i := 0, end_i := 508 }, screenvisible := false, frame_shm_name := [] } : Mach).key_buf = RINGBUF_CAP - 3 → 66 < 256 → 1 < 256 →
      ∃ ds3 r3, Comm_HandleReceivedMsgs dsInit { key_buf := { data := List.replicate RINGBUF_SIZE 0, start_i := 0, end_i := 508 }, screenvisible := false, frame_shm_name := [] }
          (ringOf (encodeCMsg (CMsg.pressKey 65 1) ++
            encodeCMsg (CMsg.pressKey 66 1))) =
        .ok (ds3,
          msgMach (CMsg.pressKey 66 1) (msgMach (CMsg.pressKey 65 1) { key_buf := { data := List.replicate RINGBUF_SIZE 0, start_i := 0, end_i := 508 }, screenvisible := false, frame_shm_name := [] }),
          r3, [.pressKey 65 1 true, .pressKey 66 1 false]) ∧
        ringToList (msgMach (CMsg.pressKey 66 1)
            (msgMach (CMsg.pressKey 65 1) { key_buf := { data := List.replicate RINGBUF_SIZE 0, start_i := 0, end_i := 508 }, screenvisible := false, frame_shm_name := [] })).key_buf =
          ringToList ({ key_buf := { data := List.replicate RINGBUF_SIZE 0, start_i := 0, end_i := 508 }, screenvisible := false, frame_shm_name := [] } : Mach).key_buf ++ [65, 1])) :=
  ⟨⟨by decide, by decide, by decide⟩,
    C6_key_backpressure_amended { key_buf := { data := List.replicate RINGBUF_SIZE 0, start_i := 0, end_i := 508 }, screenvisible := false, frame_shm_name := [] } 65 1 66 1
      (by decide) (by decide) (by decide)⟩

set_option maxRecDepth 8192 in
/-- C6 counterexample: with the key buffer pre-filled to one byte below its
511-byte capacity — the literal reading of "one slot below capacity" — BOTH
of two arriving press-key events are dropped, not exactly one. -/
theorem C6_key_backpressure_counterexample :
    Ring_GetLen { data := List.replicate RINGBUF_SIZE 0, start_i := 0, end_i := 510 } = RINGBUF_CAP - 1 ∧
    ∃ ds3 r3, Comm_HandleReceivedMsgs dsInit { key_buf := { data := List.replicate RINGBUF_SIZE 0, start_i := 0, end_i := 510 }, screenvisible := false, frame_shm_name := [] }
        (ringOf (encodeCMsg (CMsg.pressKey 65 1) ++ encodeCMsg (CMsg.pressKey 66 1))) =
      .ok (ds3, { key_buf := { data := List.replicate RINGBUF_SIZE 0, start_i := 0, end_i := 510 }, screenvisible := false, frame_shm_name := [] }, r3,
        [.pressKey 65 1 false, .pressKey 66 1 false]) := by
  refine ⟨by decide, ?_⟩
  obtain ⟨ds3, r3, hm, -⟩ := decode_two (CMsg.pressKey 65 1)
    (CMsg.pressKey 66 1)
    { key_buf := { data := List.replicate RINGBUF_SIZE 0, start_i := 0, end_i := 510 }, screenvisible := false, frame_shm_name := [] }
    (by decide) (by decide)
  have hfull : ¬ Ring_GetLen ({ key_buf := { data := List.replicate RINGBUF_SIZE 0, start_i := 0, end_i := 510 }, screenvisible := false, frame_shm_name := [] } : Mach).key_buf + 2 ≤ RINGBUF_CAP := by
    decide
  obtain ⟨hmach1, heff1⟩ := msgMach_pk_dropped _ 65 1 hfull
  rw [hmach1, heff1] at hm
  obtain ⟨hmach2, heff2⟩ := msgMach_pk_dropped _ 66 1 hfull
  rw [hmach2, heff2] at hm
  exact ⟨ds3, r3, hm⟩

/-! ### DG_GetInput: input polling from the key-event buffer -/

/-- Input event type (`IN_KEYDOWN`/`IN_KEYUP`/`IN_MOUSEBUTTONS` of
doomgeneric.h). -/
inductive InType where
  | IN_KEYDOWN : InType
  | IN_KEYUP : InType
  | IN_MOUSEBUTTONS : InType
deriving DecidableEq, Repr

/-- input_t: the event `DG_GetInput` hands to the game. -/
structure input_t where
  type : InType
  value : Nat
deriving DecidableEq, Repr

/-- DG_GetInput: pop one (key, pressed) pair from the key-event buffer.
The second `Ring_Read8` is asserted to succeed in the C (pairs are pushed
atomically); `pressed = 0` is kept as the C's initialisation for the
asserted-unreachable failure.  `pressed == PK_MOUSEBUTTONS` marks a
mouse-button bitmask event; otherwise an A–Z key byte is lowercased and a
key-down (`pressed` nonzero) or key-up event is produced. -/
def DG_GetInput (kb : ringbuf_t) : Option (input_t × ringbuf_t) :=
  match Ring_Read8 kb with
  | none => none
  | some (key, kb1) =>
    let pr := (Ring_Read8 kb1).getD (0, kb1)
    if pr.1 = PK_MOUSEBUTTONS then
      some ({ type := .IN_MOUSEBUTTONS, value := key }, pr.2)
    else
      some ({ type := if pr.1 = 0 then .IN_KEYUP else .IN_KEYDOWN,
              value := if 65 ≤ key ∧ key ≤ 90 then key - 65 + 97 else key },
        pr.2)

theorem read8_wf (r : ringbuf_t) (h : RingWF r) (b : Nat) (bs : List Nat)
    (hq : ringToList r = b :: bs) :
    ∃ r2, Ring_Read8 r = some (b, r2) ∧ RingWF r2 ∧ ringToList r2 = bs := by
  have hlen : Ring_GetLen r = bs.length + 1 := by
    rw [← ringToList_length, hq]
    simp
  refine ⟨_, ?_, RingWF_set_start r h 1, ?_⟩
  · rw [Ring_Read8_spec r h (by omega), hq]
    rfl
  · rw [ringToList_advance r h 1 (by omega), hq, List.drop_one, List.tail_cons]

/-- Symbolic evaluation of DG_GetInput on a buffer holding at least one
event pair. -/
theorem DG_GetInput_spec (kb : ringbuf_t) (key pressed : Nat)
    (rest : List Nat) (h : RingWF kb)
    (hq : ringToList kb = key :: pressed :: rest) :
    ∃ kb2, RingWF kb2 ∧ ringToList kb2 = rest ∧
      DG_GetInput kb = some
        (if pressed = PK_MOUSEBUTTONS then
          { type := InType.IN_MOUSEBUTTONS, value := key }
        else
          { type := if pressed = 0 then InType.IN_KEYUP else InType.IN_KEYDOWN,
            value := if 65 ≤ key ∧ key ≤ 90 then key - 65 + 97 else key },
        kb2) := by
  obtain ⟨kb1, hrd1, hwf1, hq1⟩ := read8_wf kb h key (pressed :: rest) hq
  obtain ⟨kb2, hrd2, hwf2, hq2⟩ := read8_wf kb1 hwf1 pressed rest hq1
  refine ⟨kb2, hwf2, hq2, ?_⟩
  rw [DG_GetInput, hrd1]
  simp only [hrd2, Option.getD_some]
  by_cases hm : pressed = PK_MOUSEBUTTONS
  · rw [if_pos hm, if_pos hm]
  · rw [if_neg hm, if_neg hm]

/-- C7 (amended): the reserved sentinel is tested against the PRESSED byte,
not the key byte — a press-key message delivered through the decoder into
the key-event buffer is handed to the game as a mouse-button bitmask event
(with the key byte as the bitmask) exactly when its pressed byte equals
PK_MOUSEBUTTONS = 255; any other pressed byte yields an ordinary key event,
key-down when nonzero, key-up when zero, with A–Z lowercased. -/
theorem C7_mousebuttons_amended (mc : Mach) (key pressed : Nat)
    (hk : key < 256) (hp : pressed < 256) (hwf : RingWF mc.key_buf)
    (hempty : ringToList mc.key_buf = []) :
    ∃ out kb2, DG_GetInput (msgMach (CMsg.pressKey key pressed) mc).key_buf =
      some (out, kb2) ∧
      (pressed = PK_MOUSEBUTTONS →
        out = { type := InType.IN_MOUSEBUTTONS, value := key }) ∧
      (pressed ≠ PK_MOUSEBUTTONS →
        out.type = (if pressed = 0 then InType.IN_KEYUP else InType.IN_KEYDOWN) ∧
        out.value = (if 65 ≤ key ∧ key ≤ 90 then key - 65 + 97 else key)) := by
  have hroom : Ring_GetLen mc.key_buf + 2 ≤ RINGBUF_CAP := by
    rw [← ringToList_length, hempty]
    simp [RINGBUF_CAP, RINGBUF_SIZE]
  obtain ⟨ht, hg, hwf2, -⟩ := msgMach_pk_accepted mc key pressed hwf hroom
  rw [hempty, List.nil_append, Nat.mod_eq_of_lt hk, Nat.mod_eq_of_lt hp] at ht
  obtain ⟨kb2, hwfk, hqk, hdg⟩ := DG_GetInput_spec _ key pressed [] hwf2 ht
  refine ⟨_, kb2, hdg, ?_, ?_⟩
  · intro hm
    rw [if_pos hm]
  · intro hm
    rw [if_neg hm]
    exact ⟨rfl, rfl⟩

set_option maxRecDepth 8192 in
/-- C7 witness: pressed byte 255 with key byte 7 is delivered as the
mouse-button bitmask 7. -/
theorem C7_mousebuttons_amended_witness :
    (7 < 256 ∧ 255 < 256 ∧ RingWF emptyRecvRing ∧
      ringToList emptyRecvRing = []) ∧
    ∃ out kb2, DG_GetInput (msgMach (CMsg.pressKey 7 255)
        { key_buf := emptyRecvRing, screenvisible := false, frame_shm_name := [] }).key_buf =
      some (out, kb2) ∧
      ((255 : Nat) = PK_MOUSEBUTTONS →
        out = { type := InType.IN_MOUSEBUTTONS, value := 7 }) ∧
      ((255 : Nat) ≠ PK_MOUSEBUTTONS →
        out.type = (if (255 : Nat) = 0 then InType.IN_KEYUP else InType.IN_KEYDOWN) ∧
        out.value = (if 65 ≤ (7 : Nat) ∧ (7 : Nat) ≤ 90 then 7 - 65 + 97 else 7)) :=
  ⟨⟨by decide, by decide, by decide, rfl⟩,
    C7_mousebuttons_amended
      { key_buf := emptyRecvRing, screenvisible := false, frame_shm_name := [] }
      7 255 (by decide) (by decide) (by decide) rfl⟩

/-- C7 counterexample: no reserved KEY value selects mouse-button delivery —
whatever reserved value is proposed, some press-key pair violates the
claimed correspondence (key byte 255 with pressed byte 0 is delivered as a
key event; key byte 7 with pressed byte 255 as a mouse event). -/
theorem C7_reserved_key_counterexample :
    ¬ ∃ res : Nat,
      (∀ key pressed out kb2, key < 256 → pressed < 256 → key = res →
        DG_GetInput (ringOf [key, pressed]) = some (out, kb2) →
        out.type = InType.IN_MOUSEBUTTONS) ∧
      (∀ key pressed out kb2, key < 256 → pressed < 256 → key ≠ res →
        DG_GetInput (ringOf [key, pressed]) = some (out, kb2) →
        out.type ≠ InType.IN_MOUSEBUTTONS) := by
  rintro ⟨res, hmouse, hkey⟩
  by_cases hres : res < 256
  · have hcap : ([res, 0] : List Nat).length ≤ RINGBUF_CAP := by
      simp [RINGBUF_CAP, RINGBUF_SIZE]
    have hq : ringToList (ringOf [res, 0]) = [res, 0] :=
      ringOf_toList_of_lt [res, 0] hcap (by
        intro b hb
        simp only [List.mem_cons, List.not_mem_nil, or_false] at hb
        rcases hb with rfl | rfl <;> omega)
    obtain ⟨kb2, -, -, hdg⟩ :=
      DG_GetInput_spec (ringOf [res, 0]) res 0 [] (ringOf_lin _ hcap).wf hq
    have hcl := hmouse res 0 _ kb2 hres (by omega) rfl hdg
    simp [PK_MOUSEBUTTONS] at hcl
  · have hcap : ([7, 255] : List Nat).length ≤ RINGBUF_CAP := by
      simp [RINGBUF_CAP, RINGBUF_SIZE]
    have hq : ringToList (ringOf [7, 255]) = [7, 255] :=
      ringOf_toList_of_lt [7, 255] hcap (by
        intro b hb
        simp only [List.mem_cons, List.not_mem_nil, or_false] at hb
        rcases hb with rfl | rfl <;> omega)
    obtain ⟨kb2, -, -, hdg⟩ :=
      DG_GetInput_spec (ringOf [7, 255]) 7 255 [] (ringOf_lin _ hcap).wf hq
    have hcl := hkey 7 255 _ kb2 (by omega) (by omega) (by omega) hdg
    simp [PK_MOUSEBUTTONS] at hcl

/-- C10: key-case normalization — every non-mouse-button key event delivered
by DG_GetInput lowercases a key byte in the ASCII range A–Z (adding 32) and
returns every other key byte unchanged. -/
theorem C10_key_case_normalization (kb : ringbuf_t) (key pressed : Nat)
    (rest : List Nat) (h : RingWF kb)
    (hq : ringToList kb = key :: pressed :: rest)
    (hnm : pressed ≠ PK_MOUSEBUTTONS) :
    ∃ out kb2, DG_GetInput kb = some (out, kb2) ∧
      out.type ≠ InType.IN_MOUSEBUTTONS ∧
      (65 ≤ key ∧ key ≤ 90 → out.value = key + 32) ∧
      (¬ (65 ≤ key ∧ key ≤ 90) → out.value = key) := by
  obtain ⟨kb2, -, -, hdg⟩ := DG_GetInput_spec kb key pressed rest h hq
  rw [if_neg hnm] at hdg
  refine ⟨_, kb2, hdg, ?_, ?_, ?_⟩
  · by_cases h0 : pressed = 0 <;> simp [h0]
  · intro hr
    simp only [if_pos hr]
    omega
  · intro hr
    simp only [if_neg hr]

set_option maxRecDepth 8192 in
/-- C10 witness: key byte 66 = 'B' pressed is delivered as 98 = 'b'. -/
theorem C10_key_case_normalization_witness :
    (RingWF (ringOf [66, 1]) ∧ ringToList (ringOf [66, 1]) = [66, 1] ∧
      (1 : Nat) ≠ PK_MOUSEBUTTONS) ∧
    ∃ out kb2, DG_GetInput (ringOf [66, 1]) = some (out, kb2) ∧
      out.type ≠ InType.IN_MOUSEBUTTONS ∧
      (65 ≤ (66 : Nat) ∧ (66 : Nat) ≤ 90 → out.value = 66 + 32) ∧
      (¬ (65 ≤ (66 : Nat) ∧ (66 : Nat) ≤ 90) → out.value = 66) :=
  ⟨⟨by decide, by decide, by decide⟩,
    C10_key_case_normalization (ringOf [66, 1]) 66 1 [] (by decide) (by decide)
      (by decide)⟩

/-! ### The outbound send buffer (comm_send_buf) and its encoders -/

/-- Modelled from the spec: the vendored DOOM headers defining the frame
dimensions are not part of this tree; the spec fixes a 320x200 24-bit RGB
frame, giving `SCREENWIDTH = 320`. -/
def SCREENWIDTH : Nat := 320

/-- Modelled from the spec: `SCREENHEIGHT = 200` (see `SCREENWIDTH`). -/
def SCREENHEIGHT : Nat := 200

/-- DOOMGENERIC_SCREEN_BUF_SIZE (doomgeneric.h): one RGB24 frame. -/
def DOOMGENERIC_SCREEN_BUF_SIZE : Nat := SCREENWIDTH * SCREENHEIGHT * 3

/-- COMM_SEND_BUF_CAP: two frames of send-buffer capacity (= 384000). -/
def COMM_SEND_BUF_CAP : Nat := 2 * DOOMGENERIC_SCREEN_BUF_SIZE

/-- AMSG_GAME_MESSAGE wire tag. -/
def AMSG_GAME_MESSAGE : Nat := 4

/-- AMSG_PLAYER_STATUS wire tag. -/
def AMSG_PLAYER_STATUS : Nat := 5

/-- SendBuf: `comm_send_buf` (`data[COMM_SEND_BUF_CAP]` plus `len`, as the
byte list `buf`) together with the history of flushed batches, so that flush
boundaries inside the byte stream stay observable. -/
structure SendBuf where
  buf : List Nat
  flushed : List (List Nat)
deriving DecidableEq, Repr

/-- Comm_FlushSend on the happy path (open socket, send succeeds): the
buffered bytes go out as one batch and `len` resets to 0; an empty buffer
returns immediately. -/
def Comm_FlushSend_ok (s : SendBuf) : SendBuf :=
  if s.buf = [] then s else { buf := [], flushed := s.flushed ++ [s.buf] }

/-- Comm_Write8: flush first when one more byte would exceed the capacity,
then append. -/
def Comm_Write8 (s : SendBuf) (v : Nat) : SendBuf :=
  let s1 := if COMM_SEND_BUF_CAP < s.buf.length + 1 then Comm_FlushSend_ok s
    else s
  { s1 with buf := s1.buf ++ [v % 256] }

/-- Comm_Write16: flush first when the two little-endian bytes of the
`uint16_t` argument would exceed the capacity, then append both. -/
def Comm_Write16 (s : SendBuf) (v : Nat) : SendBuf :=
  let w := v % 65536
  let s1 := if COMM_SEND_BUF_CAP < s.buf.length + 2 then Comm_FlushSend_ok s
    else s
  { s1 with buf := s1.buf ++ [w % 256, w / 256 % 256] }

/-- Comm_Write32: flush first when the four little-endian bytes of the
`uint32_t` argument would exceed the capacity, then append all four. -/
def Comm_Write32 (s : SendBuf) (v : Nat) : SendBuf :=
  let w := v % 4294967296
  let s1 := if COMM_SEND_BUF_CAP < s.buf.length + 4 then Comm_FlushSend_ok s
    else s
  { s1 with buf := s1.buf ++
      [w % 256, w / 256 % 256, w / 65536 % 256, w / 16777216 % 256] }

/-- The loop of Comm_WriteBytes: copy as much as fits, and only when bytes
remain flush and continue — so a large value fills the buffer to capacity
BEFORE the flush.  Fuelled; `length + 2` iterations always suffice. -/
def writeBytesLoop (oracle_fuel : Nat) (s : SendBuf) (p : List Nat) : SendBuf :=
  match oracle_fuel with
  | 0 => s
  | f + 1 =>
    let free := COMM_SEND_BUF_CAP - s.buf.length
    let cl := min p.length free
    let s2 := { s with buf := s.buf ++ (p.take cl).map (· % 256) }
    if cl = p.length then s2
    else writeBytesLoop f (Comm_FlushSend_ok s2) (p.drop cl)

/-- Comm_WriteBytes: the fill-then-flush loop with always-sufficient fuel. -/
def Comm_WriteBytes (s : SendBuf) (p : List Nat) : SendBuf :=
  writeBytesLoop (p.length + 2) s p

/-- Comm_WriteString: a string longer than 65535 bytes quits fatally;
otherwise its u16 length is written, then its raw bytes. -/
def Comm_WriteString (s : SendBuf) (str : List Nat) : Except Unit SendBuf :=
  if 65535 < str.length then .error ()
  else .ok (Comm_WriteBytes (Comm_Write16 s str.length) str)

/-- wireOf: every byte handed to the transport so far, flushed batches
first, then the still-buffered tail. -/
def wireOf (s : SendBuf) : List Nat := s.flushed.flatten ++ s.buf

/-- DG_OnGameMessage: tag byte, then ONE u16 length for the concatenated
prefix and body, then their raw bytes — the length sum is passed to
Comm_Write16 unchecked. -/
def DG_OnGameMessage (s : SendBuf) (pre body : List Nat) : SendBuf :=
  let s1 := Comm_Write8 s AMSG_GAME_MESSAGE
  let s2 := Comm_Write16 s1 (pre.length + body.length)
  let s3 := Comm_WriteBytes s2 pre
  Comm_WriteBytes s3 body

theorem COMM_SEND_BUF_CAP_pos : 0 < COMM_SEND_BUF_CAP := by decide

theorem wireOf_flush (s : SendBuf) : wireOf (Comm_FlushSend_ok s) = wireOf s := by
  rw [Comm_FlushSend_ok]
  by_cases h : s.buf = []
  · rw [if_pos h]
  · rw [if_neg h]
    simp [wireOf, List.flatten_append]

theorem flush_buf_len (s : SendBuf) : (Comm_FlushSend_ok s).buf.length = 0 := by
  rw [Comm_FlushSend_ok]
  by_cases h : s.buf = []
  · rw [if_pos h, h]
    rfl
  · rw [if_neg h]
    rfl

theorem wireOf_write8 (s : SendBuf) (v : Nat) :
    wireOf (Comm_Write8 s v) = wireOf s ++ [v % 256] := by
  rw [Comm_Write8]
  by_cases h : COMM_SEND_BUF_CAP < s.buf.length + 1
  · simp only [if_pos h]
    rw [show wireOf { Comm_FlushSend_ok s with
        buf := (Comm_FlushSend_ok s).buf ++ [v % 256] } =
      wireOf (Comm_FlushSend_ok s) ++ [v % 256] from by
        simp [wireOf, List.append_assoc], wireOf_flush]
  · simp only [if_neg h]
    simp [wireOf, List.append_assoc]

theorem write8_cap (s : SendBuf) (v : Nat)
    (h : s.buf.length ≤ COMM_SEND_BUF_CAP) :
    (Comm_Write8 s v).buf.length ≤ COMM_SEND_BUF_CAP := by
  rw [Comm_Write8]
  by_cases hc : COMM_SEND_BUF_CAP < s.buf.length + 1
  · simp only [if_pos hc, List.length_append, flush_buf_len]
    have := COMM_SEND_BUF_CAP_pos
    simp
    omega
  · simp only [if_neg hc, List.length_append]
    simp
    omega

theorem wireOf_write16 (s : SendBuf) (v : Nat) :
    wireOf (Comm_Write16 s v) = wireOf s ++ enc16 (v % 65536) := by
  rw [Comm_Write16, enc16]
  by_cases h : COMM_SEND_BUF_CAP < s.buf.length + 2
  · simp only [if_pos h]
    rw [show wireOf { Comm_FlushSend_ok s with
        buf := (Comm_FlushSend_ok s).buf ++ [v % 65536 % 256, v % 65536 / 256 % 256] } =
      wireOf (Comm_FlushSend_ok s) ++ [v % 65536 % 256, v % 65536 / 256 % 256] from by
        simp [wireOf, List.append_assoc], wireOf_flush]
  · simp only [if_neg h]
    simp [wireOf, List.append_assoc]

theorem write16_cap (s : SendBuf) (v : Nat)
    (h : s.buf.length ≤ COMM_SEND_BUF_CAP) :
    (Comm_Write16 s v).buf.length ≤ COMM_SEND_BUF_CAP := by
  rw [Comm_Write16]
  by_cases hc : COMM_SEND_BUF_CAP < s.buf.length + 2
  · simp only [if_pos hc, List.length_append, flush_buf_len]
    have := COMM_SEND_BUF_CAP_pos
    simp
    simp only [COMM_SEND_BUF_CAP, DOOMGENERIC_SCREEN_BUF_SIZE, SCREENWIDTH,
      SCREENHEIGHT] at *
    omega
  · simp only [if_neg hc, List.length_append]
    simp
    omega

theorem wireOf_write32 (s : SendBuf) (v : Nat) :
    wireOf (Comm_Write32 s v) = wireOf s ++
      [v % 4294967296 % 256, v % 4294967296 / 256 % 256,
       v % 4294967296 / 65536 % 256, v % 4294967296 / 16777216 % 256] := by
  rw [Comm_Write32]
  by_cases h : COMM_SEND_BUF_CAP < s.buf.length + 4
  · simp only [if_pos h]
    rw [show wireOf { Comm_FlushSend_ok s with
        buf := (Comm_FlushSend_ok s).buf ++
          [v % 4294967296 % 256, v % 4294967296 / 256 % 256,
           v % 4294967296 / 65536 % 256, v % 4294967296 / 16777216 % 256] } =
      wireOf (Comm_FlushSend_ok s) ++
        [v % 4294967296 % 256, v % 4294967296 / 256 % 256,
         v % 4294967296 / 65536 % 256, v % 4294967296 / 16777216 % 256] from by
        simp [wireOf, List.append_assoc], wireOf_flush]
  · simp only [if_neg h]
    simp [wireOf, List.append_assoc]

theorem write32_cap (s : SendBuf) (v : Nat)
    (h : s.buf.length ≤ COMM_SEND_BUF_CAP) :
    (Comm_Write32 s v).buf.length ≤ COMM_SEND_BUF_CAP := by
  rw [Comm_Write32]
  by_cases hc : COMM_SEND_BUF_CAP < s.buf.length + 4
  · simp only [if_pos hc, List.length_append, flush_buf_len]
    simp
    simp only [COMM_SEND_BUF_CAP, DOOMGENERIC_SCREEN_BUF_SIZE, SCREENWIDTH,
      SCREENHEIGHT] at *
    omega
  · simp only [if_neg hc, List.length_append]
    simp
    omega

theorem writeBytesLoop_spec (f : Nat) : ∀ s p, s.buf.length ≤ COMM_SEND_BUF_CAP →
    p.length + (if COMM_SEND_BUF_CAP ≤ s.buf.length then 2 else 1) ≤ f →
    (writeBytesLoop f s p).buf.length ≤ COMM_SEND_BUF_CAP ∧
    wireOf (writeBytesLoop f s p) = wireOf s ++ p.map (· % 256) := by
  induction f with
  | zero =>
    intro s p h hf
    split at hf <;> omega
  | succ g ih =>
    intro s p h hf
    rw [writeBytesLoop]
    by_cases hcl : min p.length (COMM_SEND_BUF_CAP - s.buf.length) = p.length
    · rw [if_pos hcl]
      constructor
      · simp only [List.length_append, List.length_map, List.length_take]
        omega
      · rw [hcl, List.take_length]
        simp [wireOf, List.append_assoc]
    · rw [if_neg hcl]
      have hmin : min p.length (COMM_SEND_BUF_CAP - s.buf.length) =
          COMM_SEND_BUF_CAP - s.buf.length := by omega
      have hflen : (Comm_FlushSend_ok { s with buf := s.buf ++ (p.take (min p.length (COMM_SEND_BUF_CAP - s.buf.length))).map (· % 256) }).buf.length = 0 :=
        flush_buf_len _
      obtain ⟨h1, h2⟩ := ih (Comm_FlushSend_ok { s with buf := s.buf ++ (p.take (min p.length (COMM_SEND_BUF_CAP - s.buf.length))).map (· % 256) })
        (p.drop (min p.length (COMM_SEND_BUF_CAP - s.buf.length)))
        (by rw [hflen]; exact Nat.zero_le _)
        (by
          rw [hflen, if_neg (by have := COMM_SEND_BUF_CAP_pos; omega)]
          simp only [List.length_drop]
          split at hf <;> omega)
      refine ⟨h1, ?_⟩
      rw [h2, wireOf_flush]
      show wireOf { s with buf := s.buf ++ _ } ++ _ = _
      simp only [wireOf, List.append_assoc]
      rw [← List.map_append, List.take_append_drop]

theorem Comm_WriteBytes_spec (s : SendBuf) (p : List Nat)
    (h : s.buf.length ≤ COMM_SEND_BUF_CAP) :
    (Comm_WriteBytes s p).buf.length ≤ COMM_SEND_BUF_CAP ∧
    wireOf (Comm_WriteBytes s p) = wireOf s ++ p.map (· % 256) :=
  writeBytesLoop_spec (p.length + 2) s p h (by split <;> omega)

theorem writeBytesLoop_succ (f : Nat) (s : SendBuf) (p : List Nat) :
    writeBytesLoop (f + 1) s p =
      if min p.length (COMM_SEND_BUF_CAP - s.buf.length) = p.length then
        { s with buf := s.buf ++ (p.take (min p.length (COMM_SEND_BUF_CAP - s.buf.length))).map (· % 256) }
      else writeBytesLoop f
        (Comm_FlushSend_ok { s with buf := s.buf ++ (p.take (min p.length (COMM_SEND_BUF_CAP - s.buf.length))).map (· % 256) })
        (p.drop (min p.length (COMM_SEND_BUF_CAP - s.buf.length))) := rfl

theorem write8_flush_first (s : SendBuf) (v : Nat) :
    Comm_Write8 s v =
      if COMM_SEND_BUF_CAP < s.buf.length + 1 then
        { buf := [v % 256], flushed := s.flushed ++ [s.buf] }
      else { s with buf := s.buf ++ [v % 256] } := by
  rw [Comm_Write8]
  by_cases h : COMM_SEND_BUF_CAP < s.buf.length + 1
  · simp only [if_pos h]
    rw [Comm_FlushSend_ok, if_neg (by
      intro hcon
      rw [hcon] at h
      exact absurd h (by decide))]
    rfl
  · simp only [if_neg h]

theorem write16_flush_first (s : SendBuf) (v : Nat) :
    Comm_Write16 s v =
      if COMM_SEND_BUF_CAP < s.buf.length + 2 then
        { buf := [v % 65536 % 256, v % 65536 / 256 % 256],
          flushed := s.flushed ++ [s.buf] }
      else { s with buf := s.buf ++ [v % 65536 % 256, v % 65536 / 256 % 256] } := by
  rw [Comm_Write16]
  by_cases h : COMM_SEND_BUF_CAP < s.buf.length + 2
  · simp only [if_pos h]
    rw [Comm_FlushSend_ok, if_neg (by
      intro hcon
      rw [hcon] at h
      exact absurd h (by decide))]
    rfl
  · simp only [if_neg h]

theorem write32_flush_first (s : SendBuf) (v : Nat) :
    Comm_Write32 s v =
      if COMM_SEND_BUF_CAP < s.buf.length + 4 then
        { buf := [v % 4294967296 % 256, v % 4294967296 / 256 % 256, v % 4294967296 / 65536 % 256, v % 4294967296 / 16777216 % 256],
          flushed := s.flushed ++ [s.buf] }
      else { s with buf := s.buf ++ [v % 4294967296 % 256, v % 4294967296 / 256 % 256, v % 4294967296 / 65536 % 256, v % 4294967296 / 16777216 % 256] } := by
  rw [Comm_Write32]
  by_cases h : COMM_SEND_BUF_CAP < s.buf.length + 4
  · simp only [if_pos h]
    rw [Comm_FlushSend_ok, if_neg (by
      intro hcon
      rw [hcon] at h
      exact absurd h (by decide))]
    rfl
  · simp only [if_neg h]

/-- C3 (amended): the fixed-size encoders Comm_Write8/16/32 are atomic —
each flushes first exactly when appending would exceed the capacity and
only then appends its value's bytes in one piece — and every encoder,
including Comm_WriteBytes, keeps the buffer length within capacity and
appends exactly its value's bytes to the wire; but Comm_WriteBytes (and
hence the string payload of Comm_WriteString) fills the buffer to capacity
BEFORE flushing, so a multi-byte payload CAN be split across two flush
batches (see the counterexample). -/
theorem C3_sendbuf_encoders_amended (s : SendBuf) (v p : Nat → Nat)
    (bs : List Nat) (h : s.buf.length ≤ COMM_SEND_BUF_CAP) :
    (Comm_Write8 s (v 8) =
      if COMM_SEND_BUF_CAP < s.buf.length + 1 then
        { buf := [v 8 % 256], flushed := s.flushed ++ [s.buf] }
      else { s with buf := s.buf ++ [v 8 % 256] }) ∧
    (Comm_Write16 s (v 16) =
      if COMM_SEND_BUF_CAP < s.buf.length + 2 then
        { buf := [v 16 % 65536 % 256, v 16 % 65536 / 256 % 256],
          flushed := s.flushed ++ [s.buf] }
      else { s with buf := s.buf ++ [v 16 % 65536 % 256, v 16 % 65536 / 256 % 256] }) ∧
    (Comm_Write32 s (v 32) =
      if COMM_SEND_BUF_CAP < s.buf.length + 4 then
        { buf := [v 32 % 4294967296 % 256, v 32 % 4294967296 / 256 % 256, v 32 % 4294967296 / 65536 % 256, v 32 % 4294967296 / 16777216 % 256],
          flushed := s.flushed ++ [s.buf] }
      else { s with buf := s.buf ++ [v 32 % 4294967296 % 256, v 32 % 4294967296 / 256 % 256, v 32 % 4294967296 / 65536 % 256, v 32 % 4294967296 / 16777216 % 256] }) ∧
    (Comm_Write8 s (v 8)).buf.length ≤ COMM_SEND_BUF_CAP ∧
    (Comm_Write16 s (v 16)).buf.length ≤ COMM_SEND_BUF_CAP ∧
    (Comm_Write32 s (v 32)).buf.length ≤ COMM_SEND_BUF_CAP ∧
    (Comm_WriteBytes s bs).buf.length ≤ COMM_SEND_BUF_CAP ∧
    wireOf (Comm_Write8 s (v 8)) = wireOf s ++ [v 8 % 256] ∧
    wireOf (Comm_Write16 s (v 16)) = wireOf s ++ enc16 (v 16 % 65536) ∧
    wireOf (Comm_WriteBytes s bs) = wireOf s ++ bs.map (· % 256) :=
  ⟨write8_flush_first s (v 8), write16_flush_first s (v 16),
    write32_flush_first s (v 32), write8_cap s (v 8) h, write16_cap s (v 16) h,
    write32_cap s (v 32) h, (Comm_WriteBytes_spec s bs h).1,
    wireOf_write8 s (v 8), wireOf_write16 s (v 16),
    (Comm_WriteBytes_spec s bs h).2⟩

/-- C3 witness: encoders on an empty buffer append their value's bytes. -/
theorem C3_sendbuf_encoders_amended_witness :
    (Comm_Write8 { buf := [], flushed := [] } 300 = { buf := [44], flushed := [] }) ∧
    (Comm_Write16 { buf := [], flushed := [] } 300 = { buf := [44, 1], flushed := [] }) ∧
    (Comm_Write32 { buf := [], flushed := [] } 300 = { buf := [44, 1, 0, 0], flushed := [] }) ∧
    (Comm_Write8 { buf := [], flushed := [] } 300).buf.length ≤ COMM_SEND_BUF_CAP ∧
    (Comm_Write16 { buf := [], flushed := [] } 300).buf.length ≤ COMM_SEND_BUF_CAP ∧
    (Comm_Write32 { buf := [], flushed := [] } 300).buf.length ≤ COMM_SEND_BUF_CAP ∧
    (Comm_WriteBytes { buf := [], flushed := [] } [65, 66]).buf.length ≤ COMM_SEND_BUF_CAP ∧
    wireOf (Comm_Write8 { buf := [], flushed := [] } 300) = [44] ∧
    wireOf (Comm_Write16 { buf := [], flushed := [] } 300) = [44, 1] ∧
    wireOf (Comm_WriteBytes { buf := [], flushed := [] } [65, 66]) = [65, 66] :=
  C3_sendbuf_encoders_amended { buf := [], flushed := [] } (fun _ => 300)
    (fun _ => 0) [65, 66] (by decide)

set_option maxRecDepth 8192 in
/-- C3 counterexample: with the buffer one byte short of capacity,
Comm_WriteBytes of a 2-byte value puts the value's FIRST byte into the
flushed batch and leaves its second byte buffered — the value is split
across the flush, instead of the claimed flush-first-then-append. -/
theorem C3_writebytes_split_counterexample :
    Comm_WriteBytes { buf := List.replicate (COMM_SEND_BUF_CAP - 1) 0, flushed := [] } [1, 2] =
      { buf := [2], flushed := [List.replicate (COMM_SEND_BUF_CAP - 1) 0 ++ [1]] } ∧
    Comm_WriteBytes { buf := List.replicate (COMM_SEND_BUF_CAP - 1) 0, flushed := [] } [1, 2] ≠
      { buf := [1, 2], flushed := [List.replicate (COMM_SEND_BUF_CAP - 1) 0] } := by
  have hR : (List.replicate (COMM_SEND_BUF_CAP - 1) (0 : Nat)).length =
      COMM_SEND_BUF_CAP - 1 := List.length_replicate _ _
  have hmin : min ([1, 2] : List Nat).length
      (COMM_SEND_BUF_CAP - (COMM_SEND_BUF_CAP - 1)) = 1 := by
    norm_num [COMM_SEND_BUF_CAP, DOOMGENERIC_SCREEN_BUF_SIZE, SCREENWIDTH,
      SCREENHEIGHT]
  have hmain : Comm_WriteBytes { buf := List.replicate (COMM_SEND_BUF_CAP - 1) 0, flushed := [] } [1, 2] =
      { buf := [2], flushed := [List.replicate (COMM_SEND_BUF_CAP - 1) 0 ++ [1]] } := by
    show writeBytesLoop (3 + 1) _ _ = _
    rw [writeBytesLoop_succ]
    rw [show ({ buf := List.replicate (COMM_SEND_BUF_CAP - 1) 0, flushed := [] } : SendBuf).buf.length = COMM_SEND_BUF_CAP - 1 from hR]
    rw [hmin]
    rw [if_neg (by norm_num)]
    have hne : (List.replicate (COMM_SEND_BUF_CAP - 1) (0 : Nat) ++
        ([1, 2].take 1).map (· % 256)) ≠ [] := by
      intro hcon
      have hlencon := congrArg List.length hcon
      simp only [List.length_append, List.length_replicate, List.length_nil,
        List.length_map, List.length_take] at hlencon
      omega
    rw [show Comm_FlushSend_ok { buf := List.replicate (COMM_SEND_BUF_CAP - 1) 0 ++ ([1, 2].take 1).map (· % 256), flushed := ([] : List (List Nat)) } =
        { buf := [], flushed := [List.replicate (COMM_SEND_BUF_CAP - 1) 0 ++ ([1, 2].take 1).map (· % 256)] } from by
      rw [Comm_FlushSend_ok, if_neg hne]
      rfl]
    rw [show (3 : Nat) = 2 + 1 from rfl, writeBytesLoop_succ]
    rw [if_pos (by
      norm_num [COMM_SEND_BUF_CAP, DOOMGENERIC_SCREEN_BUF_SIZE, SCREENWIDTH,
        SCREENHEIGHT])]
    rfl
  refine ⟨hmain, ?_⟩
  rw [hmain]
  intro hcon
  have := congrArg (fun x => x.buf) hcon
  simp at this

/-- C5: the wire form of DG_OnGameMessage — the single u16 length field
holds the prefix+body byte count REDUCED MOD 65536 (Comm_Write16's uint16_t
conversion), with no oversize check, unlike Comm_WriteString which fails
fatally past 65535; so for a combined payload of 65536 bytes or more the
length field no longer equals the number of payload bytes that follow. -/
theorem C5_game_message_length_truncation (s : SendBuf) (pre body : List Nat)
    (h : s.buf.length ≤ COMM_SEND_BUF_CAP) :
    wireOf (DG_OnGameMessage s pre body) = wireOf s ++
      AMSG_GAME_MESSAGE :: (enc16 ((pre.length + body.length) % 65536) ++
        (pre.map (· % 256) ++ body.map (· % 256))) ∧
    ((pre.length + body.length) % 65536 ≠ pre.length + body.length ↔
      65536 ≤ pre.length + body.length) ∧
    (∀ str : List Nat, 65535 < str.length → Comm_WriteString s str = .error ()) := by
  refine ⟨?_, by omega, ?_⟩
  · have hc1 : (Comm_Write8 s AMSG_GAME_MESSAGE).buf.length ≤ COMM_SEND_BUF_CAP :=
      write8_cap s _ h
    have hc2 : (Comm_Write16 (Comm_Write8 s AMSG_GAME_MESSAGE)
        (pre.length + body.length)).buf.length ≤ COMM_SEND_BUF_CAP :=
      write16_cap _ _ hc1
    have hc3 := (Comm_WriteBytes_spec (Comm_Write16 (Comm_Write8 s
      AMSG_GAME_MESSAGE) (pre.length + body.length)) pre hc2).1
    rw [DG_OnGameMessage]
    rw [(Comm_WriteBytes_spec _ body hc3).2, (Comm_WriteBytes_spec _ pre hc2).2,
      wireOf_write16, wireOf_write8]
    simp [AMSG_GAME_MESSAGE, List.append_assoc]
  · intro str hlen
    rw [Comm_WriteString, if_pos hlen]

/-- C5 witness: a 65536-byte prefix with empty body — the length field wraps
to 0 while 65536 payload bytes follow. -/
theorem C5_game_message_length_truncation_witness :
    ([] : List Nat).length ≤ COMM_SEND_BUF_CAP ∧
    (wireOf (DG_OnGameMessage { buf := [], flushed := [] }
        (List.replicate 65536 65) []) =
      wireOf { buf := [], flushed := [] } ++
        AMSG_GAME_MESSAGE :: (enc16 (((List.replicate 65536 (65 : Nat)).length + ([] : List Nat).length) % 65536) ++
          ((List.replicate 65536 (65 : Nat)).map (· % 256) ++ ([] : List Nat).map (· % 256))) ∧
    (((List.replicate 65536 (65 : Nat)).length + ([] : List Nat).length) % 65536 ≠
        (List.replicate 65536 (65 : Nat)).length + ([] : List Nat).length ↔
      65536 ≤ (List.replicate 65536 (65 : Nat)).length + ([] : List Nat).length) ∧
    (∀ str : List Nat, 65535 < str.length →
      Comm_WriteString { buf := [], flushed := [] } str = .error ())) :=
  ⟨by decide, C5_game_message_length_truncation { buf := [], flushed := [] }
    (List.replicate 65536 65) [] (by decide)⟩

/-- The send loop of Comm_FlushSend in closing mode: `ret == -1 && !closing`
skips all error handling, and only `ret > 0` advances `sent`; the send
outcome of call number `i` is `oracle i` (`none` for -1).  Fuel counts loop
iterations; `none` means the loop was still running when fuel ran out. -/
def flushClosingLoop (oracle : Nat → Option Nat) :
    Nat → Nat → Nat → Nat → Option Nat
  | 0, _, _, _ => none
  | f + 1, i, sent, len =>
    if len ≤ sent then some sent
    else match oracle i with
      | none => flushClosingLoop oracle f (i + 1) sent len
      | some ret => flushClosingLoop oracle f (i + 1) (sent + ret) len

/-- C8: the closing-mode flush loop never terminates under persistently
failing sends — with every `send` returning -1 (e.g. EAGAIN, which
MSG_DONTWAIT makes routine), no fuel bound suffices for the loop to exit,
because the closing mode skips the error handling and `sent` never
advances. -/
theorem C8_shutdown_flush_busy_loop (fuel i sent len : Nat) (h : sent < len) :
    flushClosingLoop (fun _ => none) fuel i sent len = none := by
  induction fuel generalizing i with
  | zero => rfl
  | succ f ih =>
    rw [flushClosingLoop, if_neg (by omega)]
    exact ih (i + 1)

/-- C8 witness: 1000 iterations on a 5-byte buffer with every send
failing — still looping. -/
theorem C8_shutdown_flush_busy_loop_witness :
    0 < 5 ∧ flushClosingLoop (fun _ => none) 1000 0 0 5 = none :=
  ⟨by decide, C8_shutdown_flush_busy_loop 1000 0 0 5 (by decide)⟩

/-! ### MaybeSendPlayerStatus: player-status delta suppression -/

/-- Modelled from the spec: `am_noammo` is the ammotype enum's no-ammo
sentinel from the vendored DOOM headers (the four real ammo types 0..3,
NUMAMMO = 4, then `am_noammo` = 5); the spec's status message sends ready
ammo -1 for weapons that use no ammo. -/
def am_noammo : Nat := 5

/-- player_t: the fields of the DOOM player structure that
MaybeSendPlayerStatus reads, with the ready weapon's ammo type
(`weaponinfo[p->readyweapon].ammo`, a table lookup in the vendored game
code) passed in as `ready_ammo_type`. -/
structure player_t where
  health : Int
  armorpoints : Int
  ready_ammo_type : Nat
  ammo : List Int
  maxammo : List Int
  weaponowned : List Bool
  cards : List Bool
deriving DecidableEq, Repr

/-- player_status_t: the snapshot compared against the last sent one. -/
structure player_status_t where
  health : Int
  armorpoints : Int
  ready_ammo : Int
  ammo : List Int
  maxammo : List Int
  arms_bits : Nat
  key_bits : Nat
deriving DecidableEq, Repr

/-- statusOf: the snapshot computation of MaybeSendPlayerStatus — ready
ammo is -1 for am_noammo, arms bits collect weapon slots 2-7 (owned
weapons 1..6), key bits OR each card with its skull counterpart
(card order per the spec: blue, yellow, red cards then blue, yellow, red
skulls). -/
def statusOf (p : player_t) : player_status_t :=
  { health := p.health,
    armorpoints := p.armorpoints,
    ready_ammo := if p.ready_ammo_type = am_noammo then -1
      else p.ammo.getD p.ready_ammo_type 0,
    ammo := p.ammo,
    maxammo := p.maxammo,
    arms_bits := (List.range 6).foldl (fun acc i =>
      acc ||| ((if p.weaponowned.getD (i + 1) false then 1 else 0) <<< i)) 0,
    key_bits :=
      (if p.cards.getD 0 false || p.cards.getD 3 false then 1 else 0) |||
      ((if p.cards.getD 1 false || p.cards.getD 4 false then 1 else 0) <<< 1) |||
      ((if p.cards.getD 2 false || p.cards.getD 5 false then 1 else 0) <<< 2) }

/-- statusUnchanged: the field-by-field comparison against the last sent
status (the memcmp calls compare the fixed-size ammo arrays). -/
def statusUnchanged (a b : player_status_t) : Bool :=
  a.health = b.health ∧ a.armorpoints = b.armorpoints ∧
    a.ready_ammo = b.ready_ammo ∧ a.ammo = b.ammo ∧ a.maxammo = b.maxammo ∧
    a.arms_bits = b.arms_bits ∧ a.key_bits = b.key_bits

/-- toU16: the C conversion of an int field to the uint16_t parameter of
Comm_Write16. -/
def toU16 (i : Int) : Nat := (i % 65536).toNat

/-- encodeStatus: the status message appended by MaybeSendPlayerStatus. -/
def encodeStatus (s : SendBuf) (st : player_status_t) : SendBuf :=
  let s1 := Comm_Write8 s AMSG_PLAYER_STATUS
  let s2 := Comm_Write16 s1 (toU16 st.health)
  let s3 := Comm_Write16 s2 (toU16 st.armorpoints)
  let s4 := Comm_Write16 s3 (toU16 st.ready_ammo)
  let s5 := (List.range 4).foldl
    (fun acc i => Comm_Write16 acc (toU16 (st.ammo.getD i 0))) s4
  let s6 := (List.range 4).foldl
    (fun acc i => Comm_Write16 acc (toU16 (st.maxammo.getD i 0))) s5
  let s7 := Comm_Write8 s6 st.arms_bits
  Comm_Write8 s7 st.key_bits

/-- statusBytes: the 20 wire bytes of one status message. -/
def statusBytes (st : player_status_t) : List Nat :=
  AMSG_PLAYER_STATUS :: (enc16 (toU16 st.health % 65536) ++
    enc16 (toU16 st.armorpoints % 65536) ++ enc16 (toU16 st.ready_ammo % 65536) ++
    enc16 (toU16 (st.ammo.getD 0 0) % 65536) ++ enc16 (toU16 (st.ammo.getD 1 0) % 65536) ++
    enc16 (toU16 (st.ammo.getD 2 0) % 65536) ++ enc16 (toU16 (st.ammo.getD 3 0) % 65536) ++
    enc16 (toU16 (st.maxammo.getD 0 0) % 65536) ++ enc16 (toU16 (st.maxammo.getD 1 0) % 65536) ++
    enc16 (toU16 (st.maxammo.getD 2 0) % 65536) ++ enc16 (toU16 (st.maxammo.getD 3 0) % 65536) ++
    [st.arms_bits % 256, st.key_bits % 256])

/-- MaybeSendPlayerStatus: append the status message and remember it as the
last sent one, unless nothing differs from the last. -/
def MaybeSendPlayerStatus (s : SendBuf) (last : player_status_t)
    (p : player_t) : SendBuf × player_status_t :=
  let status := statusOf p
  if statusUnchanged status last then (s, last)
  else (encodeStatus s status, status)

theorem wireOf_encodeStatus (s : SendBuf) (st : player_status_t) :
    wireOf (encodeStatus s st) = wireOf s ++ statusBytes st := by
  rw [encodeStatus, statusBytes]
  rw [show (List.range 4) = [0, 1, 2, 3] from rfl]
  simp only [List.foldl_cons, List.foldl_nil]
  rw [wireOf_write8, wireOf_write8, wireOf_write16, wireOf_write16,
    wireOf_write16, wireOf_write16, wireOf_write16, wireOf_write16,
    wireOf_write16, wireOf_write16, wireOf_write16, wireOf_write16,
    wireOf_write16]
  simp [AMSG_PLAYER_STATUS, List.append_assoc]
  rw [wireOf_write8]
  simp

/-- C9: player-status delta suppression — MaybeSendPlayerStatus leaves the
send buffer and the remembered last status unchanged exactly when every
compared field (health, armor, ready ammo, per-type ammo and max ammo,
weapon bits, key bits) matches the last sent status; when any field
differs, exactly one status message is appended to the wire and the
remembered status becomes the new snapshot. -/
theorem C9_player_status_delta (s : SendBuf) (last : player_status_t)
    (p : player_t) :
    ((statusOf p).health = last.health ∧
      (statusOf p).armorpoints = last.armorpoints ∧
      (statusOf p).ready_ammo = last.ready_ammo ∧
      (statusOf p).ammo = last.ammo ∧ (statusOf p).maxammo = last.maxammo ∧
      (statusOf p).arms_bits = last.arms_bits ∧
      (statusOf p).key_bits = last.key_bits →
      MaybeSendPlayerStatus s last p = (s, last)) ∧
    (¬ ((statusOf p).health = last.health ∧
      (statusOf p).armorpoints = last.armorpoints ∧
      (statusOf p).ready_ammo = last.ready_ammo ∧
      (statusOf p).ammo = last.ammo ∧ (statusOf p).maxammo = last.maxammo ∧
      (statusOf p).arms_bits = last.arms_bits ∧
      (statusOf p).key_bits = last.key_bits) →
      (MaybeSendPlayerStatus s last p).2 = statusOf p ∧
      wireOf (MaybeSendPlayerStatus s last p).1 =
        wireOf s ++ statusBytes (statusOf p)) := by
  constructor
  · intro heq
    rw [MaybeSendPlayerStatus]
    rw [if_pos (by rw [statusUnchanged]; exact decide_eq_true heq)]
  · intro hne
    rw [MaybeSendPlayerStatus]
    rw [if_neg (by
      rw [statusUnchanged]
      simp only [decide_eq_true_eq]
      exact fun hcon => hne hcon)]
    exact ⟨rfl, wireOf_encodeStatus s (statusOf p)⟩

/-- C9 witness: from the zero status, a player with 100 health triggers a
send; with all-zero fields it is suppressed. -/
theorem C9_player_status_delta_witness :
    ((statusOf { health := 100, armorpoints := 0, ready_ammo_type := 5, ammo := [0, 0, 0, 0], maxammo := [0, 0, 0, 0], weaponowned := [false, false, false, false, false, false, false, false, false], cards := [false, false, false, false, false, false] }).health = ({ health := 100, armorpoints := 0, ready_ammo := -1, ammo := [0, 0, 0, 0], maxammo := [0, 0, 0, 0], arms_bits := 0, key_bits := 0 } : player_status_t).health ∧
      (statusOf { health := 100, armorpoints := 0, ready_ammo_type := 5, ammo := [0, 0, 0, 0], maxammo := [0, 0, 0, 0], weaponowned := [false, false, false, false, false, false, false, false, false], cards := [false, false, false, false, false, false] }).armorpoints = ({ health := 100, armorpoints := 0, ready_ammo := -1, ammo := [0, 0, 0, 0], maxammo := [0, 0, 0, 0], arms_bits := 0, key_bits := 0 } : player_status_t).armorpoints ∧
      (statusOf { health := 100, armorpoints := 0, ready_ammo_type := 5, ammo := [0, 0, 0, 0], maxammo := [0, 0, 0, 0], weaponowned := [false, false, false, false, false, false, false, false, false], cards := [false, false, false, false, false, false] }).ready_ammo = ({ health := 100, armorpoints := 0, ready_ammo := -1, ammo := [0, 0, 0, 0], maxammo := [0, 0, 0, 0], arms_bits := 0, key_bits := 0 } : player_status_t).ready_ammo ∧
      (statusOf { health := 100, armorpoints := 0, ready_ammo_type := 5, ammo := [0, 0, 0, 0], maxammo := [0, 0, 0, 0], weaponowned := [false, false, false, false, false, false, false, false, false], cards := [false, false, false, false, false, false] }).ammo = ({ health := 100, armorpoints := 0, ready_ammo := -1, ammo := [0, 0, 0, 0], maxammo := [0, 0, 0, 0], arms_bits := 0, key_bits := 0 } : player_status_t).ammo ∧
      (statusOf { health := 100, armorpoints := 0, ready_ammo_type := 5, ammo := [0, 0, 0, 0], maxammo := [0, 0, 0, 0], weaponowned := [false, false, false, false, false, false, false, false, false], cards := [false, false, false, false, false, false] }).maxammo = ({ health := 100, armorpoints := 0, ready_ammo := -1, ammo := [0, 0, 0, 0], maxammo := [0, 0, 0, 0], arms_bits := 0, key_bits := 0 } : player_status_t).maxammo ∧
      (statusOf { health := 100, armorpoints := 0, ready_ammo_type := 5, ammo := [0, 0, 0, 0], maxammo := [0, 0, 0, 0], weaponowned := [false, false, false, false, false, false, false, false, false], cards := [false, false, false, false, false, false] }).arms_bits = ({ health := 100, armorpoints := 0, ready_ammo := -1, ammo := [0, 0, 0, 0], maxammo := [0, 0, 0, 0], arms_bits := 0, key_bits := 0 } : player_status_t).arms_bits ∧
      (statusOf { health := 100, armorpoints := 0, ready_ammo_type := 5, ammo := [0, 0, 0, 0], maxammo := [0, 0, 0, 0], weaponowned := [false, false, false, false, false, false, false, false, false], cards := [false, false, false, false, false, false] }).key_bits = ({ health := 100, armorpoints := 0, ready_ammo := -1, ammo := [0, 0, 0, 0], maxammo := [0, 0, 0, 0], arms_bits := 0, key_bits := 0 } : player_status_t).key_bits →
      MaybeSendPlayerStatus { buf := [], flushed := [] } { health := 100, armorpoints := 0, ready_ammo := -1, ammo := [0, 0, 0, 0], maxammo := [0, 0, 0, 0], arms_bits := 0, key_bits := 0 } { health := 100, armorpoints := 0, ready_ammo_type := 5, ammo := [0, 0, 0, 0], maxammo := [0, 0, 0, 0], weaponowned := [false, false, false, false, false, false, false, false, false], cards := [false, false, false, false, false, false] } = ({ buf := [], flushed := [] }, { health := 100, armorpoints := 0, ready_ammo := -1, ammo := [0, 0, 0, 0], maxammo := [0, 0, 0, 0], arms_bits := 0, key_bits := 0 })) ∧
    (¬ ((statusOf { health := 100, armorpoints := 0, ready_ammo_type := 5, ammo := [0, 0, 0, 0], maxammo := [0, 0, 0, 0], weaponowned := [false, false, false, false, false, false, false, false, false], cards := [false, false, false, false, false, false] }).health = ({ health := 100, armorpoints := 0, ready_ammo := -1, ammo := [0, 0, 0, 0], maxammo := [0, 0, 0, 0], arms_bits := 0, key_bits := 0 } : player_status_t).health ∧
      (statusOf { health := 100, armorpoints := 0, ready_ammo_type := 5, ammo := [0, 0, 0, 0], maxammo := [0, 0, 0, 0], weaponowned := [false, false, false, false, false, false, false, false, false], cards := [false, false, false, false, false, false] }).armorpoints = ({ health := 100, armorpoints := 0, ready_ammo := -1, ammo := [0, 0, 0, 0], maxammo := [0, 0, 0, 0], arms_bits := 0, key_bits := 0 } : player_status_t).armorpoints ∧
      (statusOf { health := 100, armorpoints := 0, ready_ammo_type := 5, ammo := [0, 0, 0, 0], maxammo := [0, 0, 0, 0], weaponowned := [false, false, false, false, false, false, false, false, false], cards := [false, false, false, false, false, false] }).ready_ammo = ({ health := 100, armorpoints := 0, ready_ammo := -1, ammo := [0, 0, 0, 0], maxammo := [0, 0, 0, 0], arms_bits := 0, key_bits := 0 } : player_status_t).ready_ammo ∧
      (statusOf { health := 100, armorpoints := 0, ready_ammo_type := 5, ammo := [0, 0, 0, 0], maxammo := [0, 0, 0, 0], weaponowned := [false, false, false, false, false, false, false, false, false], cards := [false, false, false, false, false, false] }).ammo = ({ health := 100, armorpoints := 0, ready_ammo := -1, ammo := [0, 0, 0, 0], maxammo := [0, 0, 0, 0], arms_bits := 0, key_bits := 0 } : player_status_t).ammo ∧
      (statusOf { health := 100, armorpoints := 0, ready_ammo_type := 5, ammo := [0, 0, 0, 0], maxammo := [0, 0, 0, 0], weaponowned := [false, false, false, false, false, false, false, false, false], cards := [false, false, false, false, false, false] }).maxammo = ({ health := 100, armorpoints := 0, ready_ammo := -1, ammo := [0, 0, 0, 0], maxammo := [0, 0, 0, 0], arms_bits := 0, key_bits := 0 } : player_status_t).maxammo ∧
      (statusOf { health := 100, armorpoints := 0, ready_ammo_type := 5, ammo := [0, 0, 0, 0], maxammo := [0, 0, 0, 0], weaponowned := [false, false, false, false, false, false, false, false, false], cards := [false, false, false, false, false, false] }).arms_bits = ({ health := 100, armorpoints := 0, ready_ammo := -1, ammo := [0, 0, 0, 0], maxammo := [0, 0, 0, 0], arms_bits := 0, key_bits := 0 } : player_status_t).arms_bits ∧
      (statusOf { health := 100, armorpoints := 0, ready_ammo_type := 5, ammo := [0, 0, 0, 0], maxammo := [0, 0, 0, 0], weaponowned := [false, false, false, false, false, false, false, false, false], cards := [false, false, false, false, false, false] }).key_bits = ({ health := 100, armorpoints := 0, ready_ammo := -1, ammo := [0, 0, 0, 0], maxammo := [0, 0, 0, 0], arms_bits := 0, key_bits := 0 } : player_status_t).key_bits) →
      (MaybeSendPlayerStatus { buf := [], flushed := [] } { health := 100, armorpoints := 0, ready_ammo := -1, ammo := [0, 0, 0, 0], maxammo := [0, 0, 0, 0], arms_bits := 0, key_bits := 0 } { health := 100, armorpoints := 0, ready_ammo_type := 5, ammo := [0, 0, 0, 0], maxammo := [0, 0, 0, 0], weaponowned := [false, false, false, false, false, false, false, false, false], cards := [false, false, false, false, false, false] }).2 = statusOf { health := 100, armorpoints := 0, ready_ammo_type := 5, ammo := [0, 0, 0, 0], maxammo := [0, 0, 0, 0], weaponowned := [false, false, false, false, false, false, false, false, false], cards := [false, false, false, false, false, false] } ∧
      wireOf (MaybeSendPlayerStatus { buf := [], flushed := [] } { health := 100, armorpoints := 0, ready_ammo := -1, ammo := [0, 0, 0, 0], maxammo := [0, 0, 0, 0], arms_bits := 0, key_bits := 0 } { health := 100, armorpoints := 0, ready_ammo_type := 5, ammo := [0, 0, 0, 0], maxammo := [0, 0, 0, 0], weaponowned := [false, false, false, false, false, false, false, false, false], cards := [false, false, false, false, false, false] }).1 =
        wireOf { buf := [], flushed := [] } ++ statusBytes (statusOf { health := 100, armorpoints := 0, ready_ammo_type := 5, ammo := [0, 0, 0, 0], maxammo := [0, 0, 0, 0], weaponowned := [false, false, false, false, false, false, false, false, false], cards := [false, false, false, false, false, false] })) :=
  C9_player_status_delta { buf := [], flushed := [] }
    { health := 100, armorpoints := 0, ready_ammo := -1, ammo := [0, 0, 0, 0], maxammo := [0, 0, 0, 0], arms_bits := 0, key_bits := 0 }
    { health := 100, armorpoints := 0, ready_ammo_type := 5, ammo := [0, 0, 0, 0], maxammo := [0, 0, 0, 0], weaponowned := [false, false, false, false, false, false, false, false, false], cards := [false, false, false, false, false, false] }
